import Mathlib

/-!
# Flatten / expand protocol of the CasOC transcription

A shallow embedding of `CasOC::Transcription` (CasOCTranscription.h): the conversion between
the structured, kind-indexed variables and constraints of a transcribed optimal control problem
and the flat vectors handed to the NLP solver.

Conventions of the embedding.

* A casadi dense matrix is a `Mat`: its shape and its entries in column-major order, which is
  the order in which casadi stores the entries of a dense matrix.
* A C++ exception is an `Except.error`; `Error` says which one.
* The integer members `m_numGridPoints`, `m_numMeshPoints`, ... are sizes; they are natural
  numbers here.
* Times (`m_grid`, the solver's mesh) are only ever compared with `<`; they are elements of an
  arbitrary linear order.
* The two copies of the constraint traversal (in `flattenConstraints` and in
  `expandConstraints`) are one definition, `traverse`, with the lambda `copyColumn` as an
  argument.
-/

namespace CasOC

/-- The exceptions of the embedded code. -/
inductive Error
  /-- An `OpenSim::Exception` with the message "Internal error.". -/
  | internalError
  /-- The `OpenSim::Exception` of `createKinematicConstraintIndices` about the shape. -/
  | badShape
  /-- An index, a slice or a key that is out of range (casadi, `std::out_of_range`). -/
  | outOfRange
deriving DecidableEq, Repr

deriving instance DecidableEq for Except

/-- Modelled from the spec: the enumeration `Var` is declared in CasOCProblem.h, which is not
among the sources. A variable kind is represented by its enumerated tag, and kinds are ordered
as their tags are. -/
abbrev Var := Nat

/-- A dense casadi matrix: `rows`, `columns` and the entries in column-major order. -/
structure Mat (T : Type) where
  rows : Nat
  cols : Nat
  data : List T
deriving DecidableEq, Repr

namespace Mat

variable {T : Type}

/-- The number of entries, `numel()`. -/
def numel (m : Mat T) : Nat := m.rows * m.cols

/-- A matrix is dense when it stores one entry per position. -/
def Dense (m : Mat T) : Prop := m.data.length = m.rows * m.cols

instance (m : Mat T) : Decidable m.Dense := by unfold Dense; infer_instance

/-- The matrix has the shape `r` by `c` and is dense. -/
def HasShape (m : Mat T) (r c : Nat) : Prop := m.rows = r ∧ m.cols = c ∧ m.data.length = r * c

instance (m : Mat T) (r c : Nat) : Decidable (m.HasShape r c) := by unfold HasShape; infer_instance

/-- The entry in row `i` and column `j`. -/
def entry (m : Mat T) (i j : Nat) : Option T :=
  if i < m.rows ∧ j < m.cols then m.data[j * m.rows + i]? else none

/-- The column vector with the given entries. -/
def column (l : List T) : Mat T := ⟨l.length, 1, l⟩

/-- The dense matrix of zeros, `T(casadi::Sparsity::dense(r, c))`. -/
def dense [Zero T] (r c : Nat) : Mat T := ⟨r, c, List.replicate (r * c) 0⟩

/-- The read `x(Slice(start, stop))` with a single (linear, column-major) index: a column vector.
casadi refuses a slice that ends after the last entry. -/
def slice (x : Mat T) (start stop : Nat) : Except Error (Mat T) :=
  if stop ≤ x.numel then .ok ⟨stop - start, 1, (x.data.drop start).take (stop - start)⟩
  else .error .outOfRange

/-- The function `reshape(m, r, c)`: the same entries in column-major order under a new shape.
casadi refuses to change the number of entries. -/
def reshape (m : Mat T) (r c : Nat) : Except Error (Mat T) :=
  if m.numel = r * c then .ok ⟨r, c, m.data⟩ else .error .outOfRange

/-- The function `veccat`: every matrix is vectorised column by column and the columns are
concatenated vertically. -/
def veccat (ms : List (Mat T)) : Mat T :=
  ⟨(ms.map numel).sum, 1, (ms.map data).flatten⟩

end Mat

/-- The container `Variables<T>`, a `std::unordered_map<Var, T>`: the entries in the order in
which the map iterates over them. A map holds every key once (`Variables.Valid`). -/
abbrev Variables (T : Type) := List (Var × T)

namespace Variables

variable {T : Type}

/-- The keys in iteration order. -/
def keys (vars : Variables T) : List Var := vars.map Prod.fst

/-- A map holds every key at most once. -/
def Valid (vars : Variables T) : Prop := vars.keys.Nodup

instance (vars : Variables T) : Decidable vars.Valid := by unfold Valid; infer_instance

/-- The checked access `vars.at(key)`, which throws `std::out_of_range` for a missing key. -/
def «at» (vars : Variables T) (key : Var) : Except Error T :=
  match vars.lookup key with
  | some v => .ok v
  | none => .error .outOfRange

/-- The assignment `out[key] = value`: the entry of `key` is replaced or created. -/
def assign (vars : Variables T) (key : Var) (value : T) : Variables T :=
  (key, value) :: vars.filter (fun kv => kv.1 != key)

end Variables

/-- The keys of the map, sorted (`getSortedVarKeys`). -/
def getSortedVarKeys {T : Type} (vars : Variables T) : List Var :=
  (vars.map Prod.fst).insertionSort (· ≤ ·)

/-- The loop of `flattenVariables`: the matrix of every key is pushed onto `stdvec`. -/
def flattenVariablesLoop {T : Type} (vars : Variables (Mat T)) :
    List Var → List (Mat T) → Except Error (List (Mat T))
  | [], stdvec => .ok stdvec
  | key :: keys, stdvec => do
    let value ← vars.at key
    flattenVariablesLoop vars keys (stdvec ++ [value])

/-- The function `flattenVariables`: the map of variables as one column vector. -/
def flattenVariables {T : Type} (vars : Variables (Mat T)) : Except Error (Mat T) := do
  let stdvec ← flattenVariablesLoop vars (getSortedVarKeys vars) []
  pure (Mat.veccat stdvec)

/-- The loop of `expandVariables` over the sorted keys of `m_vars`, with the map `out` and the
running `offset`. -/
def expandVariablesLoop {S T : Type} (m_vars : Variables (Mat S)) (x : Mat T) :
    List Var → Variables (Mat T) → Nat → Except Error (Variables (Mat T))
  | [], out, _ => .ok out
  | key :: keys, out, offset => do
    let value ← m_vars.at key
    let part ← x.slice offset (offset + value.numel)
    let matrix ← part.reshape value.rows value.cols
    expandVariablesLoop m_vars x keys (out.assign key matrix) (offset + value.numel)

/-- The function `expandVariables`: the column vector `x` cut into one matrix per kind of
`m_vars`, each of the shape that `m_vars` has for that kind. -/
def expandVariables {S T : Type} (m_vars : Variables (Mat S)) (x : Mat T) :
    Except Error (Variables (Mat T)) :=
  expandVariablesLoop m_vars x (getSortedVarKeys m_vars) [] 0

/-- The struct `Constraints<T>` over the matrix type `M`: the defects, the residuals, the
kinematic constraints and the list of path constraint blocks. -/
structure Constraints (M : Type) where
  defects : M
  residuals : M
  kinematic : M
  path : List M
deriving DecidableEq, Repr

/-- The members of a `Transcription` that the flattening and the expansion of the constraints
read. `mesh` is `m_solver.getMesh()`; `numKinematicConstraintEquations` and
`pathConstraintInfos` (the sizes `info.size()`, in order) come from `m_problem`;
`numPathConstraints` is `m_constraints.path.size()`. -/
structure Transcription (τ : Type) where
  numGridPoints : Nat
  numMeshPoints : Nat
  numMeshIntervals : Nat
  numDefectsPerGridPoint : Nat
  numResiduals : Nat
  numConstraints : Nat
  grid : List τ
  mesh : List τ
  numKinematicConstraintEquations : Nat
  pathConstraintInfos : List Nat
  numPathConstraints : Nat
deriving DecidableEq, Repr

namespace Mat

variable {T : Type}

/-- The read `matrix(Slice(), columnIndex)`: the entries of one column, from the first row
down. casadi refuses a column that the matrix does not have. -/
def getColumn (m : Mat T) (columnIndex : Nat) : Except Error (List T) :=
  if columnIndex < m.cols then .ok ((m.data.drop (columnIndex * m.rows)).take m.rows)
  else .error .outOfRange

/-- The write `matrix(Slice(), columnIndex) = v`. -/
def setColumn (m : Mat T) (columnIndex : Nat) (v : List T) : Except Error (Mat T) :=
  if columnIndex < m.cols then
    .ok { m with data := m.data.take (columnIndex * m.rows) ++ v ++
            m.data.drop (columnIndex * m.rows + m.rows) }
  else .error .outOfRange

/-- The write `flat(Slice(start, stop)) = v` with a single (linear) index. -/
def setSlice (flat : Mat T) (start stop : Nat) (v : List T) : Except Error (Mat T) :=
  if stop ≤ flat.numel then
    .ok { flat with data := flat.data.take start ++ v ++ flat.data.drop stop }
  else .error .outOfRange

end Mat

section Traversal

variable {τ : Type} [LT τ] [DecidableRel (fun a b : τ => a < b)] {α σ : Type}

/-- The loop `while (m_grid(igrid).scalar() < m_solver.getMesh()[imesh + 1])` of
`flattenConstraints` and `expandConstraints`. `bound` is the mesh time, the list is the grid
from index `igrid` on: its head is `m_grid(igrid)`, and reading the grid past its end is an
error. The loop returns the final `igrid`. -/
def residualLoop (copyColumn : α → Nat → σ → Except Error σ) (residuals : α) (bound : τ) :
    List τ → Nat → σ → Except Error (Nat × σ)
  | [], _, _ => .error .outOfRange
  | g :: rest, igrid, s =>
    if g < bound then do
      let s ← copyColumn residuals igrid s
      residualLoop copyColumn residuals bound rest (igrid + 1) s
    else .ok (igrid, s)

/-- The loop `for (int imesh = 0; imesh < m_numMeshPoints; ++imesh)` of `flattenConstraints`
and `expandConstraints`, which differ in their `copyColumn` and in what a matrix handle `α`
is. The first number counts the iterations that remain. Reading the mesh past its end, which
C++ leaves undefined, is an error. -/
def meshLoop (t : Transcription τ) (copyColumn : α → Nat → σ → Except Error σ)
    (constraints : Constraints α) : Nat → Nat → Nat → σ → Except Error (Nat × σ)
  | 0, _, igrid, s => .ok (igrid, s)
  | n + 1, imesh, igrid, s => do
    let s ← copyColumn constraints.kinematic imesh s
    let s ← constraints.path.foldlM (fun s path => copyColumn path imesh s) s
    if imesh < t.numMeshIntervals then
      match t.mesh[imesh + 1]? with
      | none => .error .outOfRange
      | some bound => do
        let r ← residualLoop copyColumn constraints.residuals bound (t.grid.drop igrid) igrid s
        let s ← copyColumn constraints.defects imesh r.2
        meshLoop t copyColumn constraints n (imesh + 1) r.1 s
    else meshLoop t copyColumn constraints n (imesh + 1) igrid s

/-- The traversal shared by `flattenConstraints` and `expandConstraints`: the loop over the
mesh points, then the residual at the final grid point. -/
def traverse (t : Transcription τ) (copyColumn : α → Nat → σ → Except Error σ)
    (constraints : Constraints α) (s : σ) : Except Error σ := do
  let r ← meshLoop t copyColumn constraints t.numMeshPoints 0 0 s
  copyColumn constraints.residuals (t.numGridPoints - 1) r.2

/-- A `copyColumn` that only records which column of which matrix is copied. -/
def logColumn (matrix : α) (columnIndex : Nat) (log : List (α × Nat)) :
    Except Error (List (α × Nat)) :=
  .ok (log ++ [(matrix, columnIndex)])

/-- The sequence of the `copyColumn` calls of the traversal. -/
def emission (t : Transcription τ) (constraints : Constraints α) :
    Except Error (List (α × Nat)) :=
  traverse t logColumn constraints []

end Traversal

section Flatten

variable {τ : Type} [LT τ] [DecidableRel (fun a b : τ => a < b)] {T : Type}

/-- The variables `flat` and `iflat` of `flattenConstraints`. -/
structure FlattenState (T : Type) where
  flat : Mat T
  iflat : Nat
deriving DecidableEq, Repr

/-- The lambda `copyColumn` of `flattenConstraints`. -/
def flattenCopyColumn (matrix : Mat T) (columnIndex : Nat) (s : FlattenState T) :
    Except Error (FlattenState T) :=
  if matrix.rows ≠ 0 then do
    let col ← matrix.getColumn columnIndex
    let flat ← s.flat.setSlice s.iflat (s.iflat + matrix.rows) col
    pure ⟨flat, s.iflat + matrix.rows⟩
  else pure s

/-- The body of `flattenConstraints` up to the final check: `flat` and `iflat` on exit. -/
def flattenConstraintsRun [Zero T] (t : Transcription τ) (constraints : Constraints (Mat T)) :
    Except Error (FlattenState T) :=
  traverse t flattenCopyColumn constraints ⟨Mat.dense t.numConstraints 1, 0⟩

/-- The function `flattenConstraints`. -/
def flattenConstraints [Zero T] (t : Transcription τ) (constraints : Constraints (Mat T)) :
    Except Error (Mat T) := do
  let s ← flattenConstraintsRun t constraints
  if s.iflat ≠ t.numConstraints then .error .internalError else .ok s.flat

end Flatten

section Expand

variable {τ : Type} [LT τ] [DecidableRel (fun a b : τ => a < b)] {T : Type}

/-- The name of a matrix of a `Constraints` struct: what a reference `T& matrix` into `out`
refers to. -/
inductive Block
  | defects
  | residuals
  | kinematic
  | path (i : Nat)
deriving DecidableEq, Repr

namespace Constraints

/-- The matrix that a name refers to. -/
def get? (c : Constraints (Mat T)) : Block → Option (Mat T)
  | .defects => some c.defects
  | .residuals => some c.residuals
  | .kinematic => some c.kinematic
  | .path i => c.path[i]?

/-- The struct with the named matrix replaced. -/
def set (c : Constraints (Mat T)) : Block → Mat T → Constraints (Mat T)
  | .defects, m => { c with defects := m }
  | .residuals, m => { c with residuals := m }
  | .kinematic, m => { c with kinematic := m }
  | .path i, m => { c with path := c.path.set i m }

/-- The names of the matrices of a struct with `numPath` path constraint blocks. -/
def handles (numPath : Nat) : Constraints Block :=
  ⟨.defects, .residuals, .kinematic, (List.range numPath).map Block.path⟩

end Constraints

/-- The variables `out` and `iflat` of `expandConstraints`. -/
structure ExpandState (T : Type) where
  out : Constraints (Mat T)
  iflat : Nat
deriving DecidableEq, Repr

/-- The lambda `copyColumn` of `expandConstraints`; `matrix` names a matrix of `out`. -/
def expandCopyColumn (flat : Mat T) (matrix : Block) (columnIndex : Nat) (s : ExpandState T) :
    Except Error (ExpandState T) :=
  match s.out.get? matrix with
  | none => .error .outOfRange
  | some m =>
    if m.rows ≠ 0 then do
      let part ← flat.slice s.iflat (s.iflat + m.rows)
      let m' ← m.setColumn columnIndex part.data
      pure ⟨s.out.set matrix m', s.iflat + m.rows⟩
    else pure s

/-- The allocation of `out.path`: `resize` creates empty matrices, and the blocks up to
`m_constraints.path.size()` are then allocated with the declared number of rows. -/
def initPath [Zero T] (t : Transcription τ) : Nat → List Nat → List (Mat T)
  | _, [] => []
  | ipc, size :: infos =>
    (if ipc < t.numPathConstraints then Mat.dense size t.numMeshPoints else ⟨0, 0, []⟩) ::
      initPath t (ipc + 1) infos

/-- The allocation of `out` in `expandConstraints`. A negative number of columns
(`m_numMeshPoints - 1` without mesh points) and an index past the end of the declared path
constraints are errors. -/
def expandInit [Zero T] (t : Transcription τ) : Except Error (Constraints (Mat T)) :=
  if t.numMeshPoints = 0 ∨ t.pathConstraintInfos.length < t.numPathConstraints then
    .error .outOfRange
  else
    .ok { defects := Mat.dense t.numDefectsPerGridPoint (t.numMeshPoints - 1)
          residuals := Mat.dense t.numResiduals t.numGridPoints
          kinematic := Mat.dense t.numKinematicConstraintEquations t.numMeshPoints
          path := initPath t 0 t.pathConstraintInfos }

/-- The body of `expandConstraints` up to the final check: `out` and `iflat` on exit. -/
def expandConstraintsRun [Zero T] (t : Transcription τ) (flat : Mat T) :
    Except Error (ExpandState T) := do
  let out ← expandInit t
  traverse t (expandCopyColumn flat) (Constraints.handles out.path.length) ⟨out, 0⟩

/-- The function `expandConstraints`. -/
def expandConstraints [Zero T] (t : Transcription τ) (flat : Mat T) :
    Except Error (Constraints (Mat T)) := do
  let s ← expandConstraintsRun t flat
  if s.iflat ≠ t.numConstraints then .error .internalError else .ok s.out

end Expand

section KinematicConstraintIndices

variable {T : Type}

/-- The shape of a matrix, `size()`. -/
def Mat.shape (m : Mat T) : Nat × Nat := (m.rows, m.cols)

/-- The function `sum2`: the sum of every row, as a column vector. -/
def Mat.sum2 (m : Mat ℚ) : Mat ℚ :=
  ⟨m.rows, 1, (List.range m.rows).map
    (fun i => ((List.range m.cols).filterMap (fun j => m.entry i j)).sum)⟩

/-- The conversion `scalar()`, which casadi refuses for a matrix that is not 1 by 1. -/
def Mat.scalar (m : Mat T) : Except Error T :=
  if m.rows = 1 ∧ m.cols = 1 then
    match m.data with
    | [x] => .ok x
    | _ => .error .outOfRange
  else .error .outOfRange

/-- The function `createKinematicConstraintIndices`. `kinConIndices` is what the scheme's
`createKinematicConstraintIndicesImpl()` returned, and `isNumericallyEqual` is the comparison
`SimTK::isNumericallyEqual` of the library, which holds within a tolerance. The entries of a
`casadi::DM` are rational numbers here. -/
def createKinematicConstraintIndices {τ : Type} (isNumericallyEqual : ℚ → ℚ → Bool)
    (t : Transcription τ) (kinConIndices : Mat ℚ) : Except Error (Mat ℚ) :=
  if kinConIndices.rows ≠ 1 ∨ kinConIndices.cols ≠ t.numGridPoints then .error .badShape
  else
    match (Mat.sum2 kinConIndices).scalar with
    | .error e => .error e
    | .ok total =>
      if isNumericallyEqual total t.numMeshPoints then .ok kinConIndices
      else .error .internalError

end KinematicConstraintIndices

/-- The function `createTimes`: the grid, scaled by the duration and shifted by the initial
time. The two times are scalars, and the arithmetic is exact. -/
def createTimes {τ : Type} [Add τ] [Sub τ] [Mul τ] (t : Transcription τ)
    (initialTime finalTime : τ) : List τ :=
  t.grid.map (fun g => (finalTime - initialTime) * g + initialTime)

/-- An entry of a `casadi::DM` that holds bounds: a number or an infinity of either sign. -/
inductive Extended
  | negInfinity
  | finite (x : ℚ)
  | infinity
deriving DecidableEq, Repr

instance : Neg Extended where
  neg
    | .negInfinity => .infinity
    | .finite x => .finite (-x)
    | .infinity => .negInfinity

/-- Modelled from the spec: the struct `Bounds` is declared in CasOCProblem.h, which is not
among the sources. It is an optional pair of a lower and an upper bound; `isSet` tells
whether the pair is set. -/
structure Bounds where
  lower : Extended
  upper : Extended
  isSet : Bool
deriving DecidableEq, Repr

/-- The row or column argument of `setVariableBounds`: an integer, a `casadi::Slice` from
`start` up to `stop`, or the `Slice()` that selects everything. -/
inductive Index
  | int (i : Nat)
  | slice (start stop : Nat)
  | all
deriving DecidableEq, Repr

/-- The indices that an `Index` selects in a dimension of size `n`; casadi refuses an index
that is out of range. -/
def Index.resolve (n : Nat) : Index → Except Error (List Nat)
  | .int i => if i < n then .ok [i] else .error .outOfRange
  | .slice start stop => if stop ≤ n then .ok (List.range' start (stop - start))
      else .error .outOfRange
  | .all => .ok (List.range n)

/-- The positions, in the column-major storage of a matrix with `numRows` rows, of the entries
in the given rows and columns. -/
def blockPositions (numRows : Nat) (rows cols : List Nat) : List Nat :=
  (cols.map (fun j => rows.map (fun i => j * numRows + i))).flatten

/-- The write `matrix(rowIndices, columnIndices) = value` of a scalar into a sub-block. -/
def Mat.setBlock {T : Type} (m : Mat T) (rowIndices columnIndices : Index) (value : T) :
    Except Error (Mat T) := do
  let rows ← rowIndices.resolve m.rows
  let cols ← columnIndices.resolve m.cols
  let data := (blockPositions m.rows rows cols).foldl (fun data p => data.set p value) m.data
  pure { m with data := data }

/-- The access `vars[key]` of a `std::unordered_map`, which creates an empty matrix for a
missing key. -/
def Variables.subscript {T : Type} (vars : Variables (Mat T)) (key : Var) : Mat T :=
  match vars.lookup key with
  | some m => m
  | none => ⟨0, 0, []⟩

/-- The members `m_lowerBounds` and `m_upperBounds` of a `Transcription`. -/
structure BoundsState where
  lowerBounds : Variables (Mat Extended)
  upperBounds : Variables (Mat Extended)
deriving DecidableEq, Repr

/-- The function `setVariableBounds`. -/
def setVariableBounds (s : BoundsState) (var : Var) (rowIndices columnIndices : Index)
    (bounds : Bounds) : Except Error BoundsState :=
  if bounds.isSet then do
    let lower ← (s.lowerBounds.subscript var).setBlock rowIndices columnIndices bounds.lower
    let upper ← (s.upperBounds.subscript var).setBlock rowIndices columnIndices bounds.upper
    pure ⟨s.lowerBounds.assign var lower, s.upperBounds.assign var upper⟩
  else do
    let lower ← (s.lowerBounds.subscript var).setBlock rowIndices columnIndices
      (-Extended.infinity)
    let upper ← (s.upperBounds.subscript var).setBlock rowIndices columnIndices
      Extended.infinity
    pure ⟨s.lowerBounds.assign var lower, s.upperBounds.assign var upper⟩

/-- The list of the values when every one of them is there. -/
def collectEntries {T : Type} : List (Option T) → Option (List T)
  | [] => some []
  | none :: _ => none
  | some v :: rest =>
    match collectEntries rest with
    | none => none
    | some vs => some (v :: vs)

/-- Modelled from the spec: the trapezoidal scheme is in CasOCTrapezoidal.cpp, which is not
among the sources. The defect of state row `i` and mesh interval `k` is
`x[k+1] - x[k] - 0.5*h*(xdot[k] + xdot[k+1])`, where `h` is the time width of the interval. -/
def Trapezoidal.defect {τ : Type} [Field τ] (times : List τ) (x xdot : Mat τ) (i k : Nat) :
    Option τ := do
  let t0 ← times[k]?
  let t1 ← times[k + 1]?
  let x0 ← x.entry i k
  let x1 ← x.entry i (k + 1)
  let xdot0 ← xdot.entry i k
  let xdot1 ← xdot.entry i (k + 1)
  pure (x1 - x0 - 1 / 2 * (t1 - t0) * (xdot0 + xdot1))

/-- Modelled from the spec: the override `calcDefectsImpl` of the trapezoidal scheme, which is
in CasOCTrapezoidal.cpp (not among the sources): the matrix of the defects, with one row per
state row of `x` and one column per mesh interval, in column-major order. There is no result
when an entry that the formula reads is missing. -/
def Trapezoidal.calcDefectsImpl {τ : Type} [Field τ] (numMeshIntervals : Nat) (times : List τ)
    (x xdot : Mat τ) : Option (Mat τ) :=
  match collectEntries ((List.range (x.rows * numMeshIntervals)).map
      (fun p => Trapezoidal.defect times x xdot (p % x.rows) (p / x.rows))) with
  | none => none
  | some data => some ⟨x.rows, numMeshIntervals, data⟩

end CasOC

/-!
# Utilities of Moco

A shallow embedding of functions of MocoUtilities.h: `startsWith`, `endsWith`, the checks of
`resample`, `checkPropertyInRangeOrSet`, `Stopwatch::formatNs` and the class `ThreadsafeJar` as
seen by one thread; and of the setters and getters of the class `InverseMuscleSolver`
(InverseMuscleSolver.h).
-/

namespace OpenSim

/-- What a call that does not return a value did instead: it threw an `OpenSim::Exception`, it
threw `std::out_of_range`, or its behaviour is undefined in C++. -/
inductive Failure
  | exception
  | outOfRange
  | undefined
deriving DecidableEq, Repr

/-- A `std::string`: its characters. -/
abbrev CppString := List Char

/-- The comparison of two character sequences as `std::string::compare` defines it: negative,
zero or positive according to the first characters that differ and, without such characters,
according to the lengths. -/
def compareChars : List Char → List Char → Int
  | [], [] => 0
  | [], _ :: _ => -1
  | _ :: _, [] => 1
  | a :: as, b :: bs => if a < b then -1 else if b < a then 1 else compareChars as bs

/-- The call `string.compare(pos, len, str)`: the substring of at most `len` characters from
`pos` on is compared with `str`. It throws `std::out_of_range` when `pos` is past the end. -/
def CppString.compare (string : CppString) (pos len : Nat) (str : CppString) :
    Except Failure Int :=
  if pos > string.length then .error .outOfRange
  else .ok (compareChars ((string.drop pos).take len) str)

/-- The function `startsWith`. -/
def startsWith (string start : CppString) : Except Failure Bool :=
  if string.length ≥ start.length then do
    let c ← string.compare 0 start.length start
    pure (c == 0)
  else pure false

/-- The function `endsWith`. -/
def endsWith (string ending : CppString) : Except Failure Bool :=
  if string.length ≥ ending.length then do
    let c ← string.compare (string.length - ending.length) ending.length ending
    pure (c == 0)
  else pure false

/-- A `TimeSeriesTable`: its independent (time) column and its rows. -/
structure TimeSeriesTable (τ ρ : Type) where
  independentColumn : List τ
  rows : List ρ
deriving DecidableEq, Repr

/-- The loop of `resample` over `itime`, which throws when an entry of `newTime` is less than
the entry before it. -/
def checkNonDecreasing {τ : Type} [LT τ] [DecidableRel (fun a b : τ => a < b)] :
    List τ → Except Failure Unit
  | [] => .ok ()
  | [_] => .ok ()
  | a :: b :: rest => if b < a then .error .exception else checkNonDecreasing (b :: rest)

/-- The function `resample`. Its checks are embedded as they are written; what follows them
(the function set of the library, its evaluation at the new times and `appendRow`) is the
argument `interpolate`. Reading the first or the last entry of an empty time column is
undefined. -/
def resample {τ ρ : Type} [LT τ] [DecidableRel (fun a b : τ => a < b)]
    (interpolate : TimeSeriesTable τ ρ → List τ → Except Failure (TimeSeriesTable τ ρ))
    (table : TimeSeriesTable τ ρ) (newTime : List τ) : Except Failure (TimeSeriesTable τ ρ) :=
  let time := table.independentColumn
  if newTime.length < 2 then .error .exception
  else
    match newTime[0]?, time[0]?, newTime[newTime.length - 1]?, time[time.length - 1]? with
    | some new0, some time0, some newLast, some timeLast =>
      if new0 < time0 then .error .exception
      else if timeLast < newLast then .error .exception
      else
        match checkNonDecreasing newTime with
        | .error e => .error e
        | .ok _ => interpolate table newTime
    | _, _, _, _ => .error .undefined

/-- A table with five times and no columns. -/
def exampleTable : TimeSeriesTable Nat Unit := ⟨[0, 1, 2, 3, 4], [(), (), (), (), ()]⟩

/-- An interpolation that returns the table at the new times. -/
def exampleInterpolate (_ : TimeSeriesTable Nat Unit) (newTime : List Nat) :
    Except Failure (TimeSeriesTable Nat Unit) :=
  .ok ⟨newTime, newTime.map (fun _ => ())⟩

/-- The conversion `(int)` of a container size: the value modulo `2^32`, read as a signed
32-bit integer. -/
def castInt (n : Nat) : Int := ((n : Int) + 2 ^ 31) % 2 ^ 32 - 2 ^ 31

/-- The class `ThreadsafeJar`: the stack `m_entries`, its top first. An entry stands for the
object a `std::unique_ptr` owns. The mutex makes the member functions run one at a time, so
each is a function of the state. -/
structure ThreadsafeJar (T : Type) where
  entries : List T
deriving DecidableEq, Repr

/-- The member `take`: it waits until `m_entries.size() > 0`, then removes the top entry and
returns it. The result `none` stands for a caller that stays blocked. -/
def ThreadsafeJar.take {T : Type} (jar : ThreadsafeJar T) : Option (T × ThreadsafeJar T) :=
  match jar.entries with
  | [] => none
  | top :: rest => some (top, { entries := rest })

/-- The member `leave`: it pushes the entry. -/
def ThreadsafeJar.leave {T : Type} (jar : ThreadsafeJar T) (entry : T) : ThreadsafeJar T :=
  { entries := entry :: jar.entries }

/-- The member `size`. -/
def ThreadsafeJar.size {T : Type} (jar : ThreadsafeJar T) : Int :=
  castInt jar.entries.length

/-- A call of a member function of the jar. -/
inductive JarOp (T : Type) where
  | take
  | leave (entry : T)
deriving DecidableEq, Repr

/-- What a completed call did: `took x` is a `take` that returned `x`, `left x` is a `leave`
of `x`. -/
inductive JarEvent (T : Type) where
  | took (x : T)
  | left (x : T)
deriving DecidableEq, Repr

/-- One call on the jar; `none` when the call is a `take` that stays blocked. -/
def JarOp.apply {T : Type} (jar : ThreadsafeJar T) : JarOp T → Option (ThreadsafeJar T × JarEvent T)
  | .take =>
    match jar.take with
    | none => none
    | some (top, jar') => some (jar', .took top)
  | .leave entry => some (jar.leave entry, .left entry)

/-- A sequence of calls, one after the other, with the events of the calls in order; `none` when
one of the calls stays blocked. -/
def runJar {T : Type} (jar : ThreadsafeJar T) :
    List (JarOp T) → Option (ThreadsafeJar T × List (JarEvent T))
  | [] => some (jar, [])
  | op :: ops =>
    match op.apply jar with
    | none => none
    | some (jar', event) =>
      match runJar jar' ops with
      | none => none
      | some (final, events) => some (final, event :: events)

/-- The objects returned by the calls of `take`, in order. -/
def tooks {T : Type} : List (JarEvent T) → List T
  | [] => []
  | .took x :: events => x :: tooks events
  | .left _ :: events => tooks events

/-- The objects passed to the calls of `leave`, in order. -/
def lefts {T : Type} : List (JarEvent T) → List T
  | [] => []
  | .took _ :: events => lefts events
  | .left x :: events => x :: lefts events

/-- Ownership of the entries: a `std::unique_ptr` is the only owner of its object, so no call
of `leave` passes an object that the jar holds at that time. -/
def ownedLeaves {T : Type} [DecidableEq T] (jar : ThreadsafeJar T) : List (JarOp T) → Bool
  | [] => true
  | .take :: ops =>
    match jar.take with
    | none => true
    | some (_, jar') => ownedLeaves jar' ops
  | .leave entry :: ops => !(jar.entries.contains entry) && ownedLeaves (jar.leave entry) ops

/-- Six calls on an empty jar, in which object `2` is taken twice. -/
def exampleJarOps : List (JarOp Nat) := [.leave 1, .leave 2, .take, .take, .leave 2, .take]

/-- The function `SimTK::nsToSec`, which gives a time in nanoseconds as a `double` in seconds.
Here it is the exact quotient. The `double` of the library is a rounding of the quotient, so
the two agree where the quotient is a `double`, as at `2^32` seconds, and can differ in the
last digits elsewhere. -/
def nsToSec (ns : Int) : ℚ := ns / 1000000000

/-- The function `std::round`: the nearest integer, a half away from zero. -/
def cppRound (x : ℚ) : Int := if 0 ≤ x then ⌊x + 1 / 2⌋ else ⌈x - 1 / 2⌉

/-- The conversion `(int)` of a `double` with an integer value: undefined (`none`) when the
value is not a value of the 32-bit type `int`. -/
def castDoubleToInt (z : Int) : Option Int :=
  if -2 ^ 31 ≤ z ∧ z < 2 ^ 31 then some z else none

/-- The function `Stopwatch::formatNs`. The operators `/` and `%` of the integer types round
toward zero. -/
def Stopwatch.formatNs (nanoseconds : Int) : Option String := do
  let seconds := nsToSec nanoseconds
  let secRounded ← castDoubleToInt (cppRound seconds)
  let ss :=
    if seconds > 1 then toString secRounded ++ " second(s)"
    else if nanoseconds ≥ 1000000 then
      toString (nanoseconds.tdiv 1000000) ++ " millisecond(s)"
    else if nanoseconds ≥ 1000 then
      toString (nanoseconds.tdiv 1000) ++ " microsecond(s)"
    else toString nanoseconds ++ " nanosecond(s)"
  let minutes := secRounded.tdiv 60
  let hours := minutes.tdiv 60
  if minutes ≠ 0 ∨ hours ≠ 0 then
    if hours ≠ 0 then
      pure (ss ++ " (" ++ toString hours ++ " hour(s), " ++ toString (minutes.tmod 60) ++
        " minute(s), " ++ toString (secRounded.tmod 60) ++ " second(s)" ++ ")")
    else
      pure (ss ++ " (" ++ toString (minutes.tmod 60) ++ " minute(s), " ++
        toString (secRounded.tmod 60) ++ " second(s)" ++ ")")
  else pure ss

/-- A single-value `Property<T>`: its name and its value (`getValue()`). -/
structure Property (T : Type) where
  name : String
  value : T
deriving DecidableEq, Repr

/-- The function `checkPropertyInRangeOrSet`. The `std::set<T>` is the list of its elements,
and `set.find(value)` looks for an element that the order does not tell apart from `value`.
The object `obj` is read for the message of the exception only, and the message is left out. -/
def checkPropertyInRangeOrSet {T : Type} [LT T] [DecidableRel (fun a b : T => a < b)]
    (p : Property T) (lower upper : T) (set : List T) : Except Failure Unit :=
  let value := p.value
  if (value < lower ∨ value > upper) ∧
      (set.find? (fun s => decide (¬ s < value ∧ ¬ value < s))).isNone then
    .error .exception
  else .ok ()

/-- The members `_model`, `_kinematics` and `_netGeneralizedForces` of an `InverseMuscleSolver`;
`none` is the null pointer. `Table` is the type `TimeSeriesTable`. -/
structure InverseMuscleSolver (Model Table : Type) where
  _model : Option Model
  _kinematics : Option Table
  _netGeneralizedForces : Option Table
deriving DecidableEq, Repr

/-- A new solver. The constructors are defined outside the sources; the three pointers have no
initialiser, so they are null in a new object. -/
def InverseMuscleSolver.construct {Model Table : Type} : InverseMuscleSolver Model Table :=
  ⟨none, none, none⟩

/-- The member `setModel`: the solver after the call and the outcome of the call. The copy of
`clone()` has the value of the model; `finalizeFromProperties` is the function of the library,
which gives the model after the call and the exception that it throws, if any. -/
def InverseMuscleSolver.setModel {Model Table : Type}
    (finalizeFromProperties : Model → Model × Option Failure)
    (solver : InverseMuscleSolver Model Table) (model : Model) :
    InverseMuscleSolver Model Table × Except Failure Unit :=
  let r := finalizeFromProperties model
  ({ solver with _model := some r.1 },
    match r.2 with
    | none => .ok ()
    | some e => .error e)

/-- The member `getModel`. -/
def InverseMuscleSolver.getModel {Model Table : Type}
    (solver : InverseMuscleSolver Model Table) : Except Failure Model :=
  match solver._model with
  | none => .error .exception
  | some model => .ok model

/-- The member `setKinematicsData`. -/
def InverseMuscleSolver.setKinematicsData {Model Table : Type}
    (solver : InverseMuscleSolver Model Table) (kinematics : Table) :
    InverseMuscleSolver Model Table :=
  { solver with _kinematics := some kinematics }

/-- The member `getKinematicsData`. -/
def InverseMuscleSolver.getKinematicsData {Model Table : Type}
    (solver : InverseMuscleSolver Model Table) : Except Failure Table :=
  match solver._kinematics with
  | none => .error .exception
  | some kinematics => .ok kinematics

/-- The member `setNetGeneralizedForcesData`. -/
def InverseMuscleSolver.setNetGeneralizedForcesData {Model Table : Type}
    (solver : InverseMuscleSolver Model Table) (netGenForces : Table) :
    InverseMuscleSolver Model Table :=
  { solver with _netGeneralizedForces := some netGenForces }

/-- The member `getNetGeneralizedForcesData`. -/
def InverseMuscleSolver.getNetGeneralizedForcesData {Model Table : Type}
    (solver : InverseMuscleSolver Model Table) :
    Except Failure Table :=
  match solver._netGeneralizedForces with
  | none => .error .exception
  | some netGenForces => .ok netGenForces

/-- A call of a public member function of an `InverseMuscleSolver`. -/
inductive SolverCall (Model Table : Type) where
  | setModel (model : Model)
  | getModel
  | setKinematicsData (kinematics : Table)
  | getKinematicsData
  | setNetGeneralizedForcesData (netGenForces : Table)
  | getNetGeneralizedForcesData
deriving DecidableEq, Repr

/-- The solver after a call; the getters are `const`. -/
def SolverCall.apply {Model Table : Type}
    (finalizeFromProperties : Model → Model × Option Failure)
    (solver : InverseMuscleSolver Model Table) :
    SolverCall Model Table → InverseMuscleSolver Model Table
  | .setModel model => (solver.setModel finalizeFromProperties model).1
  | .getModel => solver
  | .setKinematicsData kinematics => solver.setKinematicsData kinematics
  | .getKinematicsData => solver
  | .setNetGeneralizedForcesData netGenForces => solver.setNetGeneralizedForcesData netGenForces
  | .getNetGeneralizedForcesData => solver

/-- The solver after a sequence of calls on a new solver. -/
def runCalls {Model Table : Type} (finalizeFromProperties : Model → Model × Option Failure)
    (calls : List (SolverCall Model Table)) : InverseMuscleSolver Model Table :=
  calls.foldl (SolverCall.apply finalizeFromProperties) InverseMuscleSolver.construct

/-- A `double` as its comparisons see it: a number or NaN. Every comparison with NaN is false.
The infinities are left out. -/
inductive Double where
  | nan
  | number (x : ℚ)
deriving DecidableEq, Repr

/-- The comparison `<` of two `double`s. -/
def Double.lt : Double → Double → Bool
  | .number x, .number y => decide (x < y)
  | _, _ => false

/-- The comparison `<=` of two `double`s. -/
def Double.le : Double → Double → Bool
  | .number x, .number y => decide (x ≤ y)
  | _, _ => false

instance : LT Double := ⟨fun a b => a.lt b = true⟩

instance : LE Double := ⟨fun a b => a.le b = true⟩

instance : DecidableRel (fun a b : Double => a < b) :=
  fun a b => inferInstanceAs (Decidable (a.lt b = true))

instance : DecidableRel (fun a b : Double => a ≤ b) :=
  fun a b => inferInstanceAs (Decidable (a.le b = true))

/-- Modelled from the spec: lines 197 to 215 of `resample` build the result with the splines of
`createFunctionSet`, `calcValue` and `TimeSeriesTable::appendRow`, functions of the library that
are not among the sources. By the spec, resampling gives the table on the new times by
interpolation: one row per new time, the value of `calcValue` at that time. -/
def interpolateRows {τ ρ : Type} (calcValue : TimeSeriesTable τ ρ → τ → ρ)
    (table : TimeSeriesTable τ ρ) (newTime : List τ) : Except Failure (TimeSeriesTable τ ρ) :=
  .ok ⟨newTime, newTime.map (calcValue table)⟩

/-- A table with the times 0, 1, 2, 3 and 4 as `double`s and no columns. -/
def exampleDoubleTable : TimeSeriesTable Double Unit :=
  ⟨[.number 0, .number 1, .number 2, .number 3, .number 4], [(), (), (), (), ()]⟩

/-- New times as `double`s with a NaN among them: 7 is after the last time of
`exampleDoubleTable`, and 1 comes after 7. -/
def exampleNaNTimes : List Double := [.number 0, .number 7, .nan, .number 1, .number 4]

end OpenSim

namespace CasOC

/-! ## Auxiliary definitions for the statements and proofs -/

section Auxiliary

variable {T S : Type}

/-- The matrices of the given keys, in the order of the keys. -/
def Variables.valuesOf (w : Variables T) (ks : List Var) : List T :=
  ks.filterMap (fun k => w.lookup k)

/-- The pieces that `expandVariables` cuts out of `x` for the given keys, from `offset` on. -/
def cutPieces (m_vars : Variables (Mat S)) (x : Mat T) : List Var → Nat → List (Var × Mat T)
  | [], _ => []
  | k :: ks, o =>
    match m_vars.lookup k with
    | some v => (k, ⟨v.rows, v.cols, (x.data.drop o).take v.numel⟩) ::
        cutPieces m_vars x ks (o + v.numel)
    | none => []

/-- The number of entries that `m_vars` allocates for the given keys. -/
def Variables.totalNumel (m_vars : Variables (Mat S)) (ks : List Var) : Nat :=
  ((m_vars.valuesOf ks).map Mat.numel).sum

/-- The entries of the given keys, in the order of the keys. -/
def Variables.entriesOf (w : Variables T) (ks : List Var) : Variables T :=
  ks.filterMap (fun k => (w.lookup k).map (fun m => (k, m)))

/-- The column-major vectorisation of a matrix, entry by entry: the columns from left to right,
each from its first row down. -/
def Mat.vec (m : Mat T) : List T :=
  ((List.range m.cols).map
    (fun j => (List.range m.rows).filterMap (fun i => m.entry i j))).flatten

/-- The total number of entries of the variables of a map: the sum over its kinds of
rows times columns. -/
def Variables.numelTotal (m_vars : Variables (Mat S)) : Nat :=
  (m_vars.map (fun kv => kv.2.numel)).sum

/-- The number of grid points whose time is before `b`: the length of the initial run of
the grid with `g < b`. -/
def gridRank {τ : Type} [LT τ] [DecidableRel (fun a b : τ => a < b)] (grid : List τ) (b : τ) :
    Nat :=
  (grid.takeWhile (fun g => decide (g < b))).length

/-- The grid index of mesh point `m`: the number of grid points before its time. -/
def meshIndex {τ : Type} [LT τ] [DecidableRel (fun a b : τ => a < b)] (t : Transcription τ)
    (m : Nat) : Nat :=
  match t.mesh[m]? with
  | some b => gridRank t.grid b
  | none => 0

/-- The residual columns of mesh interval `m`: the grid indices from mesh point `m` up to, and
without, mesh point `m + 1`. -/
def residualRun {τ : Type} [LT τ] [DecidableRel (fun a b : τ => a < b)] (t : Transcription τ)
    (m : Nat) : List Nat :=
  List.range' (meshIndex t m) (meshIndex t (m + 1) - meshIndex t m)

/-- The columns copied for mesh point `m`, in order: the kinematic column, the column of each
path constraint block, and, unless `m` is the last mesh point, the residual columns of the
interval and its defect column. -/
def meshBlock {τ : Type} [LT τ] [DecidableRel (fun a b : τ => a < b)] {α : Type}
    (t : Transcription τ) (c : Constraints α) (m : Nat) : List (α × Nat) :=
  (c.kinematic, m) :: c.path.map (fun p => (p, m)) ++
    (if m < t.numMeshIntervals then
      (residualRun t m).map (fun i => (c.residuals, i)) ++ [(c.defects, m)]
    else [])

/-- The columns copied by the traversal, in order: the blocks of the mesh points, then the
residual column of the last grid point. -/
def emissionOrder {τ : Type} [LT τ] [DecidableRel (fun a b : τ => a < b)] {α : Type}
    (t : Transcription τ) (c : Constraints α) : List (α × Nat) :=
  ((List.range t.numMeshPoints).map (meshBlock t c)).flatten ++
    [(c.residuals, t.numGridPoints - 1)]

/-- The grid invariant: the grid is strictly increasing, the mesh points are a subsequence of
the grid points, and the first and the last grid point are mesh points. The counts of grid
and mesh points are the lengths of the grid and the mesh. -/
structure GridInvariant {τ : Type} [LT τ] (t : Transcription τ) : Prop where
  numGridPoints_eq : t.numGridPoints = t.grid.length
  numMeshPoints_eq : t.numMeshPoints = t.mesh.length
  sorted : t.grid.Sorted (· < ·)
  sublist : t.mesh.Sublist t.grid
  nonempty : t.grid ≠ []
  first : t.grid.head? = t.mesh.head?
  last : t.grid.getLast? = t.mesh.getLast?

/-- The facts about the grid and the mesh on which the traversal relies. -/
structure GridFacts {τ : Type} [LT τ] [DecidableRel (fun a b : τ => a < b)]
    (t : Transcription τ) : Prop where
  intervals : t.numMeshIntervals = t.mesh.length - 1
  meshPoints : t.numMeshPoints = t.mesh.length
  step : ∀ m a b, t.mesh[m]? = some a → t.mesh[m + 1]? = some b →
    (t.grid.dropWhile (fun g => decide (g < a))).dropWhile (fun g => decide (g < b)) ≠ [] ∧
    gridRank t.grid a +
      ((t.grid.dropWhile (fun g => decide (g < a))).takeWhile (fun g => decide (g < b))).length =
      gridRank t.grid b

/-- The entries of column `j` of a matrix, from the first row down. -/
def Mat.colData (m : Mat T) (j : Nat) : List T := (m.data.drop (j * m.rows)).take m.rows

/-- The entries of the given columns, one column after the other. -/
def pieces (tr : List (Mat T × Nat)) : List T := (tr.map (fun p => p.1.colData p.2)).flatten

/-- Every column of the list exists and is stored in full. -/
def ColumnsOK (tr : List (Mat T × Nat)) : Prop :=
  ∀ p ∈ tr, (p.1.rows ≠ 0 → p.2 < p.1.cols) ∧ (p.1.colData p.2).length = p.1.rows

/-- The entries of a column of a named matrix; nothing when the struct has no such matrix. -/
def Constraints.col (c : Constraints (Mat T)) (p : Block × Nat) : List T :=
  match c.get? p.1 with
  | some m => m.colData p.2
  | none => []

/-- The number of rows of a named matrix. -/
def Constraints.rowsOf (c : Constraints (Mat T)) (b : Block) : Nat :=
  match c.get? b with
  | some m => m.rows
  | none => 0

/-- The shape of a matrix and the number of entries that it stores. -/
def Mat.sig (m : Mat T) : Nat × Nat × Nat := (m.rows, m.cols, m.data.length)

/-- Two structs have the same matrices, up to the values of the entries. -/
def Constraints.ShapeEq (c c' : Constraints (Mat T)) : Prop :=
  ∀ b, (c'.get? b).map Mat.sig = (c.get? b).map Mat.sig

/-- Every column of the list names a dense matrix of the struct that has this column. -/
def ExpandOK (out : Constraints (Mat T)) (tr : List (Block × Nat)) : Prop :=
  ∀ p ∈ tr, ∃ m, out.get? p.1 = some m ∧ m.Dense ∧ (m.rows ≠ 0 → p.2 < m.cols)

/-- The total number of constraints that the transcription declares: per mesh point the
kinematic equations and the path constraints, per grid point the residuals, and per mesh
interval the defects. -/
def declaredTotal {τ : Type} (t : Transcription τ) : Nat :=
  t.numMeshPoints * (t.numKinematicConstraintEquations + t.pathConstraintInfos.sum) +
    t.numGridPoints * t.numResiduals + (t.numMeshPoints - 1) * t.numDefectsPerGridPoint

/-- The state of a transcription after `createVariablesAndSetBounds` and `transcribe`: the grid
invariant, one mesh interval less than mesh points, one path constraint block per declared
path constraint, and the declared number of constraints. -/
structure Consistent {τ : Type} [LT τ] (t : Transcription τ) : Prop where
  grid : GridInvariant t
  intervals : t.numMeshIntervals = t.numMeshPoints - 1
  paths : t.numPathConstraints = t.pathConstraintInfos.length
  total : t.numConstraints = declaredTotal t

/-- The blocks of a `Constraints` struct have the declared shapes. -/
structure DeclaredShapes {τ : Type} (t : Transcription τ) (c : Constraints (Mat T)) : Prop where
  defects : c.defects.HasShape t.numDefectsPerGridPoint (t.numMeshPoints - 1)
  residuals : c.residuals.HasShape t.numResiduals t.numGridPoints
  kinematic : c.kinematic.HasShape t.numKinematicConstraintEquations t.numMeshPoints
  path : List.Forall₂ (fun m size => m.HasShape size t.numMeshPoints) c.path
    t.pathConstraintInfos

/-- The declared shapes, as the shapes and the numbers of stored entries of the blocks. -/
structure ShapesSig {τ : Type} (t : Transcription τ) (c : Constraints (Mat T)) : Prop where
  defects : c.defects.sig = (t.numDefectsPerGridPoint, t.numMeshPoints - 1,
    t.numDefectsPerGridPoint * (t.numMeshPoints - 1))
  residuals : c.residuals.sig = (t.numResiduals, t.numGridPoints,
    t.numResiduals * t.numGridPoints)
  kinematic : c.kinematic.sig = (t.numKinematicConstraintEquations, t.numMeshPoints,
    t.numKinematicConstraintEquations * t.numMeshPoints)
  path : c.path.map Mat.sig =
    t.pathConstraintInfos.map (fun size => (size, t.numMeshPoints, size * t.numMeshPoints))

/-- The grid points of mesh interval `m`: the grid indices whose time is not before mesh point
`m` and is before mesh point `m + 1`. -/
def gridPointsOfInterval {τ : Type} [LT τ] [DecidableRel (fun a b : τ => a < b)]
    (t : Transcription τ) (m : Nat) : List Nat :=
  (List.range t.numGridPoints).filter (fun i =>
    match t.grid[i]?, t.mesh[m]?, t.mesh[m + 1]? with
    | some g, some a, some b => decide (¬ g < a ∧ g < b)
    | _, _, _ => false)

/-- The grid points strictly between two mesh points: the grid indices whose time is after
mesh point `m` and before mesh point `m + 1`. -/
def gridPointsStrictlyBetween {τ : Type} [LT τ] [DecidableRel (fun a b : τ => a < b)]
    (t : Transcription τ) (m : Nat) : List Nat :=
  (List.range t.numGridPoints).filter (fun i =>
    match t.grid[i]?, t.mesh[m]?, t.mesh[m + 1]? with
    | some g, some a, some b => decide (a < g ∧ g < b)
    | _, _, _ => false)

/-- The order of the copied columns when the residual columns of mesh interval `m` are those
of the grid points `run m`: for every mesh point its kinematic column, the column of each path
constraint block and, unless it is the last mesh point, the residual columns `run m` and the
defect column; at the end the residual column of the last grid point. -/
def groupedOrder {τ α : Type} (t : Transcription τ) (run : Nat → List Nat) (c : Constraints α) :
    List (α × Nat) :=
  ((List.range t.numMeshPoints).map (fun m =>
    (c.kinematic, m) :: c.path.map (fun p => (p, m)) ++
      (if m + 1 < t.numMeshPoints then (run m).map (fun i => (c.residuals, i)) ++ [(c.defects, m)]
       else []))).flatten ++ [(c.residuals, t.numGridPoints - 1)]

/-- A grid with a collocation point inside each of its two mesh intervals, one residual, two
defects, one kinematic equation and one path constraint of size two. -/
def exampleGrid : Transcription Nat :=
  { numGridPoints := 5, numMeshPoints := 3, numMeshIntervals := 2, numDefectsPerGridPoint := 2,
    numResiduals := 1, numConstraints := 18, grid := [0, 1, 2, 3, 4], mesh := [0, 2, 4],
    numKinematicConstraintEquations := 1, pathConstraintInfos := [2], numPathConstraints := 1 }

/-- The grid `exampleGrid` with a declared number of constraints that is too large. -/
def exampleOversized : Transcription Nat := { exampleGrid with numConstraints := 20 }

/-- A trapezoidal grid: the three grid points are the mesh points. -/
def exampleTrapezoidal : Transcription Nat :=
  { numGridPoints := 3, numMeshPoints := 3, numMeshIntervals := 2, numDefectsPerGridPoint := 1,
    numResiduals := 1, numConstraints := 8, grid := [0, 1, 2], mesh := [0, 1, 2],
    numKinematicConstraintEquations := 1, pathConstraintInfos := [], numPathConstraints := 0 }

/-- Constraints of the shapes that `exampleGrid` declares. -/
def exampleConstraints : Constraints (Mat Nat) :=
  { defects := ⟨2, 2, [5, 6, 12, 13]⟩, residuals := ⟨1, 5, [3, 4, 10, 11, 17]⟩,
    kinematic := ⟨1, 3, [0, 7, 14]⟩, path := [⟨2, 3, [1, 2, 8, 9, 15, 16]⟩] }

/-- Constraints of the shapes that `exampleTrapezoidal` declares. -/
def exampleTrapezoidalConstraints : Constraints (Mat Nat) :=
  { defects := ⟨1, 2, [30, 31]⟩, residuals := ⟨1, 3, [20, 21, 22]⟩,
    kinematic := ⟨1, 3, [10, 11, 12]⟩, path := [] }

/-- A map of variables with two kinds, stored with the larger tag first. -/
def exampleVars : Variables (Mat Nat) := [(3, ⟨1, 2, [5, 6]⟩), (1, ⟨2, 2, [1, 2, 3, 4]⟩)]

/-- The map `exampleVars`, stored in the other order. -/
def exampleVarsReordered : Variables (Mat Nat) := [(1, ⟨2, 2, [1, 2, 3, 4]⟩), (3, ⟨1, 2, [5, 6]⟩)]

/-- Allocated variables of the same kinds and shapes as `exampleVars`. -/
def exampleLayout : Variables (Mat Unit) :=
  [(1, ⟨2, 2, [(), (), (), ()]⟩), (3, ⟨1, 2, [(), ()]⟩)]

/-- A transcription with three grid points, two of them mesh points, and times that are
rational numbers. -/
def exampleTimes : Transcription ℚ :=
  { numGridPoints := 3, numMeshPoints := 2, numMeshIntervals := 1, numDefectsPerGridPoint := 1,
    numResiduals := 0, numConstraints := 1, grid := [0, 1 / 2, 1], mesh := [0, 1],
    numKinematicConstraintEquations := 0, pathConstraintInfos := [], numPathConstraints := 0 }

/-- Bounds of the states (kind 2) on three grid points and of a parameter (kind 7). -/
def exampleBounds : BoundsState :=
  { lowerBounds := [(2, ⟨2, 3, [.finite 0, .finite 0, .finite 0, .finite 0, .finite 0,
      .finite 0]⟩), (7, ⟨1, 1, [.finite 1]⟩)],
    upperBounds := [(2, ⟨2, 3, [.finite 9, .finite 9, .finite 9, .finite 9, .finite 9,
      .finite 9]⟩), (7, ⟨1, 1, [.finite 1]⟩)] }

/-- The order of the blocks in the sparsity diagram that the comment of `flattenConstraints`
draws for the trapezoidal scheme with mesh intervals 0, 1 and 2: path_0, kinematic_0,
residual_0, defect_0, kinematic_1, path_1, residual_1, defect_1, kinematic_2, path_2,
residual_2, kinematic_3, path_3, residual_3. A row `path_m` is the column `m` of every path
block. -/
def trapezoidalDiagramOrder {α : Type} (c : Constraints α) : List (α × Nat) :=
  c.path.map (fun p => (p, 0)) ++ [(c.kinematic, 0), (c.residuals, 0), (c.defects, 0)] ++
    (c.kinematic, 1) :: c.path.map (fun p => (p, 1)) ++ [(c.residuals, 1), (c.defects, 1)] ++
    (c.kinematic, 2) :: c.path.map (fun p => (p, 2)) ++ [(c.residuals, 2)] ++
    (c.kinematic, 3) :: c.path.map (fun p => (p, 3)) ++ [(c.residuals, 3)]

/-- The order in which the traversal copies the blocks of a trapezoidal transcription with four
mesh points: for every mesh point the kinematic column, the path columns and the residual
column, and for every mesh point but the last the defect column of its interval. -/
def trapezoidalOrder {α : Type} (c : Constraints α) : List (α × Nat) :=
  (c.kinematic, 0) :: c.path.map (fun p => (p, 0)) ++ [(c.residuals, 0), (c.defects, 0)] ++
    (c.kinematic, 1) :: c.path.map (fun p => (p, 1)) ++ [(c.residuals, 1), (c.defects, 1)] ++
    (c.kinematic, 2) :: c.path.map (fun p => (p, 2)) ++ [(c.residuals, 2), (c.defects, 2)] ++
    (c.kinematic, 3) :: c.path.map (fun p => (p, 3)) ++ [(c.residuals, 3)]

/-- A trapezoidal grid with four mesh points, that is, mesh intervals 0, 1 and 2, with one
kinematic equation, one path constraint, one residual and one defect. -/
def exampleTrapezoidalFour : Transcription Nat :=
  { numGridPoints := 4, numMeshPoints := 4, numMeshIntervals := 3, numDefectsPerGridPoint := 1,
    numResiduals := 1, numConstraints := 15, grid := [0, 1, 2, 3], mesh := [0, 1, 2, 3],
    numKinematicConstraintEquations := 1, pathConstraintInfos := [1], numPathConstraints := 1 }

/-- Constraints of the shapes that `exampleTrapezoidalFour` declares. -/
def exampleTrapezoidalFourConstraints : Constraints (Mat Nat) :=
  { defects := ⟨1, 3, [40, 41, 42]⟩, residuals := ⟨1, 4, [30, 31, 32, 33]⟩,
    kinematic := ⟨1, 4, [10, 11, 12, 13]⟩, path := [⟨1, 4, [20, 21, 22, 23]⟩] }

/-- The positions of `flat` that the lambda `copyColumn` of `flattenConstraints` writes, as a
`copyColumn` of its own: the state is the list of the positions written so far, in the order of
the writes, and the offset `iflat`. -/
def writtenPositions {T : Type} (matrix : Mat T) (_ : Nat) (s : List Nat × Nat) :
    Except Error (List Nat × Nat) :=
  if matrix.rows ≠ 0 then .ok (s.1 ++ List.range' s.2 matrix.rows, s.2 + matrix.rows)
  else .ok s

end Auxiliary

/-! ## Theorems -/

section Lemmas

variable {T S : Type}

@[simp] theorem ok_bind {ε α β : Type} (a : α) (f : α → Except ε β) :
    (Except.ok a >>= f) = f a := rfl

@[simp] theorem error_bind {ε α β : Type} (e : ε) (f : α → Except ε β) :
    (Except.error e >>= f) = Except.error e := rfl

theorem Variables.lookup_isSome_iff (w : Variables T) (k : Var) :
    (w.lookup k).isSome ↔ k ∈ w.keys := by
  induction w with
  | nil => simp [Variables.keys]
  | cons p w ih =>
    obtain ⟨a, b⟩ := p
    simp only [List.lookup_cons, Variables.keys, List.map_cons, List.mem_cons]
    by_cases h : k = a
    · subst h; simp
    · have : (k == a) = false := by simpa using h
      simp only [this, h, false_or]
      exact ih

theorem getSortedVarKeys_perm (w : Variables T) : (getSortedVarKeys w).Perm w.keys :=
  List.perm_insertionSort _ _

theorem getSortedVarKeys_sorted (w : Variables T) : (getSortedVarKeys w).Sorted (· ≤ ·) :=
  List.sorted_insertionSort _ _

theorem mem_getSortedVarKeys (w : Variables T) (k : Var) :
    k ∈ getSortedVarKeys w ↔ k ∈ w.keys := (getSortedVarKeys_perm w).mem_iff

theorem flattenVariablesLoop_eq (v : Variables (Mat T)) (ks : List Var) (acc : List (Mat T))
    (h : ∀ k ∈ ks, k ∈ v.keys) :
    flattenVariablesLoop v ks acc = .ok (acc ++ v.valuesOf ks) := by
  induction ks generalizing acc with
  | nil => simp [flattenVariablesLoop, Variables.valuesOf]
  | cons k ks ih =>
    have hk := h k (List.mem_cons_self _ _)
    rw [← Variables.lookup_isSome_iff, Option.isSome_iff_exists] at hk
    obtain ⟨m, hm⟩ := hk
    have hat : v.at k = .ok m := by simp [Variables.at, hm]
    simp only [flattenVariablesLoop, hat, ok_bind]
    rw [ih _ (fun k hk => h k (List.mem_cons_of_mem _ hk))]
    simp [Variables.valuesOf, List.filterMap_cons, hm]

theorem flattenVariables_eq (v : Variables (Mat T)) :
    flattenVariables v = .ok (Mat.veccat (v.valuesOf (getSortedVarKeys v))) := by
  unfold flattenVariables
  rw [flattenVariablesLoop_eq v _ [] (fun k hk => (mem_getSortedVarKeys v k).1 hk)]
  rfl

theorem expandVariablesLoop_eq (m_vars : Variables (Mat S)) (x : Mat T) (ks : List Var)
    (out : Variables (Mat T)) (o : Nat) (h : ∀ k ∈ ks, k ∈ m_vars.keys)
    (hx : o + m_vars.totalNumel ks ≤ x.numel) :
    expandVariablesLoop m_vars x ks out o =
      .ok ((cutPieces m_vars x ks o).foldl (fun w p => w.assign p.1 p.2) out) := by
  induction ks generalizing out o with
  | nil => simp [expandVariablesLoop, cutPieces]
  | cons k ks ih =>
    have hk := h k (List.mem_cons_self _ _)
    rw [← Variables.lookup_isSome_iff, Option.isSome_iff_exists] at hk
    obtain ⟨s, hs⟩ := hk
    have hat : m_vars.at k = .ok s := by simp [Variables.at, hs]
    have htot : m_vars.totalNumel (k :: ks) = s.numel + m_vars.totalNumel ks := by
      simp [Variables.totalNumel, Variables.valuesOf, List.filterMap_cons, hs]
    rw [htot] at hx
    have hsl : x.slice o (o + s.numel) =
        .ok ⟨s.numel, 1, (x.data.drop o).take s.numel⟩ := by
      unfold Mat.slice
      rw [if_pos (by omega)]
      simp
    have hre : Mat.reshape (⟨s.numel, 1, (x.data.drop o).take s.numel⟩ : Mat T) s.rows s.cols =
        .ok ⟨s.rows, s.cols, (x.data.drop o).take s.numel⟩ := by
      unfold Mat.reshape
      rw [if_pos (by simp [Mat.numel])]
    simp only [expandVariablesLoop, hat, ok_bind, hsl, hre]
    rw [ih _ _ (fun k hk => h k (List.mem_cons_of_mem _ hk)) (by omega)]
    simp [cutPieces, hs]

theorem Variables.lookup_eq_none_iff (w : Variables T) (k : Var) :
    w.lookup k = none ↔ k ∉ w.keys := by
  rw [← Variables.lookup_isSome_iff]
  cases List.lookup k w <;> simp

theorem Variables.lookup_assign (w : Variables T) (key : Var) (value : T) (k : Var) :
    (w.assign key value).lookup k = if k = key then some value else w.lookup k := by
  unfold Variables.assign
  by_cases h : k = key
  · subst h; simp [List.lookup_cons]
  · have hb : (k == key) = false := by simpa using h
    simp only [List.lookup_cons, hb, h, if_false]
    induction w with
    | nil => simp
    | cons p w ih =>
      obtain ⟨a, b⟩ := p
      by_cases ha : a = key
      · subst ha
        simp [List.filter_cons, List.lookup_cons, hb, ih]
      · have hab : (a != key) = true := by simpa using ha
        simp only [List.filter_cons, hab, if_true, List.lookup_cons, ih]

theorem Variables.assign_valid (w : Variables T) (key : Var) (value : T) (h : w.Valid) :
    (w.assign key value).Valid := by
  unfold Variables.Valid Variables.keys Variables.assign at *
  simp only [List.map_cons, List.nodup_cons, List.mem_map, List.mem_filter, not_exists, not_and]
  constructor
  · rintro ⟨a, b⟩ ⟨-, hne⟩ heq
    simp at hne heq
    exact hne heq
  · exact (h.sublist ((List.filter_sublist _).map _))

theorem Variables.foldl_assign_valid (ps : List (Var × T)) (out : Variables T) (h : out.Valid) :
    (ps.foldl (fun w p => w.assign p.1 p.2) out).Valid := by
  induction ps generalizing out with
  | nil => exact h
  | cons p ps ih => exact ih _ (Variables.assign_valid _ _ _ h)

theorem Variables.foldl_assign_lookup (ps : List (Var × T)) (hnd : (ps.map Prod.fst).Nodup)
    (out : Variables T) (k : Var) :
    (ps.foldl (fun w p => w.assign p.1 p.2) out).lookup k =
      match ps.lookup k with
      | some m => some m
      | none => out.lookup k := by
  induction ps generalizing out with
  | nil => simp
  | cons p ps ih =>
    obtain ⟨a, b⟩ := p
    simp only [List.map_cons, List.nodup_cons] at hnd
    simp only [List.foldl_cons]
    rw [ih hnd.2, Variables.lookup_assign, List.lookup_cons]
    by_cases h : k = a
    · subst h
      have hn : List.lookup k ps = none := by
        rw [Variables.lookup_eq_none_iff]; exact hnd.1
      simp [hn]
    · have hb : (k == a) = false := by simpa using h
      simp [hb, h]

theorem Variables.lookup_entriesOf (w : Variables T) (ks : List Var) (k : Var) :
    (w.entriesOf ks).lookup k = if k ∈ ks then w.lookup k else none := by
  induction ks with
  | nil => simp [Variables.entriesOf]
  | cons a ks ih =>
    unfold Variables.entriesOf at ih ⊢
    rw [List.filterMap_cons]
    cases hw : List.lookup a w with
    | none =>
      simp only [Option.map_none', ih, List.mem_cons]
      by_cases h : k = a
      · subst h; simp [hw]
      · simp [h]
    | some m =>
      simp only [Option.map_some', List.lookup_cons, ih, List.mem_cons]
      by_cases h : k = a
      · subst h; simp [hw]
      · have hb : (k == a) = false := by simpa using h
        simp [hb, h]

theorem Variables.keys_entriesOf (w : Variables T) (ks : List Var) (h : ∀ k ∈ ks, k ∈ w.keys) :
    (w.entriesOf ks).map Prod.fst = ks := by
  induction ks with
  | nil => simp [Variables.entriesOf]
  | cons a ks ih =>
    have ha := h a (List.mem_cons_self _ _)
    rw [← Variables.lookup_isSome_iff, Option.isSome_iff_exists] at ha
    obtain ⟨m, hm⟩ := ha
    unfold Variables.entriesOf at ih ⊢
    rw [List.filterMap_cons, hm]
    simp only [Option.map_some', List.map_cons, List.cons.injEq, true_and]
    exact ih (fun k hk => h k (List.mem_cons_of_mem _ hk))

theorem Variables.values_entriesOf (w : Variables T) (ks : List Var) :
    (w.entriesOf ks).map Prod.snd = w.valuesOf ks := by
  induction ks with
  | nil => simp [Variables.entriesOf, Variables.valuesOf]
  | cons a ks ih =>
    unfold Variables.entriesOf Variables.valuesOf at ih ⊢
    rw [List.filterMap_cons, List.filterMap_cons]
    cases hw : List.lookup a w with
    | none => simpa using ih
    | some m => simpa using ih

theorem cutPieces_keys (m_vars : Variables (Mat S)) (x : Mat T) (ks : List Var) (o : Nat)
    (h : ∀ k ∈ ks, k ∈ m_vars.keys) : (cutPieces m_vars x ks o).map Prod.fst = ks := by
  induction ks generalizing o with
  | nil => simp [cutPieces]
  | cons a ks ih =>
    have ha := h a (List.mem_cons_self _ _)
    rw [← Variables.lookup_isSome_iff, Option.isSome_iff_exists] at ha
    obtain ⟨s, hs⟩ := ha
    simp only [cutPieces, hs, List.map_cons, List.cons.injEq, true_and]
    exact ih _ (fun k hk => h k (List.mem_cons_of_mem _ hk))

theorem cutPieces_data (m_vars : Variables (Mat S)) (x : Mat T) (ks : List Var) (o : Nat)
    (h : ∀ k ∈ ks, k ∈ m_vars.keys) :
    ((cutPieces m_vars x ks o).map (fun p => p.2.data)).flatten =
      (x.data.drop o).take (m_vars.totalNumel ks) := by
  induction ks generalizing o with
  | nil => simp [cutPieces, Variables.totalNumel, Variables.valuesOf]
  | cons a ks ih =>
    have ha := h a (List.mem_cons_self _ _)
    rw [← Variables.lookup_isSome_iff, Option.isSome_iff_exists] at ha
    obtain ⟨s, hs⟩ := ha
    have htot : m_vars.totalNumel (a :: ks) = s.numel + m_vars.totalNumel ks := by
      simp [Variables.totalNumel, Variables.valuesOf, List.filterMap_cons, hs]
    simp only [cutPieces, hs, List.map_cons, List.flatten_cons, htot]
    rw [ih _ (fun k hk => h k (List.mem_cons_of_mem _ hk)), List.take_add, List.drop_drop]

theorem cutPieces_numel (m_vars : Variables (Mat S)) (x : Mat T) (ks : List Var) (o : Nat)
    (h : ∀ k ∈ ks, k ∈ m_vars.keys) :
    ((cutPieces m_vars x ks o).map (fun p => p.2.numel)).sum = m_vars.totalNumel ks := by
  induction ks generalizing o with
  | nil => simp [cutPieces, Variables.totalNumel, Variables.valuesOf]
  | cons a ks ih =>
    have ha := h a (List.mem_cons_self _ _)
    rw [← Variables.lookup_isSome_iff, Option.isSome_iff_exists] at ha
    obtain ⟨s, hs⟩ := ha
    have htot : m_vars.totalNumel (a :: ks) = s.numel + m_vars.totalNumel ks := by
      simp [Variables.totalNumel, Variables.valuesOf, List.filterMap_cons, hs]
    simp only [cutPieces, hs, List.map_cons, List.sum_cons, htot]
    rw [ih _ (fun k hk => h k (List.mem_cons_of_mem _ hk))]
    simp [Mat.numel]

theorem cutPieces_eq_entriesOf (m_vars : Variables (Mat S)) (v : Variables (Mat T)) (x : Mat T)
    (ks : List Var) (o : Nat)
    (h : ∀ k ∈ ks, ∃ m s, v.lookup k = some m ∧ m_vars.lookup k = some s ∧
      s.rows = m.rows ∧ s.cols = m.cols ∧ m.Dense)
    (hx : x.data.drop o = ((v.valuesOf ks).map Mat.data).flatten) :
    cutPieces m_vars x ks o = v.entriesOf ks := by
  induction ks generalizing o with
  | nil => simp [cutPieces, Variables.entriesOf]
  | cons a ks ih =>
    obtain ⟨m, s, hm, hs, hr, hc, hd⟩ := h a (List.mem_cons_self _ _)
    have hval : v.valuesOf (a :: ks) = m :: v.valuesOf ks := by
      simp [Variables.valuesOf, List.filterMap_cons, hm]
    rw [hval, List.map_cons, List.flatten_cons] at hx
    have hlen : m.data.length = s.numel := by
      rw [hd, Mat.numel, hr, hc]
    have htake : (x.data.drop o).take s.numel = m.data := by
      rw [hx, ← hlen, List.take_left']
      rfl
    have hdrop : x.data.drop (o + s.numel) = ((v.valuesOf ks).map Mat.data).flatten := by
      rw [← List.drop_drop, hx, ← hlen, List.drop_left']
      rfl
    have hent : v.entriesOf (a :: ks) = (a, m) :: v.entriesOf ks := by
      simp [Variables.entriesOf, List.filterMap_cons, hm]
    simp only [cutPieces, hs, hent, htake, hr, hc]
    rw [ih _ (fun k hk => h k (List.mem_cons_of_mem _ hk)) hdrop]

theorem Variables.mem_of_lookup (w : Variables T) (k : Var) (b : T) (h : w.lookup k = some b) :
    (k, b) ∈ w := by
  obtain ⟨l₁, l₂, rfl, -⟩ := List.lookup_eq_some_iff.1 h
  simp

theorem totalNumel_eq_of_shapes (m_vars : Variables (Mat S)) (v : Variables (Mat T))
    (ks : List Var)
    (h : ∀ k ∈ ks, ∃ m s, v.lookup k = some m ∧ m_vars.lookup k = some s ∧
      s.rows = m.rows ∧ s.cols = m.cols ∧ m.Dense) :
    m_vars.totalNumel ks = ((v.valuesOf ks).map Mat.numel).sum := by
  induction ks with
  | nil => simp [Variables.totalNumel, Variables.valuesOf]
  | cons a ks ih =>
    obtain ⟨m, s, hm, hs, hr, hc, -⟩ := h a (List.mem_cons_self _ _)
    have ih' := ih (fun k hk => h k (List.mem_cons_of_mem _ hk))
    unfold Variables.totalNumel Variables.valuesOf at ih' ⊢
    simp only [List.filterMap_cons, hm, hs, List.map_cons, List.sum_cons, ih']
    simp [Mat.numel, hr, hc]

theorem sortedKeys_eq_of_mem_iff (v : Variables T) (w : Variables S) (hv : v.Valid)
    (hw : w.Valid) (h : ∀ k, k ∈ v.keys ↔ k ∈ w.keys) :
    getSortedVarKeys v = getSortedVarKeys w := by
  have hp : v.keys.Perm w.keys := (List.perm_ext_iff_of_nodup hv hw).2 h
  exact List.eq_of_perm_of_sorted
    (((getSortedVarKeys_perm v).trans hp).trans (getSortedVarKeys_perm w).symm)
    (getSortedVarKeys_sorted v) (getSortedVarKeys_sorted w)

theorem getSortedVarKeys_nodup (v : Variables T) (hv : v.Valid) : (getSortedVarKeys v).Nodup :=
  (getSortedVarKeys_perm v).nodup_iff.2 hv

theorem at_eq_iff_lookup_eq (v w : Variables T) (k : Var) :
    v.at k = w.at k ↔ v.lookup k = w.lookup k := by
  unfold Variables.at
  cases List.lookup k v <;> cases List.lookup k w <;> simp

theorem at_map_shape_eq_iff (v : Variables (Mat T)) (w : Variables (Mat S)) (k : Var) :
    (v.at k).map Mat.shape = (w.at k).map Mat.shape ↔
      (v.lookup k).map Mat.shape = (w.lookup k).map Mat.shape := by
  unfold Variables.at
  cases List.lookup k v <;> cases List.lookup k w <;> simp [Except.map]

/-- C1: for every map of variables `v` with the kinds and the per-kind shapes of the allocated
variables `m_vars`, flattening `v` and expanding the result succeeds and gives a map with the
same kinds and, for every kind, the same matrix. -/
theorem expandVariables_flattenVariables (m_vars : Variables (Mat S))
    (v : Variables (Mat T)) (hm : m_vars.Valid) (hv : v.Valid)
    (hshape : ∀ k, (v.at k).map Mat.shape = (m_vars.at k).map Mat.shape)
    (hdense : ∀ kv ∈ v, kv.2.Dense) :
    ∃ out, (flattenVariables v >>= expandVariables m_vars) = .ok out ∧ out.Valid ∧
      ∀ k, out.at k = v.at k := by
  have hsh : ∀ k, (v.lookup k).map Mat.shape = (m_vars.lookup k).map Mat.shape :=
    fun k => (at_map_shape_eq_iff v m_vars k).1 (hshape k)
  have hmem : ∀ k, k ∈ v.keys ↔ k ∈ m_vars.keys := by
    intro k
    rw [← Variables.lookup_isSome_iff, ← Variables.lookup_isSome_iff]
    have := hsh k
    cases h1 : List.lookup k v <;> cases h2 : List.lookup k m_vars <;> simp [h1, h2] at this ⊢
  have hks : getSortedVarKeys m_vars = getSortedVarKeys v :=
    (sortedKeys_eq_of_mem_iff v m_vars hv hm hmem).symm
  have hall : ∀ k ∈ getSortedVarKeys v, ∃ m s, v.lookup k = some m ∧
      m_vars.lookup k = some s ∧ s.rows = m.rows ∧ s.cols = m.cols ∧ m.Dense := by
    intro k hk
    have hkv := (mem_getSortedVarKeys v k).1 hk
    have := hsh k
    rw [← Variables.lookup_isSome_iff, Option.isSome_iff_exists] at hkv
    obtain ⟨m, hm'⟩ := hkv
    cases h2 : List.lookup k m_vars with
    | none => simp [hm', h2] at this
    | some s =>
      simp [hm', h2, Mat.shape] at this
      exact ⟨m, s, hm', rfl, this.1.symm, this.2.symm,
        hdense (k, m) (Variables.mem_of_lookup _ _ _ hm')⟩
  have hin : ∀ k ∈ getSortedVarKeys v, k ∈ m_vars.keys :=
    fun k hk => (hmem k).1 ((mem_getSortedVarKeys v k).1 hk)
  have hnum : (Mat.veccat (v.valuesOf (getSortedVarKeys v))).numel =
      m_vars.totalNumel (getSortedVarKeys v) := by
    rw [totalNumel_eq_of_shapes m_vars v _ hall]
    simp [Mat.veccat, Mat.numel]
  refine ⟨(v.entriesOf (getSortedVarKeys v)).foldl (fun w p => w.assign p.1 p.2) [], ?_, ?_, ?_⟩
  · rw [flattenVariables_eq, ok_bind]
    unfold expandVariables
    rw [hks, expandVariablesLoop_eq m_vars _ _ _ _ hin (by omega),
      cutPieces_eq_entriesOf m_vars v _ _ 0 hall (by simp [Mat.veccat])]
  · exact Variables.foldl_assign_valid _ _ List.nodup_nil
  · intro k
    rw [at_eq_iff_lookup_eq, Variables.foldl_assign_lookup, Variables.lookup_entriesOf]
    · by_cases hk : k ∈ getSortedVarKeys v
      · rw [if_pos hk]
        cases List.lookup k v <;> rfl
      · rw [if_neg hk]
        have : List.lookup k v = none := by
          rw [Variables.lookup_eq_none_iff]
          exact fun h => hk ((mem_getSortedVarKeys v k).2 h)
        simp [this]
    · rw [Variables.keys_entriesOf _ _ (fun k hk => (mem_getSortedVarKeys v k).1 hk)]
      exact getSortedVarKeys_nodup v hv

theorem filterMap_range_getElem? (l : List T) (n : Nat) :
    (List.range n).filterMap (fun i => l[i]?) = l.take n := by
  induction n with
  | zero => simp
  | succ n ih =>
    rw [List.range_succ, List.filterMap_append, ih, List.take_succ]
    cases h : l[n]? <;> simp [h]

theorem flatten_chunks (r c : Nat) (l : List T) (h : l.length = r * c) :
    ((List.range c).map
      (fun j => (List.range r).filterMap (fun i => l[j * r + i]?))).flatten = l := by
  induction c generalizing l with
  | zero =>
    simp at h
    simp [h]
  | succ c ih =>
    rw [List.range_succ_eq_map, List.map_cons, List.flatten_cons, List.map_map]
    have h1 : (List.range r).filterMap (fun i => l[0 * r + i]?) = l.take r := by
      simp [filterMap_range_getElem?]
    have h2 : ((fun j => (List.range r).filterMap (fun i => l[j * r + i]?)) ∘ Nat.succ) =
        fun j => (List.range r).filterMap (fun i => (l.drop r)[j * r + i]?) := by
      funext j
      apply List.filterMap_congr
      intro i _
      rw [List.getElem?_drop]
      congr 1
      simp [Nat.succ_mul]
      omega
    rw [h1, h2, ih (l.drop r) (by simp [h, Nat.mul_succ]), List.take_append_drop]

theorem Mat.vec_eq_data (m : Mat T) (h : m.Dense) : m.vec = m.data := by
  unfold Mat.vec
  have : (List.range m.cols).map
      (fun j => (List.range m.rows).filterMap (fun i => m.entry i j)) =
      (List.range m.cols).map
      (fun j => (List.range m.rows).filterMap (fun i => m.data[j * m.rows + i]?)) := by
    apply List.map_congr_left
    intro j hj
    apply List.filterMap_congr
    intro i hi
    simp only [List.mem_range] at hi hj
    simp [Mat.entry, hi, hj]
  rw [this, flatten_chunks m.rows m.cols m.data h]

theorem Variables.valuesOf_congr (v w : Variables T) (ks : List Var)
    (h : ∀ k, v.lookup k = w.lookup k) : v.valuesOf ks = w.valuesOf ks := by
  unfold Variables.valuesOf
  exact List.filterMap_congr (fun k _ => h k)

theorem Variables.valuesOf_keys (w : Variables T) (h : w.Valid) :
    w.valuesOf w.keys = w.map Prod.snd := by
  induction w with
  | nil => simp [Variables.valuesOf, Variables.keys]
  | cons p w ih =>
    obtain ⟨a, b⟩ := p
    unfold Variables.Valid Variables.keys at h
    simp only [List.map_cons, List.nodup_cons] at h
    unfold Variables.valuesOf Variables.keys at ih ⊢
    simp only [List.map_cons, List.filterMap_cons, List.lookup_cons, beq_self_eq_true]
    rw [← ih h.2]
    congr 1
    apply List.filterMap_congr
    intro k hk
    have : (k == a) = false := by
      simp only [beq_eq_false_iff_ne, ne_eq]
      rintro rfl
      exact h.1 hk
    simp [List.lookup_cons, this]

theorem Variables.numelTotal_eq (m_vars : Variables (Mat S)) (h : m_vars.Valid) :
    m_vars.numelTotal = m_vars.totalNumel (getSortedVarKeys m_vars) := by
  unfold Variables.numelTotal Variables.totalNumel
  have hp : (m_vars.valuesOf (getSortedVarKeys m_vars)).Perm (m_vars.valuesOf m_vars.keys) :=
    (getSortedVarKeys_perm m_vars).filterMap _
  rw [Variables.valuesOf_keys m_vars h] at hp
  rw [(hp.map Mat.numel).sum_eq, List.map_map]
  rfl

theorem veccat_of_dense (ms : List (Mat T)) (h : ∀ m ∈ ms, m.Dense) :
    Mat.veccat ms = Mat.column ((ms.map Mat.vec).flatten) := by
  have hv : ms.map Mat.vec = ms.map Mat.data :=
    List.map_congr_left (fun m hm => Mat.vec_eq_data m (h m hm))
  rw [hv]
  unfold Mat.veccat Mat.column
  congr 1
  rw [List.length_flatten, List.map_map]
  congr 1
  apply List.map_congr_left
  intro m hm
  simp only [Function.comp]
  rw [h m hm]
  rfl

/-- C5: for every flat column whose length is the total number of entries of the allocated
variables, expanding it and flattening the result succeeds and gives the column back. -/
theorem flattenVariables_expandVariables (m_vars : Variables (Mat S)) (l : List T)
    (hm : m_vars.Valid) (hl : l.length = m_vars.numelTotal) :
    (expandVariables m_vars (Mat.column l) >>= flattenVariables) = .ok (Mat.column l) := by
  have hin : ∀ k ∈ getSortedVarKeys m_vars, k ∈ m_vars.keys :=
    fun k hk => (mem_getSortedVarKeys m_vars k).1 hk
  have htot := Variables.numelTotal_eq m_vars hm
  have hnd := getSortedVarKeys_nodup m_vars hm
  unfold expandVariables
  rw [expandVariablesLoop_eq m_vars _ _ _ _ hin (by simp [Mat.column, Mat.numel]; omega), ok_bind,
    flattenVariables_eq]
  set ps : Variables (Mat T) := cutPieces m_vars (Mat.column l) (getSortedVarKeys m_vars) 0 with hps
  set out : Variables (Mat T) :=
    List.foldl (fun w p => Variables.assign w p.1 p.2) [] ps with hout
  have hpk : ps.map Prod.fst = getSortedVarKeys m_vars := cutPieces_keys _ _ _ _ hin
  have hlook : ∀ k, out.lookup k = ps.lookup k := by
    intro k
    rw [hout, Variables.foldl_assign_lookup _ (by rw [hpk]; exact hnd)]
    cases List.lookup k ps <;> rfl
  have hvalid : Variables.Valid out := Variables.foldl_assign_valid _ _ List.nodup_nil
  have hpsv : Variables.Valid ps := by
    unfold Variables.Valid Variables.keys
    rw [hpk]; exact hnd
  have hkeys : getSortedVarKeys out = getSortedVarKeys m_vars := by
    have h1 : (Variables.keys out).Perm (getSortedVarKeys m_vars) := by
      refine (List.perm_ext_iff_of_nodup hvalid hnd).2 (fun k => ?_)
      rw [← Variables.lookup_isSome_iff, hlook, Variables.lookup_isSome_iff]
      unfold Variables.keys
      rw [hpk]
    exact List.eq_of_perm_of_sorted ((getSortedVarKeys_perm out).trans h1)
      (getSortedVarKeys_sorted out) (getSortedVarKeys_sorted m_vars)
  have hvals : Variables.valuesOf out (getSortedVarKeys out) = ps.map Prod.snd := by
    rw [hkeys, Variables.valuesOf_congr out ps _ hlook, ← hpk]
    exact Variables.valuesOf_keys ps hpsv
  rw [hvals]
  unfold Mat.veccat Mat.column
  have h1 := cutPieces_numel m_vars (Mat.column l) (getSortedVarKeys m_vars) 0 hin
  have h2 := cutPieces_data m_vars (Mat.column l) (getSortedVarKeys m_vars) 0 hin
  rw [← hps] at h1 h2
  simp only [List.map_map, Function.comp_def] at h1 h2 ⊢
  rw [h1, h2, ← htot, ← hl]
  simp [Mat.column]

theorem takeWhile_append_of_imp {τ : Type} (p q : τ → Bool) (l : List τ) (h : ∀ x, p x = true → q x = true) :
    l.takeWhile q = l.takeWhile p ++ (l.dropWhile p).takeWhile q := by
  induction l with
  | nil => simp
  | cons a l ih =>
    by_cases hp : p a = true
    · simp [List.takeWhile_cons, List.dropWhile_cons, hp, h a hp, ih]
    · simp [List.takeWhile_cons, List.dropWhile_cons, hp]

theorem dropWhile_dropWhile_of_imp {τ : Type} (p q : τ → Bool) (l : List τ)
    (h : ∀ x, p x = true → q x = true) :
    (l.dropWhile p).dropWhile q = l.dropWhile q := by
  induction l with
  | nil => simp
  | cons a l ih =>
    by_cases hp : p a = true
    · simp [List.dropWhile_cons, hp, h a hp, ih]
    · simp [List.dropWhile_cons, hp]

theorem dropWhile_ne_nil_of_mem {τ : Type} (q : τ → Bool) (l : List τ) (x : τ) (hx : x ∈ l)
    (hq : q x = false) : l.dropWhile q ≠ [] := by
  intro h
  rw [List.dropWhile_eq_nil_iff] at h
  simp [h x hx] at hq

section

variable {τ : Type} [LinearOrder τ] {α σ : Type}

theorem drop_gridRank (grid : List τ) (b : τ) :
    grid.drop (gridRank grid b) = grid.dropWhile (fun g => decide (g < b)) := by
  have h := List.takeWhile_append_dropWhile (fun g => decide (g < b)) grid
  calc grid.drop (gridRank grid b)
      = (grid.takeWhile (fun g => decide (g < b)) ++
          grid.dropWhile (fun g => decide (g < b))).drop (gridRank grid b) := by rw [h]
    _ = grid.dropWhile (fun g => decide (g < b)) := List.drop_left' rfl

theorem residualLoop_eq (copyColumn : α → Nat → σ → Except Error σ) (residuals : α) (bound : τ)
    (l : List τ) (igrid : Nat) (s : σ) (h : l.dropWhile (fun g => decide (g < bound)) ≠ []) :
    residualLoop copyColumn residuals bound l igrid s =
      (List.range' igrid (l.takeWhile (fun g => decide (g < bound))).length).foldlM
          (fun s i => copyColumn residuals i s) s >>=
        fun s' => .ok (igrid + (l.takeWhile (fun g => decide (g < bound))).length, s') := by
  induction l generalizing igrid s with
  | nil => simp at h
  | cons g rest ih =>
    by_cases hg : g < bound
    · have hd : rest.dropWhile (fun g => decide (g < bound)) ≠ [] := by
        simpa [List.dropWhile_cons, hg] using h
      simp only [residualLoop, hg, if_true, List.takeWhile_cons, decide_True, List.length_cons,
        List.range'_succ, List.foldlM_cons]
      cases hc : copyColumn residuals igrid s with
      | error e => rfl
      | ok s1 =>
        simp only [ok_bind]
        rw [ih (igrid + 1) s1 hd]
        congr 1
        funext s'
        congr 2
        omega
    · simp [residualLoop, hg, List.takeWhile_cons]

end

section

variable {τ : Type} [LinearOrder τ] {α σ : Type}

theorem foldlM_map_pair (copyColumn : α → Nat → σ → Except Error σ) (l : List α) (m : Nat)
    (s : σ) :
    l.foldlM (fun s path => copyColumn path m s) s =
      (l.map (fun p => (p, m))).foldlM (fun s p => copyColumn p.1 p.2 s) s := by
  induction l generalizing s with
  | nil => rfl
  | cons a l ih =>
    simp only [List.foldlM_cons, List.map_cons]
    cases copyColumn a m s with
    | error e => rfl
    | ok s1 => exact ih s1

theorem foldlM_map_residuals (copyColumn : α → Nat → σ → Except Error σ) (r : α) (l : List Nat)
    (s : σ) :
    l.foldlM (fun s i => copyColumn r i s) s =
      (l.map (fun i => (r, i))).foldlM (fun s p => copyColumn p.1 p.2 s) s := by
  induction l generalizing s with
  | nil => rfl
  | cons a l ih =>
    simp only [List.foldlM_cons, List.map_cons]
    cases copyColumn r a s with
    | error e => rfl
    | ok s1 => exact ih s1

theorem foldlM_logColumn (l : List (α × Nat)) (log : List (α × Nat)) :
    l.foldlM (fun s p => logColumn p.1 p.2 s) log = .ok (log ++ l) := by
  induction l generalizing log with
  | nil => simp [pure, Except.pure]
  | cons a l ih =>
    rw [List.foldlM_cons]
    have h : logColumn a.1 a.2 log = .ok (log ++ [a]) := rfl
    rw [h, ok_bind, ih]
    simp

theorem bind_assoc_except {β γ δ : Type} (x : Except Error β) (f : β → Except Error γ)
    (g : γ → Except Error δ) : (x >>= f) >>= g = x >>= fun a => f a >>= g := by
  cases x <;> rfl

theorem meshLoop_eq (t : Transcription τ) (hf : GridFacts t)
    (copyColumn : α → Nat → σ → Except Error σ) (c : Constraints α) (n imesh : Nat) (s : σ)
    (hn : imesh + n = t.mesh.length) :
    meshLoop t copyColumn c n imesh (meshIndex t (min imesh (t.mesh.length - 1))) s =
      (((List.range' imesh n).map (meshBlock t c)).flatten.foldlM
          (fun s p => copyColumn p.1 p.2 s) s >>=
        fun s' => .ok (meshIndex t (t.mesh.length - 1), s')) := by
  induction n generalizing imesh s with
  | zero =>
    have : imesh = t.mesh.length := by omega
    subst this
    simp [meshLoop, pure, Except.pure]
  | succ n ih =>
    have him : imesh < t.mesh.length := by omega
    have hmin : min imesh (t.mesh.length - 1) = imesh := by omega
    rw [hmin]
    simp only [meshLoop, List.range'_succ, List.map_cons, List.flatten_cons, List.foldlM_append]
    rw [show meshBlock t c imesh = (c.kinematic, imesh) :: c.path.map (fun p => (p, imesh)) ++
      (if imesh < t.numMeshIntervals then
        (residualRun t imesh).map (fun i => (c.residuals, i)) ++ [(c.defects, imesh)]
      else []) from rfl]
    simp only [List.cons_append, List.foldlM_cons, List.foldlM_append, bind_assoc_except]
    cases hk : copyColumn c.kinematic imesh s with
    | error e => rfl
    | ok s1 =>
      simp only [ok_bind]
      rw [foldlM_map_pair]
      cases hp : (c.path.map (fun p => (p, imesh))).foldlM (fun s p => copyColumn p.1 p.2 s) s1 with
      | error e => rfl
      | ok s2 =>
        simp only [ok_bind]
        by_cases hlt : imesh < t.numMeshIntervals
        · have hlt' : imesh + 1 < t.mesh.length := by rw [hf.intervals] at hlt; omega
          obtain ⟨a, ha⟩ : ∃ a, t.mesh[imesh]? = some a := ⟨_, List.getElem?_eq_getElem him⟩
          obtain ⟨b, hb⟩ : ∃ b, t.mesh[imesh + 1]? = some b := ⟨_, List.getElem?_eq_getElem hlt'⟩
          obtain ⟨hne, hrank⟩ := hf.step imesh a b ha hb
          have hmi : meshIndex t imesh = gridRank t.grid a := by simp [meshIndex, ha]
          have hmi1 : meshIndex t (imesh + 1) = gridRank t.grid b := by simp [meshIndex, hb]
          have hrun : residualRun t imesh = List.range' (gridRank t.grid a)
              ((t.grid.dropWhile (fun g => decide (g < a))).takeWhile
                (fun g => decide (g < b))).length := by
            unfold residualRun
            rw [hmi, hmi1, ← hrank]
            congr 1
            omega
          simp only [hlt, if_true, hb, hmi, drop_gridRank, residualLoop_eq _ _ _ _ _ _ hne,
            bind_assoc_except, ok_bind, List.foldlM_append, hrun, foldlM_map_residuals]
          cases hr : (List.map (fun i => (c.residuals, i)) (List.range' (gridRank t.grid a)
              ((t.grid.dropWhile (fun g => decide (g < a))).takeWhile
                (fun g => decide (g < b))).length)).foldlM
              (fun s p => copyColumn p.1 p.2 s) s2 with
          | error e => rfl
          | ok s3 =>
            simp only [ok_bind, List.foldlM_cons, List.foldlM_nil, bind_assoc_except]
            cases hd : copyColumn c.defects imesh s3 with
            | error e => rfl
            | ok s4 =>
              simp only [ok_bind, pure, Except.pure]
              have := ih (imesh + 1) s4 (by omega)
              rw [show min (imesh + 1) (t.mesh.length - 1) = imesh + 1 by omega, hmi1] at this
              rw [hrank, this]
        · have hlast : imesh = t.mesh.length - 1 := by rw [hf.intervals] at hlt; omega
          simp only [hlt, if_false, List.foldlM_nil, pure, Except.pure, ok_bind]
          have := ih (imesh + 1) s2 (by omega)
          rw [show min (imesh + 1) (t.mesh.length - 1) = imesh by omega] at this
          exact this

omit [LinearOrder τ] in
theorem takeWhile_append_cons_of_neg (p : τ → Bool) (init : List τ) (z : τ) (rest : List τ)
    (h : ∀ x ∈ init, p x = true) (hz : p z = false) :
    (init ++ z :: rest).takeWhile p = init := by
  induction init with
  | nil => simp [List.takeWhile_cons, hz]
  | cons a l ih =>
    simp only [List.cons_append, List.takeWhile_cons, h a (List.mem_cons_self _ _), if_true]
    rw [ih (fun x hx => h x (List.mem_cons_of_mem _ hx))]

theorem GridInvariant.mesh_sorted {t : Transcription τ} (h : GridInvariant t) :
    t.mesh.Sorted (· < ·) :=
  List.Pairwise.sublist h.sublist h.sorted

theorem GridInvariant.mesh_ne_nil {t : Transcription τ} (h : GridInvariant t) : t.mesh ≠ [] := by
  intro hm
  have hf := h.first
  rw [hm] at hf
  cases hg : t.grid with
  | nil => exact h.nonempty hg
  | cons a l => simp [hg] at hf

theorem GridInvariant.gridFacts {t : Transcription τ} (h : GridInvariant t)
    (hint : t.numMeshIntervals = t.numMeshPoints - 1) : GridFacts t := by
  refine ⟨by rw [hint, h.numMeshPoints_eq], h.numMeshPoints_eq, ?_⟩
  intro m a b ha hb
  have hlt : a < b := by
    obtain ⟨h1, rfl⟩ := List.getElem?_eq_some_iff.1 ha
    obtain ⟨h2, rfl⟩ := List.getElem?_eq_some_iff.1 hb
    exact (List.pairwise_iff_getElem.1 h.mesh_sorted) m (m + 1) h1 h2 (by omega)
  have hmem : b ∈ t.grid := by
    obtain ⟨h2, rfl⟩ := List.getElem?_eq_some_iff.1 hb
    exact h.sublist.subset (List.getElem_mem h2)
  have himp : ∀ x, decide (x < a) = true → decide (x < b) = true := by
    intro x hx
    simp only [decide_eq_true_eq] at hx ⊢
    exact lt_trans hx hlt
  constructor
  · rw [dropWhile_dropWhile_of_imp _ _ _ himp]
    exact dropWhile_ne_nil_of_mem _ _ b hmem (by simp)
  · unfold gridRank
    rw [takeWhile_append_of_imp _ _ t.grid himp, List.length_append]

theorem GridInvariant.meshIndex_zero {t : Transcription τ} (h : GridInvariant t) :
    meshIndex t 0 = 0 := by
  have hf := h.first
  cases hg : t.grid with
  | nil => exact absurd hg h.nonempty
  | cons a l =>
    cases hm : t.mesh with
    | nil => exact absurd hm h.mesh_ne_nil
    | cons b l' =>
      rw [hg, hm] at hf
      simp only [List.head?_cons, Option.some.injEq] at hf
      subst hf
      simp [meshIndex, hm, hg, gridRank, List.takeWhile_cons]

theorem GridInvariant.meshIndex_last {t : Transcription τ} (h : GridInvariant t) :
    meshIndex t (t.mesh.length - 1) = t.grid.length - 1 := by
  have hl := h.last
  obtain ⟨init, z, hg⟩ : ∃ init z, t.grid = init ++ [z] :=
    ⟨_, _, (List.dropLast_append_getLast h.nonempty).symm⟩
  have hz : t.mesh[t.mesh.length - 1]? = some z := by
    rw [← List.getLast?_eq_getElem?, ← hl, hg]
    simp
  have hs := h.sorted
  rw [hg] at hs
  have hall : ∀ x ∈ init, decide (x < z) = true := by
    intro x hx
    simp only [decide_eq_true_eq]
    exact (List.pairwise_append.1 hs).2.2 x hx z (List.mem_singleton_self z)
  simp only [meshIndex, hz, gridRank, hg]
  rw [takeWhile_append_cons_of_neg _ init z [] hall (by simp)]
  simp

theorem traverse_eq (t : Transcription τ) (h : GridInvariant t)
    (hint : t.numMeshIntervals = t.numMeshPoints - 1)
    (copyColumn : α → Nat → σ → Except Error σ) (c : Constraints α) (s : σ) :
    traverse t copyColumn c s =
      (emissionOrder t c).foldlM (fun s p => copyColumn p.1 p.2 s) s := by
  have hml := meshLoop_eq t (h.gridFacts hint) copyColumn c t.mesh.length 0 s (by omega)
  rw [show min 0 (t.mesh.length - 1) = 0 by omega, h.meshIndex_zero] at hml
  unfold traverse emissionOrder
  rw [h.numMeshPoints_eq, hml, List.foldlM_append, List.range_eq_range', bind_assoc_except]
  cases ((List.range' 0 t.mesh.length).map (meshBlock t c)).flatten.foldlM
      (fun s p => copyColumn p.1 p.2 s) s with
  | error e => rfl
  | ok s1 =>
    simp only [ok_bind, List.foldlM_cons, List.foldlM_nil]
    cases copyColumn c.residuals (t.numGridPoints - 1) s1 <;> rfl

theorem emission_eq (t : Transcription τ) (h : GridInvariant t)
    (hint : t.numMeshIntervals = t.numMeshPoints - 1) (c : Constraints α) :
    emission t c = .ok (emissionOrder t c) := by
  unfold emission
  rw [traverse_eq t h hint, foldlM_logColumn]
  rfl

end

theorem Mat.colData_length (m : Mat T) (j : Nat) (hd : m.Dense) (hj : j < m.cols) :
    (m.colData j).length = m.rows := by
  unfold Mat.colData
  rw [List.length_take, List.length_drop, hd]
  have : j * m.rows + m.rows ≤ m.rows * m.cols := by
    calc j * m.rows + m.rows = m.rows * (j + 1) := by ring
      _ ≤ m.rows * m.cols := Nat.mul_le_mul_left _ hj
  omega

theorem Mat.colData_of_rows_zero (m : Mat T) (j : Nat) (h : m.rows = 0) : m.colData j = [] := by
  simp [Mat.colData, h]

theorem foldlM_flattenCopyColumn (n : Nat) (tr : List (Mat T × Nat)) (htr : ColumnsOK tr)
    (d : List T) (i : Nat) (hd : d.length = n) (hi : i + (pieces tr).length ≤ n) :
    tr.foldlM (fun s p => flattenCopyColumn p.1 p.2 s) (⟨⟨n, 1, d⟩, i⟩ : FlattenState T) =
      .ok ⟨⟨n, 1, d.take i ++ pieces tr ++ d.drop (i + (pieces tr).length)⟩,
        i + (pieces tr).length⟩ := by
  induction tr generalizing d i with
  | nil => simp [pieces, pure, Except.pure]
  | cons p tr ih =>
    obtain ⟨m, j⟩ := p
    have hp := htr (m, j) (List.mem_cons_self _ _)
    have htr' : ColumnsOK tr := fun q hq => htr q (List.mem_cons_of_mem _ hq)
    have hpc : pieces ((m, j) :: tr) = m.colData j ++ pieces tr := by
      simp [pieces]
    rw [hpc, List.length_append] at hi ⊢
    simp only at hp
    rw [List.foldlM_cons]
    by_cases hr : m.rows = 0
    · have h0 : m.colData j = [] := Mat.colData_of_rows_zero m j hr
      have hc : flattenCopyColumn m j (⟨⟨n, 1, d⟩, i⟩ : FlattenState T) = .ok ⟨⟨n, 1, d⟩, i⟩ := by
        simp [flattenCopyColumn, hr, pure, Except.pure]
      rw [hc, ok_bind, ih htr' d i hd (by simpa [h0] using hi)]
      simp [h0]
    · have hlen := hp.2
      have hc : flattenCopyColumn m j (⟨⟨n, 1, d⟩, i⟩ : FlattenState T) =
          .ok ⟨⟨n, 1, d.take i ++ m.colData j ++ d.drop (i + m.rows)⟩, i + m.rows⟩ := by
        have hg : m.getColumn j = .ok (m.colData j) := by
          simp [Mat.getColumn, hp.1 hr, Mat.colData]
        have hs : (⟨n, 1, d⟩ : Mat T).setSlice i (i + m.rows) (m.colData j) =
            .ok ⟨n, 1, d.take i ++ m.colData j ++ d.drop (i + m.rows)⟩ := by
          unfold Mat.setSlice
          rw [if_pos (by simp [Mat.numel]; omega)]
        simp only [flattenCopyColumn, hr, ne_eq, not_false_eq_true, if_true, hg, ok_bind, hs]
        rfl
      have hd1 : (d.take i ++ m.colData j ++ d.drop (i + m.rows)).length = n := by
        simp only [List.length_append, List.length_take, List.length_drop, hlen]
        omega
      have hti : (d.take i).length = i := by
        rw [List.length_take]; omega
      rw [hc, ok_bind, ih htr' _ (i + m.rows) hd1 (by omega)]
      have e1 : (d.take i ++ m.colData j ++ d.drop (i + m.rows)).take (i + m.rows) =
          d.take i ++ m.colData j := by
        apply List.take_left'
        simp [hti, hlen]
      have e2 : (d.take i ++ m.colData j ++ d.drop (i + m.rows)).drop
          (i + m.rows + (pieces tr).length) = d.drop (i + m.rows + (pieces tr).length) := by
        rw [← List.drop_drop, List.drop_left' (by simp [hti, hlen]), List.drop_drop]
      rw [e1, e2, hlen]
      simp [Nat.add_assoc]

section

variable {τ : Type} [LinearOrder τ]

theorem flattenConstraints_eq [Zero T] (t : Transcription τ) (h : GridInvariant t)
    (hint : t.numMeshIntervals = t.numMeshPoints - 1) (c : Constraints (Mat T))
    (hcols : ColumnsOK (emissionOrder t c))
    (hn : t.numConstraints = (pieces (emissionOrder t c)).length) :
    flattenConstraints t c = .ok (Mat.column (pieces (emissionOrder t c))) := by
  unfold flattenConstraints flattenConstraintsRun
  rw [traverse_eq t h hint]
  unfold Mat.dense
  rw [foldlM_flattenCopyColumn t.numConstraints _ hcols _ 0 (by simp) (by omega), ok_bind]
  simp only [Nat.zero_add, ne_eq, hn, not_true_eq_false, if_false, List.take_zero, List.nil_append]
  rw [List.drop_eq_nil_of_le (by simp [hn])]
  simp [Mat.column]

end

theorem getElem?_splice (d v : List T) (a k : Nat) (h : a + v.length ≤ d.length) :
    (d.take a ++ v ++ d.drop (a + v.length))[k]? =
      if k < a then d[k]? else if k < a + v.length then v[k - a]? else d[k]? := by
  have hta : (d.take a).length = a := by rw [List.length_take]; omega
  by_cases h1 : k < a
  · rw [if_pos h1, List.append_assoc, List.getElem?_append_left (by omega), List.getElem?_take]
    simp [h1]
  · rw [if_neg h1, List.append_assoc, List.getElem?_append_right (by omega), hta]
    by_cases h2 : k < a + v.length
    · rw [if_pos h2, List.getElem?_append_left (by omega)]
    · rw [if_neg h2, List.getElem?_append_right (by omega), List.getElem?_drop]
      congr 1
      omega

theorem getElem?_take_drop (l : List T) (s r k : Nat) :
    ((l.drop s).take r)[k]? = if k < r then l[s + k]? else none := by
  rw [List.getElem?_take]
  split
  · rw [List.getElem?_drop]
  · rfl

theorem Mat.colData_setColumn_same (m : Mat T) (j : Nat) (v : List T) (hd : m.Dense)
    (hj : j < m.cols) (hv : v.length = m.rows) :
    Mat.colData ⟨m.rows, m.cols, m.data.take (j * m.rows) ++ v ++
      m.data.drop (j * m.rows + m.rows)⟩ j = v := by
  have hle : j * m.rows + m.rows ≤ m.data.length := by
    rw [hd]
    calc j * m.rows + m.rows = m.rows * (j + 1) := by ring
      _ ≤ m.rows * m.cols := Nat.mul_le_mul_left _ hj
  unfold Mat.colData
  simp only
  rw [← hv] at hle
  apply List.ext_getElem?
  intro k
  rw [getElem?_take_drop, ← hv, getElem?_splice _ _ _ _ (by omega)]
  by_cases hk : k < v.length
  · simp [hk]
  · simp only [hk, if_false]
    rw [eq_comm, List.getElem?_eq_none_iff]
    omega

theorem Mat.colData_setColumn_other (m : Mat T) (j j' : Nat) (v : List T) (hd : m.Dense)
    (hj : j < m.cols) (hv : v.length = m.rows) (hne : j' ≠ j) :
    Mat.colData ⟨m.rows, m.cols, m.data.take (j * m.rows) ++ v ++
      m.data.drop (j * m.rows + m.rows)⟩ j' = m.colData j' := by
  have hle : j * m.rows + m.rows ≤ m.data.length := by
    rw [hd]
    calc j * m.rows + m.rows = m.rows * (j + 1) := by ring
      _ ≤ m.rows * m.cols := Nat.mul_le_mul_left _ hj
  unfold Mat.colData
  simp only
  rw [← hv] at hle
  apply List.ext_getElem?
  intro k
  rw [getElem?_take_drop, getElem?_take_drop, ← hv, getElem?_splice _ _ _ _ (by omega)]
  by_cases hk : k < v.length
  · simp only [hk, if_true]
    rcases Nat.lt_or_gt_of_ne hne with hlt | hgt
    · have : (j' + 1) * v.length ≤ j * v.length := Nat.mul_le_mul_right _ hlt
      rw [Nat.add_mul] at this
      rw [if_pos (by omega)]
    · have : (j + 1) * v.length ≤ j' * v.length := Nat.mul_le_mul_right _ hgt
      rw [Nat.add_mul] at this
      rw [if_neg (by omega), if_neg (by omega)]
  · simp [hk]

theorem Constraints.get?_set_same (c : Constraints (Mat T)) (b : Block) (m0 m : Mat T)
    (h : c.get? b = some m0) : (c.set b m).get? b = some m := by
  cases b with
  | path i =>
    simp only [Constraints.get?, Constraints.set] at h ⊢
    have hi : i < c.path.length := by
      by_contra hlt
      rw [List.getElem?_eq_none (by omega)] at h
      cases h
    rw [List.getElem?_set_self hi]
  | _ => rfl

theorem Constraints.get?_set_other (c : Constraints (Mat T)) (b b' : Block) (m : Mat T)
    (h : b' ≠ b) : (c.set b m).get? b' = c.get? b' := by
  cases b <;> cases b' <;> simp_all [Constraints.get?, Constraints.set]
  rename_i i j
  rw [List.getElem?_set_ne (fun hh => h hh.symm)]

theorem Constraints.ShapeEq.refl (c : Constraints (Mat T)) : c.ShapeEq c := fun _ => rfl

theorem Constraints.ShapeEq.trans {c1 c2 c3 : Constraints (Mat T)} (h12 : c1.ShapeEq c2)
    (h23 : c2.ShapeEq c3) : c1.ShapeEq c3 := fun b => (h23 b).trans (h12 b)

theorem Constraints.ShapeEq.get? {c c' : Constraints (Mat T)} (h : c.ShapeEq c') (b : Block)
    (m : Mat T) (hm : c.get? b = some m) : ∃ m', c'.get? b = some m' ∧ m'.sig = m.sig := by
  have := h b
  rw [hm] at this
  cases h' : c'.get? b with
  | none => simp [h'] at this
  | some m' =>
    refine ⟨m', rfl, ?_⟩
    simpa [h'] using this

theorem Constraints.ShapeEq.rowsOf {c c' : Constraints (Mat T)} (h : c.ShapeEq c') (b : Block) :
    c'.rowsOf b = c.rowsOf b := by
  have := h b
  unfold Constraints.rowsOf
  cases h1 : c.get? b <;> cases h2 : c'.get? b <;> simp [h1, h2, Mat.sig] at this ⊢
  exact this.1

theorem ExpandOK.of_shapeEq {c c' : Constraints (Mat T)} {tr : List (Block × Nat)}
    (h : c.ShapeEq c') (hok : ExpandOK c tr) : ExpandOK c' tr := by
  intro p hp
  obtain ⟨m, hm, hd, hc⟩ := hok p hp
  obtain ⟨m', hm', hs⟩ := h.get? p.1 m hm
  simp only [Mat.sig, Prod.mk.injEq] at hs
  refine ⟨m', hm', ?_, ?_⟩
  · unfold Mat.Dense at hd ⊢
    rw [hs.1, hs.2.1, hs.2.2, hd]
  · rw [hs.1, hs.2.1]
    exact hc

theorem Constraints.shapeEq_set (c : Constraints (Mat T)) (b : Block) (m m1 : Mat T)
    (hm : c.get? b = some m) (hs : m1.sig = m.sig) : c.ShapeEq (c.set b m1) := by
  intro b'
  by_cases hb : b' = b
  · subst hb
    rw [Constraints.get?_set_same c b' m m1 hm, hm]
    simp [hs]
  · rw [Constraints.get?_set_other c b b' m1 hb]

theorem foldlM_expandCopyColumn (flat : Mat T) (hflat : flat.data.length = flat.numel)
    (tr : List (Block × Nat)) (hnd : tr.Nodup) (out : Constraints (Mat T)) (i : Nat)
    (hok : ExpandOK out tr)
    (hfit : i + (tr.map (fun p => out.rowsOf p.1)).sum ≤ flat.numel) :
    ∃ out', tr.foldlM (fun s p => expandCopyColumn flat p.1 p.2 s) (⟨out, i⟩ : ExpandState T) =
        .ok ⟨out', i + (tr.map (fun p => out.rowsOf p.1)).sum⟩ ∧
      out.ShapeEq out' ∧ (∀ q, q ∉ tr → out'.col q = out.col q) ∧
      (tr.map out'.col).flatten =
        (flat.data.drop i).take (tr.map (fun p => out.rowsOf p.1)).sum := by
  induction tr generalizing out i with
  | nil => exact ⟨out, by simp [pure, Except.pure], Constraints.ShapeEq.refl out, fun _ _ => rfl,
      by simp⟩
  | cons p tr ih =>
    obtain ⟨b, j⟩ := p
    obtain ⟨m, hm, hd, hc⟩ := hok (b, j) (List.mem_cons_self _ _)
    simp only at hm hc
    have hok' : ExpandOK out tr := fun q hq => hok q (List.mem_cons_of_mem _ hq)
    rw [List.nodup_cons] at hnd
    have hrows : out.rowsOf b = m.rows := by simp [Constraints.rowsOf, hm]
    simp only [List.map_cons, List.sum_cons, hrows] at hfit ⊢
    rw [List.foldlM_cons]
    by_cases hr : m.rows = 0
    · have hcc : expandCopyColumn flat b j (⟨out, i⟩ : ExpandState T) = .ok ⟨out, i⟩ := by
        simp [expandCopyColumn, hm, hr, pure, Except.pure]
      obtain ⟨out', h1, h2, h3, h4⟩ := ih hnd.2 out i hok' (by omega)
      refine ⟨out', ?_, h2, fun q hq => h3 q (fun hh => hq (List.mem_cons_of_mem _ hh)), ?_⟩
      · rw [hcc, ok_bind, h1, hr, Nat.zero_add]
      · obtain ⟨m', hm', hs⟩ := h2.get? b m hm
        simp only [Mat.sig, Prod.mk.injEq] at hs
        have : out'.col (b, j) = [] := by
          simp only [Constraints.col, hm']
          exact Mat.colData_of_rows_zero m' j (by rw [hs.1, hr])
        rw [List.flatten_cons, this, List.nil_append, h4, hr, Nat.zero_add]
    · have hj := hc hr
      set v := (flat.data.drop i).take m.rows with hv
      have hvl : v.length = m.rows := by
        rw [hv, List.length_take, List.length_drop, hflat]
        omega
      set m1 : Mat T := ⟨m.rows, m.cols, m.data.take (j * m.rows) ++ v ++
        m.data.drop (j * m.rows + m.rows)⟩ with hm1
      have hle : j * m.rows + m.rows ≤ m.data.length := by
        rw [hd]
        calc j * m.rows + m.rows = m.rows * (j + 1) := by ring
          _ ≤ m.rows * m.cols := Nat.mul_le_mul_left _ hj
      have hsig : m1.sig = m.sig := by
        simp only [Mat.sig, hm1, List.length_append, List.length_take, List.length_drop, hvl,
          Prod.mk.injEq, true_and]
        omega
      have hcc : expandCopyColumn flat b j (⟨out, i⟩ : ExpandState T) =
          .ok ⟨out.set b m1, i + m.rows⟩ := by
        have hsl : flat.slice i (i + m.rows) = .ok ⟨m.rows, 1, v⟩ := by
          unfold Mat.slice
          rw [if_pos (by omega)]
          simp [hv]
        have hsc : m.setColumn j v = .ok m1 := by
          unfold Mat.setColumn
          rw [if_pos hj]
        simp only [expandCopyColumn, hm, hr, ne_eq, not_false_eq_true, if_true, hsl, ok_bind, hsc]
        rfl
      have hse : out.ShapeEq (out.set b m1) := Constraints.shapeEq_set out b m m1 hm hsig
      have hsum : (tr.map (fun p => (out.set b m1).rowsOf p.1)).sum =
          (tr.map (fun p => out.rowsOf p.1)).sum := by
        congr 1
        apply List.map_congr_left
        intro q _
        exact hse.rowsOf q.1
      obtain ⟨out', h1, h2, h3, h4⟩ := ih hnd.2 (out.set b m1) (i + m.rows)
        (ExpandOK.of_shapeEq hse hok') (by rw [hsum]; omega)
      rw [hsum] at h1 h4
      have hcol1 : (out.set b m1).col (b, j) = v := by
        simp only [Constraints.col, Constraints.get?_set_same out b m m1 hm]
        exact Mat.colData_setColumn_same m j v hd hj hvl
      refine ⟨out', ?_, hse.trans h2, ?_, ?_⟩
      · rw [hcc, ok_bind, h1, Nat.add_assoc]
      · intro q hq
        rw [List.mem_cons, not_or] at hq
        rw [h3 q hq.2]
        obtain ⟨b', j'⟩ := q
        by_cases hb : b' = b
        · subst hb
          have hjj : j' ≠ j := fun hh => hq.1 (by rw [hh])
          simp only [Constraints.col, Constraints.get?_set_same out b' m m1 hm, hm]
          exact Mat.colData_setColumn_other m j j' v hd hj hvl hjj
        · simp only [Constraints.col, Constraints.get?_set_other out b b' m1 hb]
      · rw [List.flatten_cons, h3 (b, j) hnd.1, hcol1, h4, hv, List.take_add, List.drop_drop]

section

variable {τ : Type} [LinearOrder τ] {α : Type}

theorem GridFacts.meshIndex_le_succ {t : Transcription τ} (hf : GridFacts t) (m : Nat)
    (hm : m + 1 < t.mesh.length) : meshIndex t m ≤ meshIndex t (m + 1) := by
  obtain ⟨a, ha⟩ : ∃ a, t.mesh[m]? = some a := ⟨_, List.getElem?_eq_getElem (by omega)⟩
  obtain ⟨b, hb⟩ : ∃ b, t.mesh[m + 1]? = some b := ⟨_, List.getElem?_eq_getElem hm⟩
  have := (hf.step m a b ha hb).2
  simp only [meshIndex, ha, hb]
  omega

theorem GridFacts.meshIndex_mono {t : Transcription τ} (hf : GridFacts t) (m m' : Nat)
    (hmm : m ≤ m') (hm : m' < t.mesh.length) : meshIndex t m ≤ meshIndex t m' := by
  induction m' with
  | zero =>
    have : m = 0 := by omega
    subst this
    exact le_refl _
  | succ k ih =>
    by_cases h : m = k + 1
    · subst h; exact le_refl _
    · exact le_trans (ih (by omega) (by omega)) (hf.meshIndex_le_succ k hm)

theorem mem_meshBlock (t : Transcription τ) (c : Constraints α) (m : Nat) (p : α × Nat) :
    p ∈ meshBlock t c m ↔ p = (c.kinematic, m) ∨ (∃ q ∈ c.path, p = (q, m)) ∨
      (m < t.numMeshIntervals ∧ ((∃ g, meshIndex t m ≤ g ∧
        g < meshIndex t m + (meshIndex t (m + 1) - meshIndex t m) ∧ p = (c.residuals, g)) ∨
        p = (c.defects, m))) := by
  unfold meshBlock residualRun
  by_cases h : m < t.numMeshIntervals
  · simp only [h, if_true, List.cons_append, List.mem_cons, List.mem_append, List.mem_map,
      List.mem_range'_1, List.mem_singleton, true_and, List.not_mem_nil, or_false]
    constructor
    · rintro (h1 | ⟨q, hq, rfl⟩ | ⟨g, ⟨hg1, hg2⟩, rfl⟩ | h4)
      · exact Or.inl h1
      · exact Or.inr (Or.inl ⟨q, hq, rfl⟩)
      · exact Or.inr (Or.inr (Or.inl ⟨g, hg1, hg2, rfl⟩))
      · exact Or.inr (Or.inr (Or.inr h4))
    · rintro (h1 | ⟨q, hq, rfl⟩ | ⟨g, hg1, hg2, rfl⟩ | h4)
      · exact Or.inl h1
      · exact Or.inr (Or.inl ⟨q, hq, rfl⟩)
      · exact Or.inr (Or.inr (Or.inl ⟨g, ⟨hg1, hg2⟩, rfl⟩))
      · exact Or.inr (Or.inr (Or.inr h4))
  · simp only [h, if_false, List.append_nil, List.mem_cons, List.mem_map, false_and, or_false]
    constructor
    · rintro (h1 | ⟨q, hq, rfl⟩)
      · exact Or.inl h1
      · exact Or.inr ⟨q, hq, rfl⟩
    · rintro (h1 | ⟨q, hq, rfl⟩)
      · exact Or.inl h1
      · exact Or.inr ⟨q, hq, rfl⟩

theorem mem_emissionOrder (t : Transcription τ) (c : Constraints α) (p : α × Nat) :
    p ∈ emissionOrder t c ↔
      (∃ m, m < t.numMeshPoints ∧ p ∈ meshBlock t c m) ∨ p = (c.residuals, t.numGridPoints - 1) := by
  unfold emissionOrder
  simp only [List.mem_append, List.mem_flatten, List.mem_map, List.mem_range, List.mem_singleton]
  constructor
  · rintro (⟨l, ⟨m, hm, rfl⟩, hp⟩ | h)
    · exact Or.inl ⟨m, hm, hp⟩
    · exact Or.inr h
  · rintro (⟨m, hm, hp⟩ | h)
    · exact Or.inl ⟨_, ⟨m, hm, rfl⟩, hp⟩
    · exact Or.inr h

theorem mem_emissionOrder_bound (t : Transcription τ) (h : GridInvariant t)
    (hint : t.numMeshIntervals = t.numMeshPoints - 1) (c : Constraints α) (p : α × Nat)
    (hp : p ∈ emissionOrder t c) :
    (p.1 = c.kinematic ∧ p.2 < t.numMeshPoints) ∨ (p.1 ∈ c.path ∧ p.2 < t.numMeshPoints) ∨
      (p.1 = c.residuals ∧ p.2 < t.numGridPoints) ∨
      (p.1 = c.defects ∧ p.2 < t.numMeshPoints - 1) := by
  have hf := h.gridFacts hint
  have hG : 0 < t.numGridPoints := by
    rw [h.numGridPoints_eq]; exact List.length_pos.2 h.nonempty
  rw [mem_emissionOrder] at hp
  rcases hp with ⟨m, hm, hp⟩ | rfl
  · rw [mem_meshBlock] at hp
    rcases hp with rfl | ⟨q, hq, rfl⟩ | ⟨hlt, ⟨g, hg1, hg2, rfl⟩ | rfl⟩
    · exact Or.inl ⟨rfl, hm⟩
    · exact Or.inr (Or.inl ⟨hq, hm⟩)
    · refine Or.inr (Or.inr (Or.inl ⟨rfl, ?_⟩))
      have h1 : m + 1 < t.mesh.length := by rw [hint, h.numMeshPoints_eq] at hlt; omega
      have h2 := hf.meshIndex_le_succ m h1
      have h3 := hf.meshIndex_mono (m + 1) (t.mesh.length - 1) (by omega) (by omega)
      have h4 := h.meshIndex_last
      have h5 := h.numGridPoints_eq
      simp only
      omega
    · exact Or.inr (Or.inr (Or.inr ⟨rfl, by rw [hint] at hlt; exact hlt⟩))
  · exact Or.inr (Or.inr (Or.inl ⟨rfl, by simp only; omega⟩))

end

section

variable {τ : Type} [LinearOrder τ] {α : Type}

theorem sum_meshBlock (t : Transcription τ) (c : Constraints α) (w : α → Nat) (m : Nat) :
    ((meshBlock t c m).map (fun p => w p.1)).sum = w c.kinematic + (c.path.map w).sum +
      (if m < t.numMeshIntervals then
        (meshIndex t (m + 1) - meshIndex t m) * w c.residuals + w c.defects else 0) := by
  unfold meshBlock residualRun
  by_cases h : m < t.numMeshIntervals
  · simp [h, List.map_map, Function.comp_def, List.sum_append, Nat.add_assoc]
  · simp [h, List.map_map, Function.comp_def]

theorem sum_meshBlocks (t : Transcription τ) (hf : GridFacts t) (c : Constraints α)
    (w : α → Nat) (n : Nat) (hn : n ≤ t.mesh.length) (h0 : meshIndex t 0 = 0) :
    ((((List.range n).map (meshBlock t c)).flatten).map (fun p => w p.1)).sum =
      n * (w c.kinematic + (c.path.map w).sum) +
        meshIndex t (min n (t.mesh.length - 1)) * w c.residuals +
        min n (t.mesh.length - 1) * w c.defects := by
  induction n with
  | zero => simp [h0]
  | succ n ih =>
    rw [List.range_succ, List.map_append, List.flatten_append, List.map_append, List.sum_append,
      ih (by omega)]
    simp only [List.map_cons, List.map_nil, List.flatten_cons, List.flatten_nil, List.append_nil]
    rw [sum_meshBlock]
    by_cases hlt : n < t.numMeshIntervals
    · have h1 : n + 1 < t.mesh.length := by rw [hf.intervals] at hlt; omega
      have hle := hf.meshIndex_le_succ n h1
      rw [if_pos hlt, show min n (t.mesh.length - 1) = n by omega,
        show min (n + 1) (t.mesh.length - 1) = n + 1 by omega]
      have e : meshIndex t (n + 1) = meshIndex t n + (meshIndex t (n + 1) - meshIndex t n) := by
        omega
      generalize meshIndex t (n + 1) - meshIndex t n = k at e
      rw [e]
      ring
    · have h1 : n = t.mesh.length - 1 := by rw [hf.intervals] at hlt; omega
      rw [if_neg hlt, show min n (t.mesh.length - 1) = n by omega,
        show min (n + 1) (t.mesh.length - 1) = n by omega]
      ring

theorem sum_emissionOrder (t : Transcription τ) (h : GridInvariant t)
    (hint : t.numMeshIntervals = t.numMeshPoints - 1) (c : Constraints α) (w : α → Nat) :
    ((emissionOrder t c).map (fun p => w p.1)).sum =
      t.numMeshPoints * (w c.kinematic + (c.path.map w).sum) +
        t.numGridPoints * w c.residuals + (t.numMeshPoints - 1) * w c.defects := by
  have hf := h.gridFacts hint
  have hG : 0 < t.grid.length := List.length_pos.2 h.nonempty
  unfold emissionOrder
  rw [List.map_append, List.sum_append, h.numMeshPoints_eq,
    sum_meshBlocks t hf c w _ (le_refl _) h.meshIndex_zero,
    show min t.mesh.length (t.mesh.length - 1) = t.mesh.length - 1 by omega,
    h.meshIndex_last, h.numGridPoints_eq]
  simp only [List.map_cons, List.map_nil, List.sum_cons, List.sum_nil, Nat.add_zero]
  obtain ⟨g, hg⟩ : ∃ g, t.grid.length = g + 1 := ⟨t.grid.length - 1, by omega⟩
  rw [hg]
  simp only [Nat.add_sub_cancel]
  ring

end

section

variable {τ : Type} [LinearOrder τ] {α : Type}

theorem mem_meshBlock_handles (t : Transcription τ) (P m : Nat) (b : Block) (j : Nat) :
    (b, j) ∈ meshBlock t (Constraints.handles P) m ↔
      (b = .kinematic ∧ j = m) ∨ (∃ i, i < P ∧ b = .path i ∧ j = m) ∨
      (m < t.numMeshIntervals ∧ ((b = .residuals ∧ meshIndex t m ≤ j ∧
        j < meshIndex t m + (meshIndex t (m + 1) - meshIndex t m)) ∨
        (b = .defects ∧ j = m))) := by
  rw [mem_meshBlock]
  simp only [Constraints.handles, Prod.mk.injEq, List.mem_map, List.mem_range]
  constructor
  · rintro (h | ⟨q, ⟨i, hi, rfl⟩, h1, h2⟩ | ⟨hlt, ⟨g, hg1, hg2, h1, h2⟩ | h⟩)
    · exact Or.inl h
    · exact Or.inr (Or.inl ⟨i, hi, h1, h2⟩)
    · subst h2; exact Or.inr (Or.inr ⟨hlt, Or.inl ⟨h1, hg1, hg2⟩⟩)
    · exact Or.inr (Or.inr ⟨hlt, Or.inr h⟩)
  · rintro (h | ⟨i, hi, h1, h2⟩ | ⟨hlt, ⟨h1, hg1, hg2⟩ | h⟩)
    · exact Or.inl h
    · exact Or.inr (Or.inl ⟨_, ⟨i, hi, rfl⟩, h1, h2⟩)
    · exact Or.inr (Or.inr ⟨hlt, Or.inl ⟨j, hg1, hg2, h1, rfl⟩⟩)
    · exact Or.inr (Or.inr ⟨hlt, Or.inr h⟩)

theorem nodup_meshBlock_handles (t : Transcription τ) (P m : Nat) :
    (meshBlock t (Constraints.handles P) m).Nodup := by
  unfold meshBlock residualRun Constraints.handles
  have hinj1 : Function.Injective (fun p : Block => (p, m)) := fun a b hab => by
    simpa using hab
  have hinj2 : Function.Injective (fun i : Nat => (Block.residuals, i)) := fun a b hab => by
    simpa using hab
  have hinj3 : Function.Injective Block.path := fun a b hab => by simpa using hab
  have hp : (((List.range P).map Block.path).map (fun p => (p, m))).Nodup :=
    ((List.nodup_range P).map hinj3).map hinj1
  rw [List.cons_append, List.nodup_cons]
  constructor
  · simp [List.mem_append, List.mem_map]
  · rw [List.nodup_append]
    refine ⟨hp, ?_, ?_⟩
    · split
      · rw [List.nodup_append]
        refine ⟨(List.nodup_range' _ _).map hinj2, List.nodup_singleton _, ?_⟩
        intro x hx hx'
        simp at hx hx'
        obtain ⟨g, -, rfl⟩ := hx
        simp at hx'
      · exact List.nodup_nil
    · intro x hx hx'
      simp only [List.mem_map, List.mem_range] at hx
      obtain ⟨q, ⟨i, -, rfl⟩, rfl⟩ := hx
      split at hx' <;> simp at hx'

theorem nodup_emissionOrder_handles (t : Transcription τ) (h : GridInvariant t)
    (hint : t.numMeshIntervals = t.numMeshPoints - 1) (P : Nat) :
    (emissionOrder t (Constraints.handles P)).Nodup := by
  have hf := h.gridFacts hint
  have hlast := h.meshIndex_last
  unfold emissionOrder
  rw [List.nodup_append]
  refine ⟨?_, List.nodup_singleton _, ?_⟩
  · rw [List.nodup_flatten]
    constructor
    · intro l hl
      rw [List.mem_map] at hl
      obtain ⟨m, -, rfl⟩ := hl
      exact nodup_meshBlock_handles t P m
    · rw [List.pairwise_map]
      refine List.Pairwise.imp_of_mem ?_ (List.pairwise_lt_range t.numMeshPoints)
      intro m m' hm hm' hlt
      rw [List.mem_range] at hm hm'
      intro p hp hp'
      obtain ⟨b, j⟩ := p
      rw [mem_meshBlock_handles] at hp hp'
      rcases hp with ⟨rfl, rfl⟩ | ⟨i, -, rfl, rfl⟩ | ⟨hI, ⟨rfl, hg1, hg2⟩ | ⟨rfl, rfl⟩⟩
      · rcases hp' with ⟨-, h2⟩ | ⟨i, -, h1, -⟩ | ⟨-, ⟨h1, -⟩ | ⟨h1, -⟩⟩
        · omega
        · cases h1
        · cases h1
        · cases h1
      · rcases hp' with ⟨h1, -⟩ | ⟨i', -, -, h2⟩ | ⟨-, ⟨h1, -⟩ | ⟨h1, -⟩⟩
        · cases h1
        · omega
        · cases h1
        · cases h1
      · rcases hp' with ⟨h1, -⟩ | ⟨i', -, h1, -⟩ | ⟨hI', ⟨-, hg1', hg2'⟩ | ⟨h1, -⟩⟩
        · cases h1
        · cases h1
        · have h1 : m + 1 < t.mesh.length := by rw [hf.intervals] at hI; omega
          have h2 := hf.meshIndex_le_succ m h1
          have h3 := hf.meshIndex_mono (m + 1) m' (by omega)
            (by rw [h.numMeshPoints_eq] at hm'; exact hm')
          omega
        · cases h1
      · rcases hp' with ⟨h1, -⟩ | ⟨i', -, h1, -⟩ | ⟨-, ⟨h1, -⟩ | ⟨-, h2⟩⟩
        · cases h1
        · cases h1
        · cases h1
        · omega
  · intro p hp hp'
    rw [List.mem_singleton] at hp'
    subst hp'
    simp only [List.mem_flatten, List.mem_map, List.mem_range] at hp
    obtain ⟨l, ⟨m, hm, rfl⟩, hp⟩ := hp
    rw [show (Constraints.handles P).residuals = Block.residuals from rfl,
      mem_meshBlock_handles] at hp
    rcases hp with ⟨h1, -⟩ | ⟨i, -, h1, -⟩ | ⟨hI, ⟨-, hg1, hg2⟩ | ⟨h1, -⟩⟩
    · cases h1
    · cases h1
    · have h1 : m + 1 < t.mesh.length := by rw [hf.intervals] at hI; omega
      have h2 := hf.meshIndex_le_succ m h1
      have h3 := hf.meshIndex_mono (m + 1) (t.mesh.length - 1) (by omega) (by omega)
      have h5 := h.numGridPoints_eq
      omega
    · cases h1

theorem exists_run_of_lt (t : Transcription τ) (h0 : meshIndex t 0 = 0)
    (g n : Nat) (hn : n < t.mesh.length) (hg : g < meshIndex t n) :
    ∃ m, m < n ∧ meshIndex t m ≤ g ∧ g < meshIndex t (m + 1) := by
  induction n with
  | zero => omega
  | succ n ih =>
    by_cases h : g < meshIndex t n
    · obtain ⟨m, hm, h1, h2⟩ := ih (by omega) h
      exact ⟨m, by omega, h1, h2⟩
    · exact ⟨n, by omega, by omega, hg⟩

theorem mem_emissionOrder_handles (t : Transcription τ) (h : GridInvariant t)
    (hint : t.numMeshIntervals = t.numMeshPoints - 1) (P : Nat) (b : Block) (j : Nat)
    (hb : (b = .kinematic ∧ j < t.numMeshPoints) ∨ (∃ i, i < P ∧ b = .path i ∧ j < t.numMeshPoints) ∨
      (b = .residuals ∧ j < t.numGridPoints) ∨ (b = .defects ∧ j < t.numMeshPoints - 1)) :
    (b, j) ∈ emissionOrder t (Constraints.handles P) := by
  have hf := h.gridFacts hint
  rw [mem_emissionOrder]
  rcases hb with ⟨rfl, hj⟩ | ⟨i, hi, rfl, hj⟩ | ⟨rfl, hj⟩ | ⟨rfl, hj⟩
  · exact Or.inl ⟨j, hj, (mem_meshBlock_handles t P j _ j).2 (Or.inl ⟨rfl, rfl⟩)⟩
  · exact Or.inl ⟨j, hj, (mem_meshBlock_handles t P j _ j).2 (Or.inr (Or.inl ⟨i, hi, rfl, rfl⟩))⟩
  · by_cases hlast : j = t.numGridPoints - 1
    · subst hlast; exact Or.inr rfl
    · have hj' : j < meshIndex t (t.mesh.length - 1) := by
        rw [h.meshIndex_last, ← h.numGridPoints_eq]; omega
      have hM : 0 < t.mesh.length := List.length_pos.2 h.mesh_ne_nil
      obtain ⟨m, hm, h1, h2⟩ := exists_run_of_lt t h.meshIndex_zero j _ (by omega) hj'
      refine Or.inl ⟨m, by rw [h.numMeshPoints_eq]; omega, ?_⟩
      rw [mem_meshBlock_handles]
      refine Or.inr (Or.inr ⟨by rw [hf.intervals]; omega, Or.inl ⟨rfl, h1, by omega⟩⟩)
  · refine Or.inl ⟨j, by omega, ?_⟩
    rw [mem_meshBlock_handles]
    exact Or.inr (Or.inr ⟨by rw [hint]; exact hj, Or.inr ⟨rfl, rfl⟩⟩)

end

theorem Mat.sig_of_hasShape (m : Mat T) (r c : Nat) (h : m.HasShape r c) :
    m.sig = (r, c, r * c) := by
  obtain ⟨h1, h2, h3⟩ := h
  simp [Mat.sig, h1, h2, h3]

theorem Mat.dense_of_sig (m : Mat T) (r c : Nat) (h : m.sig = (r, c, r * c)) : m.Dense := by
  simp only [Mat.sig, Prod.mk.injEq] at h
  unfold Mat.Dense
  rw [h.1, h.2.1, h.2.2]

theorem map_sig_of_forall2 (M : Nat) (l : List (Mat T)) (infos : List Nat)
    (h : List.Forall₂ (fun m size => m.HasShape size M) l infos) :
    l.map Mat.sig = infos.map (fun size => (size, M, size * M)) := by
  induction h with
  | nil => rfl
  | cons hab _ ih =>
    simp only [List.map_cons, ih, Mat.sig_of_hasShape _ _ _ hab]

theorem DeclaredShapes.shapesSig {τ : Type} {t : Transcription τ} {c : Constraints (Mat T)}
    (h : DeclaredShapes t c) : ShapesSig t c := by
  refine ⟨Mat.sig_of_hasShape _ _ _ h.defects, Mat.sig_of_hasShape _ _ _ h.residuals,
    Mat.sig_of_hasShape _ _ _ h.kinematic, map_sig_of_forall2 _ _ _ h.path⟩

theorem ShapesSig.transfer {τ : Type} {t : Transcription τ} {c c' : Constraints (Mat T)}
    (h : ShapesSig t c) (he : c.ShapeEq c') : ShapesSig t c' := by
  have h1 := he .defects
  have h2 := he .residuals
  have h3 := he .kinematic
  simp only [Constraints.get?, Option.map_some', Option.some.injEq] at h1 h2 h3
  refine ⟨h1.trans h.defects, h2.trans h.residuals, h3.trans h.kinematic, ?_⟩
  rw [← h.path]
  apply List.ext_getElem?
  intro i
  have := he (.path i)
  simp only [Constraints.get?] at this
  rw [List.getElem?_map, List.getElem?_map, this]

theorem ShapesSig.path_length {τ : Type} {t : Transcription τ} {c : Constraints (Mat T)}
    (h : ShapesSig t c) : c.path.length = t.pathConstraintInfos.length := by
  have := congrArg List.length h.path
  simpa using this

theorem ShapesSig.path_rows {τ : Type} {t : Transcription τ} {c : Constraints (Mat T)}
    (h : ShapesSig t c) : c.path.map Mat.rows = t.pathConstraintInfos := by
  have := congrArg (List.map (fun s : Nat × Nat × Nat => s.1)) h.path
  simpa [List.map_map, Function.comp_def, Mat.sig] using this

theorem ShapesSig.path_mem {τ : Type} {t : Transcription τ} {c : Constraints (Mat T)}
    (h : ShapesSig t c) (m : Mat T) (hm : m ∈ c.path) : m.Dense ∧ m.cols = t.numMeshPoints := by
  have hmem : m.sig ∈ c.path.map Mat.sig := List.mem_map_of_mem _ hm
  rw [h.path, List.mem_map] at hmem
  obtain ⟨size, -, hs⟩ := hmem
  refine ⟨Mat.dense_of_sig m _ _ hs.symm, ?_⟩
  simp only [Mat.sig, Prod.mk.injEq] at hs
  exact hs.2.1.symm

theorem initPath_eq {τ : Type} [Zero T] (t : Transcription τ) (ipc : Nat) (infos : List Nat)
    (h : ipc + infos.length ≤ t.numPathConstraints) :
    (initPath t ipc infos : List (Mat T)) =
      infos.map (fun size => Mat.dense size t.numMeshPoints) := by
  induction infos generalizing ipc with
  | nil => rfl
  | cons size infos ih =>
    simp only [List.length_cons] at h
    simp only [initPath, List.map_cons]
    rw [if_pos (by omega), ih (ipc + 1) (by omega)]

theorem expandInit_eq {τ : Type} [LT τ] [Zero T] (t : Transcription τ) (h : Consistent t) :
    ∃ out : Constraints (Mat T), expandInit t = .ok out ∧ ShapesSig t out := by
  have hM : t.numMeshPoints ≠ 0 := by
    rw [h.grid.numMeshPoints_eq]
    intro h0
    have hm : t.mesh = [] := List.length_eq_zero.1 h0
    have hf := h.grid.first
    rw [hm] at hf
    cases hg : t.grid with
    | nil => exact h.grid.nonempty hg
    | cons a l => simp [hg] at hf
  unfold expandInit
  rw [if_neg (by rw [h.paths]; omega)]
  refine ⟨_, rfl, ?_⟩
  refine ⟨by simp [Mat.sig, Mat.dense], by simp [Mat.sig, Mat.dense], by simp [Mat.sig, Mat.dense],
    ?_⟩
  simp only
  rw [initPath_eq t 0 _ (by rw [h.paths]; omega), List.map_map]
  apply List.map_congr_left
  intro size _
  simp [Mat.sig, Mat.dense]

section

variable {τ : Type} [LinearOrder τ]

theorem ShapesSig.columnsOK {t : Transcription τ} {c : Constraints (Mat T)} (h : ShapesSig t c)
    (hg : GridInvariant t) (hint : t.numMeshIntervals = t.numMeshPoints - 1) :
    ColumnsOK (emissionOrder t c) := by
  have key : ∀ (m : Mat T) (j r k : Nat), m.sig = (r, k, r * k) → j < k →
      (m.rows ≠ 0 → j < m.cols) ∧ (m.colData j).length = m.rows := by
    intro m j r k hs hj
    have hd := Mat.dense_of_sig m r k hs
    simp only [Mat.sig, Prod.mk.injEq] at hs
    have hj' : j < m.cols := by rw [hs.2.1]; exact hj
    exact ⟨fun _ => hj', Mat.colData_length m j hd hj'⟩
  intro p hp
  rcases mem_emissionOrder_bound t hg hint c p hp with ⟨h1, h2⟩ | ⟨h1, h2⟩ | ⟨h1, h2⟩ | ⟨h1, h2⟩
  · rw [h1]; exact key _ _ _ _ h.kinematic h2
  · obtain ⟨hd, hc⟩ := h.path_mem p.1 h1
    have hj' : p.2 < p.1.cols := by rw [hc]; exact h2
    exact ⟨fun _ => hj', Mat.colData_length p.1 p.2 hd hj'⟩
  · rw [h1]; exact key _ _ _ _ h.residuals h2
  · rw [h1]; exact key _ _ _ _ h.defects h2

theorem length_pieces (tr : List (Mat T × Nat)) (h : ColumnsOK tr) :
    (pieces tr).length = (tr.map (fun p => p.1.rows)).sum := by
  unfold pieces
  rw [List.length_flatten, List.map_map]
  congr 1
  apply List.map_congr_left
  intro p hp
  exact (h p hp).2

theorem ShapesSig.pieces_length {t : Transcription τ} {c : Constraints (Mat T)}
    (h : ShapesSig t c) (hg : GridInvariant t) (hint : t.numMeshIntervals = t.numMeshPoints - 1) :
    (pieces (emissionOrder t c)).length = declaredTotal t := by
  rw [CasOC.length_pieces _ (h.columnsOK hg hint), sum_emissionOrder t hg hint c Mat.rows,
    h.path_rows]
  have h1 := h.defects
  have h2 := h.residuals
  have h3 := h.kinematic
  simp only [Mat.sig, Prod.mk.injEq] at h1 h2 h3
  rw [h1.1, h2.1, h3.1]
  rfl

theorem ShapesSig.expandOK {t : Transcription τ} {c : Constraints (Mat T)} (h : ShapesSig t c)
    (hg : GridInvariant t) (hint : t.numMeshIntervals = t.numMeshPoints - 1) :
    ExpandOK c (emissionOrder t (Constraints.handles c.path.length)) := by
  have key : ∀ (m : Mat T) (j r k : Nat), m.sig = (r, k, r * k) → j < k →
      m.Dense ∧ (m.rows ≠ 0 → j < m.cols) := by
    intro m j r k hs hj
    have hd := Mat.dense_of_sig m r k hs
    simp only [Mat.sig, Prod.mk.injEq] at hs
    exact ⟨hd, fun _ => by rw [hs.2.1]; exact hj⟩
  intro p hp
  rcases mem_emissionOrder_bound t hg hint _ p hp with ⟨h1, h2⟩ | ⟨h1, h2⟩ | ⟨h1, h2⟩ | ⟨h1, h2⟩
  · exact ⟨c.kinematic, by rw [h1]; rfl, key _ _ _ _ h.kinematic h2⟩
  · simp only [Constraints.handles, List.mem_map, List.mem_range] at h1
    obtain ⟨i, hi, hpi⟩ := h1
    refine ⟨c.path[i], by rw [← hpi]; simp [Constraints.get?, hi], ?_⟩
    obtain ⟨hd, hc⟩ := h.path_mem c.path[i] (List.getElem_mem hi)
    exact ⟨hd, fun _ => by rw [hc]; exact h2⟩
  · exact ⟨c.residuals, by rw [h1]; rfl, key _ _ _ _ h.residuals h2⟩
  · exact ⟨c.defects, by rw [h1]; rfl, key _ _ _ _ h.defects h2⟩

theorem ShapesSig.sum_rowsOf {t : Transcription τ} {c : Constraints (Mat T)} (h : ShapesSig t c)
    (hg : GridInvariant t) (hint : t.numMeshIntervals = t.numMeshPoints - 1) :
    ((emissionOrder t (Constraints.handles c.path.length)).map
      (fun p => c.rowsOf p.1)).sum = declaredTotal t := by
  rw [sum_emissionOrder t hg hint _ c.rowsOf]
  have hp : ((Constraints.handles c.path.length).path.map c.rowsOf) = c.path.map Mat.rows := by
    apply List.ext_getElem?
    intro i
    simp only [Constraints.handles, List.map_map, List.getElem?_map, List.getElem?_range']
    by_cases hi : i < c.path.length
    · simp [List.getElem?_range hi, Constraints.rowsOf, Constraints.get?, hi]
    · rw [List.getElem?_eq_none (by simpa using hi), List.getElem?_eq_none (by simpa using hi)]
      rfl
  rw [hp, h.path_rows]
  have h1 := h.defects
  have h2 := h.residuals
  have h3 := h.kinematic
  simp only [Mat.sig, Prod.mk.injEq] at h1 h2 h3
  simp only [Constraints.handles, Constraints.rowsOf, Constraints.get?, h1.1, h2.1, h3.1]
  rfl

theorem pieces_eq_col (t : Transcription τ) (c : Constraints (Mat T)) :
    pieces (emissionOrder t c) =
      ((emissionOrder t (Constraints.handles c.path.length)).map c.col).flatten := by
  have hpath : ∀ m, (c.path.map (fun p => (p, m))).map (fun p => p.1.colData p.2) =
      (((Constraints.handles c.path.length).path.map (fun p => (p, m))).map c.col) := by
    intro m
    apply List.ext_getElem?
    intro i
    simp only [Constraints.handles, List.map_map, List.getElem?_map]
    by_cases hi : i < c.path.length
    · simp [List.getElem?_range hi, Constraints.col, Constraints.get?, hi]
    · rw [List.getElem?_eq_none (by simpa using hi), List.getElem?_eq_none (by simpa using hi)]
      rfl
  have hblock : ∀ m, (meshBlock t c m).map (fun p => p.1.colData p.2) =
      (meshBlock t (Constraints.handles c.path.length) m).map c.col := by
    intro m
    unfold meshBlock
    simp only [List.cons_append, List.map_cons, List.map_append, hpath]
    congr 1
    congr 1
    split
    · simp [List.map_map, Function.comp_def, Constraints.col, Constraints.get?,
        Constraints.handles]
    · rfl
  unfold pieces emissionOrder
  congr 1
  simp only [List.map_append, List.map_flatten, List.map_map, Function.comp_def, hblock]
  rfl

end

section

variable {τ : Type} [LinearOrder τ]

theorem expandConstraints_eq [Zero T] (t : Transcription τ) (h : Consistent t) (l : List T)
    (hl : l.length = t.numConstraints) :
    ∃ out : Constraints (Mat T), expandConstraints t (Mat.column l) = .ok out ∧
      ShapesSig t out ∧
      ((emissionOrder t (Constraints.handles out.path.length)).map out.col).flatten = l := by
  obtain ⟨out0, h0, hs0⟩ := expandInit_eq (T := T) t h
  have hnum : (Mat.column l).numel = l.length := by simp [Mat.column, Mat.numel]
  obtain ⟨out, h1, h2, -, h4⟩ := foldlM_expandCopyColumn (Mat.column l) (by rw [hnum]; rfl)
    (emissionOrder t (Constraints.handles out0.path.length))
    (nodup_emissionOrder_handles t h.grid h.intervals _) out0 0
    (hs0.expandOK h.grid h.intervals)
    (by rw [hs0.sum_rowsOf h.grid h.intervals, hnum, hl, h.total]; omega)
  rw [hs0.sum_rowsOf h.grid h.intervals] at h1 h4
  have hs := hs0.transfer h2
  refine ⟨out, ?_, hs, ?_⟩
  · unfold expandConstraints expandConstraintsRun
    rw [h0, ok_bind, traverse_eq t h.grid h.intervals, h1, ok_bind]
    simp [h.total]
  · rw [hs.path_length, ← hs0.path_length, h4]
    simp only [Mat.column, List.drop_zero]
    rw [List.take_of_length_le (by rw [hl, h.total])]

/-- C2: in a consistent transcription (grid invariant, one mesh interval less than mesh
points, one path block per declared path constraint, the declared number of constraints),
expanding a flat vector of length `m_numConstraints` and flattening the result succeeds and
gives the flat vector back. -/
theorem flattenConstraints_expandConstraints [Zero T] (t : Transcription τ)
    (h : Consistent t) (l : List T) (hl : l.length = t.numConstraints) :
    (expandConstraints t (Mat.column l) >>= flattenConstraints t) = .ok (Mat.column l) := by
  obtain ⟨out, h1, hs, h3⟩ := expandConstraints_eq t h l hl
  rw [h1, ok_bind, flattenConstraints_eq t h.grid h.intervals out
    (hs.columnsOK h.grid h.intervals)
    (by rw [hs.pieces_length h.grid h.intervals, h.total]), pieces_eq_col, h3]

end

theorem Mat.colData_eq_filterMap (m : Mat T) (j : Nat) :
    m.colData j = (List.range m.rows).filterMap (fun i => m.data[j * m.rows + i]?) := by
  unfold Mat.colData
  rw [← filterMap_range_getElem?]
  apply List.filterMap_congr
  intro i _
  rw [List.getElem?_drop]

theorem Mat.data_eq_flatten_colData (m : Mat T) (hd : m.Dense) :
    m.data = ((List.range m.cols).map m.colData).flatten := by
  have : (List.range m.cols).map m.colData = (List.range m.cols).map
      (fun j => (List.range m.rows).filterMap (fun i => m.data[j * m.rows + i]?)) :=
    List.map_congr_left (fun j _ => Mat.colData_eq_filterMap m j)
  rw [this, flatten_chunks m.rows m.cols m.data hd]

theorem Mat.ext_of_colData (m m' : Mat T) (hs : m.sig = m'.sig) (hd : m.Dense)
    (hcol : ∀ j, j < m.cols → m.colData j = m'.colData j) : m = m' := by
  simp only [Mat.sig, Prod.mk.injEq] at hs
  have hd' : m'.Dense := by
    unfold Mat.Dense at hd ⊢
    rw [← hs.1, ← hs.2.1, ← hs.2.2, hd]
  have hdata : m.data = m'.data := by
    rw [Mat.data_eq_flatten_colData m hd, Mat.data_eq_flatten_colData m' hd', ← hs.2.1]
    congr 1
    apply List.map_congr_left
    intro j hj
    exact hcol j (List.mem_range.1 hj)
  cases m
  cases m'
  simp only at hs hdata
  simp [hs.1, hs.2.1, hdata]

theorem flatten_map_inj {β : Type} (l : List β) (f g : β → List T)
    (hlen : ∀ x ∈ l, (f x).length = (g x).length)
    (h : (l.map f).flatten = (l.map g).flatten) : ∀ x ∈ l, f x = g x := by
  induction l with
  | nil => intro x hx; cases hx
  | cons a l ih =>
    simp only [List.map_cons, List.flatten_cons] at h
    obtain ⟨h1, h2⟩ := List.append_inj h (hlen a (List.mem_cons_self _ _))
    intro x hx
    rcases List.mem_cons.1 hx with rfl | hx'
    · exact h1
    · exact ih (fun y hy => hlen y (List.mem_cons_of_mem _ hy)) h2 x hx'

theorem ExpandOK.length_col {c : Constraints (Mat T)} {tr : List (Block × Nat)}
    (h : ExpandOK c tr) (p : Block × Nat) (hp : p ∈ tr) : (c.col p).length = c.rowsOf p.1 := by
  obtain ⟨m, hm, hd, hc⟩ := h p hp
  simp only [Constraints.col, Constraints.rowsOf, hm]
  by_cases hr : m.rows = 0
  · rw [Mat.colData_of_rows_zero m p.2 hr, hr]; rfl
  · exact Mat.colData_length m p.2 hd (hc hr)

theorem ShapesSig.shapeEq {τ : Type} {t : Transcription τ} {c c' : Constraints (Mat T)}
    (h : ShapesSig t c) (h' : ShapesSig t c') : c.ShapeEq c' := by
  intro b
  cases b with
  | defects => simp [Constraints.get?, h.defects, h'.defects]
  | residuals => simp [Constraints.get?, h.residuals, h'.residuals]
  | kinematic => simp [Constraints.get?, h.kinematic, h'.kinematic]
  | path i =>
    simp only [Constraints.get?]
    rw [← List.getElem?_map, ← List.getElem?_map, h.path, h'.path]

section

variable {τ : Type} [LinearOrder τ]

/-- C3: in a consistent transcription, flattening constraints whose blocks have the declared
shapes and expanding the result succeeds and gives the same constraints back, block by block
and entry by entry. -/
theorem expandConstraints_flattenConstraints [Zero T] (t : Transcription τ)
    (h : Consistent t) (c : Constraints (Mat T)) (hc : DeclaredShapes t c) :
    (flattenConstraints t c >>= expandConstraints t) = .ok c := by
  have hs := hc.shapesSig
  have hlen := hs.pieces_length h.grid h.intervals
  rw [flattenConstraints_eq t h.grid h.intervals c (hs.columnsOK h.grid h.intervals)
    (by rw [hlen, h.total]), ok_bind]
  obtain ⟨out, h1, hso, h3⟩ := expandConstraints_eq t h (pieces (emissionOrder t c))
    (by rw [hlen, h.total])
  rw [h1]
  congr 1
  have hP : out.path.length = c.path.length := by rw [hso.path_length, hs.path_length]
  rw [pieces_eq_col, hP] at h3
  have hok := hs.expandOK h.grid h.intervals
  have hoko := hso.expandOK h.grid h.intervals
  rw [hP] at hoko
  have hse := hs.shapeEq hso
  have hcols := flatten_map_inj _ out.col c.col
    (fun p hp => by rw [hoko.length_col p hp, hok.length_col p hp, hse.rowsOf]) h3
  have hmem := mem_emissionOrder_handles t h.grid h.intervals c.path.length
  have hsd := hso.defects
  have hsr := hso.residuals
  have hsk := hso.kinematic
  have hd : out.defects = c.defects := by
    apply Mat.ext_of_colData _ _ (by rw [hso.defects, hs.defects])
      (Mat.dense_of_sig _ _ _ hso.defects)
    intro j hj
    simp only [Mat.sig, Prod.mk.injEq] at hsd
    exact hcols (.defects, j) (hmem _ _ (Or.inr (Or.inr (Or.inr ⟨rfl, by rw [← hsd.2.1]; exact hj⟩))))
  have hr : out.residuals = c.residuals := by
    apply Mat.ext_of_colData _ _ (by rw [hso.residuals, hs.residuals])
      (Mat.dense_of_sig _ _ _ hso.residuals)
    intro j hj
    simp only [Mat.sig, Prod.mk.injEq] at hsr
    exact hcols (.residuals, j) (hmem _ _ (Or.inr (Or.inr (Or.inl ⟨rfl, by rw [← hsr.2.1]; exact hj⟩))))
  have hk : out.kinematic = c.kinematic := by
    apply Mat.ext_of_colData _ _ (by rw [hso.kinematic, hs.kinematic])
      (Mat.dense_of_sig _ _ _ hso.kinematic)
    intro j hj
    simp only [Mat.sig, Prod.mk.injEq] at hsk
    exact hcols (.kinematic, j) (hmem _ _ (Or.inl ⟨rfl, by rw [← hsk.2.1]; exact hj⟩))
  have hp : out.path = c.path := by
    apply List.ext_getElem hP
    intro i hi hi'
    have hsig : (out.path[i]).sig = (c.path[i]).sig := by
      have := hse (.path i)
      simpa [Constraints.get?, hi, hi'] using this
    obtain ⟨hdo, hco⟩ := hso.path_mem out.path[i] (List.getElem_mem hi)
    apply Mat.ext_of_colData _ _ hsig hdo
    intro j hj
    have := hcols (.path i, j) (hmem _ _ (Or.inr (Or.inl ⟨i, hi', rfl, by rw [← hco]; exact hj⟩)))
    simpa [Constraints.col, Constraints.get?, hi, hi'] using this
  cases out
  cases c
  simp only at hd hr hk hp
  simp [hd, hr, hk, hp]

end

theorem filter_range_interval (lo hi n : Nat) :
    (List.range n).filter (fun i => decide (lo ≤ i ∧ i < hi)) =
      List.range' lo (min hi n - lo) := by
  induction n with
  | zero => simp
  | succ n ih =>
    rw [List.range_succ, List.filter_append, ih]
    by_cases h1 : n < hi
    · by_cases h2 : lo ≤ n
      · have : min hi (n + 1) - lo = (min hi n - lo) + 1 := by omega
        rw [this, List.range'_concat]
        have e : lo + (min hi n - lo) = n := by omega
        simp [h1, h2, e]
      · have : min hi (n + 1) - lo = min hi n - lo := by omega
        simp [h1, h2, this]
    · have : min hi (n + 1) - lo = min hi n - lo := by omega
      simp [h1, this]

section

variable {τ : Type} [LinearOrder τ] {α : Type}

theorem lt_gridRank_iff (grid : List τ) (hs : grid.Sorted (· < ·)) (a : τ) (i : Nat)
    (hi : i < grid.length) : i < gridRank grid a ↔ grid[i] < a := by
  induction grid generalizing i with
  | nil => simp at hi
  | cons x xs ih =>
    rw [List.sorted_cons] at hs
    unfold gridRank at ih ⊢
    by_cases hx : x < a
    · simp only [List.takeWhile_cons, hx, decide_True, if_true, List.length_cons]
      cases i with
      | zero => simp [hx]
      | succ k =>
        simp only [List.getElem_cons_succ]
        rw [← ih hs.2 k (by simpa using hi)]
        omega
    · simp only [List.takeWhile_cons, hx, decide_False, List.length_nil]
      cases i with
      | zero => simp [hx]
      | succ k =>
        have hk : k < xs.length := by simpa using hi
        have := hs.1 xs[k] (List.getElem_mem hk)
        simp only [List.getElem_cons_succ, Bool.false_eq_true, if_false, List.length_nil,
          Nat.not_lt_zero, false_iff]
        exact fun hlt => hx (lt_trans this hlt)

theorem gridRank_le_length (grid : List τ) (a : τ) : gridRank grid a ≤ grid.length := by
  unfold gridRank
  exact (List.takeWhile_sublist _).length_le

theorem residualRun_eq_gridPointsOfInterval (t : Transcription τ) (h : GridInvariant t) (m : Nat)
    (hm : m + 1 < t.numMeshPoints) : residualRun t m = gridPointsOfInterval t m := by
  rw [h.numMeshPoints_eq] at hm
  obtain ⟨a, ha⟩ : ∃ a, t.mesh[m]? = some a := ⟨_, List.getElem?_eq_getElem (by omega)⟩
  obtain ⟨b, hb⟩ : ∃ b, t.mesh[m + 1]? = some b := ⟨_, List.getElem?_eq_getElem hm⟩
  unfold residualRun gridPointsOfInterval
  have hpred : ∀ i ∈ List.range t.numGridPoints,
      (match t.grid[i]?, t.mesh[m]?, t.mesh[m + 1]? with
        | some g, some a, some b => decide (¬ g < a ∧ g < b)
        | _, _, _ => false) =
      decide (gridRank t.grid a ≤ i ∧ i < gridRank t.grid b) := by
    intro i hi
    rw [List.mem_range, h.numGridPoints_eq] at hi
    rw [List.getElem?_eq_getElem hi, ha, hb]
    simp only
    have e1 := lt_gridRank_iff t.grid h.sorted a i hi
    have e2 := lt_gridRank_iff t.grid h.sorted b i hi
    rw [decide_eq_decide, ← e1, ← e2, not_lt]
  rw [List.filter_congr hpred, filter_range_interval]
  simp only [meshIndex, ha, hb]
  have := gridRank_le_length t.grid b
  rw [h.numGridPoints_eq, min_eq_left this]

theorem emissionOrder_eq_groupedOrder (t : Transcription τ) (h : GridInvariant t)
    (hint : t.numMeshIntervals = t.numMeshPoints - 1) (c : Constraints α) :
    emissionOrder t c = groupedOrder t (gridPointsOfInterval t) c := by
  unfold emissionOrder groupedOrder
  congr 2
  apply List.map_congr_left
  intro m hm
  rw [List.mem_range] at hm
  unfold meshBlock
  by_cases hlt : m + 1 < t.numMeshPoints
  · rw [if_pos hlt, if_pos (by omega), residualRun_eq_gridPointsOfInterval t h m hlt]
  · rw [if_neg hlt, if_neg (by omega)]

end

section

variable {τ : Type} [LinearOrder τ] {α : Type}

theorem gridRank_eq_of_getElem (grid : List τ) (hs : grid.Sorted (· < ·)) (b : τ) (g : Nat)
    (hg : grid[g]? = some b) : gridRank grid b = g := by
  obtain ⟨hlen, rfl⟩ := List.getElem?_eq_some_iff.1 hg
  have h1 : ¬ g < gridRank grid grid[g] := by
    rw [lt_gridRank_iff grid hs _ g hlen]
    exact lt_irrefl _
  by_contra hne
  have hlt : gridRank grid grid[g] < g := by omega
  have h2 : grid[gridRank grid grid[g]] < grid[g] :=
    (List.pairwise_iff_getElem.1 hs) _ _ (by omega) hlen hlt
  have h3 := (lt_gridRank_iff grid hs grid[g] _ (by omega)).2 h2
  omega

theorem GridInvariant.meshIndex_lt_succ {t : Transcription τ} (h : GridInvariant t) (m : Nat)
    (hm : m + 1 < t.mesh.length) : meshIndex t m < meshIndex t (m + 1) := by
  obtain ⟨a, ha⟩ : ∃ a, t.mesh[m]? = some a := ⟨_, List.getElem?_eq_getElem (by omega)⟩
  obtain ⟨b, hb⟩ : ∃ b, t.mesh[m + 1]? = some b := ⟨_, List.getElem?_eq_getElem hm⟩
  have hlt : a < b := by
    obtain ⟨h1, rfl⟩ := List.getElem?_eq_some_iff.1 ha
    obtain ⟨h2, rfl⟩ := List.getElem?_eq_some_iff.1 hb
    exact (List.pairwise_iff_getElem.1 h.mesh_sorted) m (m + 1) h1 h2 (by omega)
  have hmem : a ∈ t.grid := by
    obtain ⟨h1, rfl⟩ := List.getElem?_eq_some_iff.1 ha
    exact h.sublist.subset (List.getElem_mem h1)
  obtain ⟨i, hi, hia⟩ := List.getElem_of_mem hmem
  have hr : gridRank t.grid a = i :=
    gridRank_eq_of_getElem t.grid h.sorted a i (by rw [List.getElem?_eq_getElem hi, hia])
  simp only [meshIndex, ha, hb, hr]
  rw [lt_gridRank_iff t.grid h.sorted b i hi, hia]
  exact hlt

theorem pieces_emissionOrder (t : Transcription τ) (hint : t.numMeshIntervals = t.numMeshPoints - 1)
    (c : Constraints (Mat T)) :
    pieces (emissionOrder t c) =
      ((List.range t.numMeshPoints).map (fun m =>
        c.kinematic.colData m ++ (c.path.map (fun p => p.colData m)).flatten ++
          (if m + 1 < t.numMeshPoints then
            ((List.range' (meshIndex t m) (meshIndex t (m + 1) - meshIndex t m)).map
              c.residuals.colData).flatten ++ c.defects.colData m
           else []))).flatten ++ c.residuals.colData (t.numGridPoints - 1) := by
  unfold pieces emissionOrder
  simp only [List.map_append, List.flatten_append, List.map_cons, List.map_nil, List.flatten_cons,
    List.flatten_nil, List.append_nil, List.map_flatten, List.flatten_flatten, List.map_map]
  congr 2
  apply List.map_congr_left
  intro m hm
  rw [List.mem_range] at hm
  simp only [Function.comp, meshBlock, residualRun]
  by_cases hlt : m + 1 < t.numMeshPoints
  · rw [if_pos hlt, if_pos (by omega)]
    simp [List.map_map, Function.comp_def, List.flatten_append]
  · rw [if_neg hlt, if_neg (by omega)]
    simp [List.map_map, Function.comp_def]

end

theorem exampleGrid_consistent : Consistent exampleGrid :=
  ⟨⟨rfl, rfl, by decide, by decide, by decide, rfl, rfl⟩, rfl, rfl, rfl⟩

theorem exampleConstraints_shapes : DeclaredShapes exampleGrid exampleConstraints :=
  ⟨by decide, by decide, by decide, .cons (by decide) .nil⟩

theorem Variables.lookup_eq_some_iff_mem (w : Variables T) (hw : w.Valid) (k : Var) (b : T) :
    w.lookup k = some b ↔ (k, b) ∈ w := by
  constructor
  · exact Variables.mem_of_lookup w k b
  · intro hmem
    induction w with
    | nil => cases hmem
    | cons p w ih =>
      obtain ⟨a, v⟩ := p
      unfold Variables.Valid Variables.keys at hw
      simp only [List.map_cons, List.nodup_cons] at hw
      rcases List.mem_cons.1 hmem with heq | hin
      · simp only [Prod.mk.injEq] at heq
        simp [List.lookup_cons, heq.1, heq.2]
      · have hne : (k == a) = false := by
          simp only [beq_eq_false_iff_ne, ne_eq]
          rintro rfl
          exact hw.1 (List.mem_map_of_mem Prod.fst hin)
        rw [List.lookup_cons, hne]
        exact ih hw.2 hin

theorem Variables.at_eq_of_perm (v w : Variables T) (hv : v.Valid) (hw : w.Valid)
    (hp : w.Perm v) (k : Var) : w.at k = v.at k := by
  rw [at_eq_iff_lookup_eq]
  cases hl : List.lookup k v with
  | some b =>
    rw [Variables.lookup_eq_some_iff_mem w hw]
    exact hp.mem_iff.2 ((Variables.lookup_eq_some_iff_mem v hv k b).1 hl)
  | none =>
    cases hl' : List.lookup k w with
    | none => rfl
    | some b =>
      have := (Variables.lookup_eq_some_iff_mem v hv k b).2
        (hp.mem_iff.1 ((Variables.lookup_eq_some_iff_mem w hw k b).1 hl'))
      rw [hl] at this
      cases this

theorem exampleLayout_shapes (k : Var) :
    (exampleVars.at k).map Mat.shape = (exampleLayout.at k).map Mat.shape := by
  by_cases h1 : k = 1
  · subst h1; rfl
  · by_cases h3 : k = 3
    · subst h3; rfl
    · have e1 : (k == 1) = false := by simpa using h1
      have e3 : (k == 3) = false := by simpa using h3
      simp [Variables.at, exampleVars, exampleLayout, List.lookup, e1, e3, Except.map]

theorem expandVariables_flattenVariables_witness :
    ∃ out, (flattenVariables exampleVars >>= expandVariables exampleLayout) = .ok out ∧
      out.Valid ∧ ∀ k, out.at k = exampleVars.at k :=
  expandVariables_flattenVariables exampleLayout exampleVars (by decide) (by decide)
    exampleLayout_shapes (by decide)

/-- C4: the flattened variables are the concatenation, over the kinds of the map in strictly
increasing order of their tags, of the column-major vectorisations of their matrices; a map
with the same entries in another order flattens to the same vector. -/
theorem flattenVariables_sorted_concat (v w : Variables (Mat T)) (hv : v.Valid) (hw : w.Valid)
    (hdense : ∀ kv ∈ v, kv.2.Dense) (hperm : w.Perm v) :
    ∃ ks : List Var, ks.Sorted (· < ·) ∧ (∀ k, k ∈ ks ↔ k ∈ v.keys) ∧
      flattenVariables v = .ok (Mat.column (((v.valuesOf ks).map Mat.vec).flatten)) ∧
      flattenVariables w = flattenVariables v := by
  refine ⟨getSortedVarKeys v, (getSortedVarKeys_sorted v).lt_of_le (getSortedVarKeys_nodup v hv),
    mem_getSortedVarKeys v, ?_, ?_⟩
  · rw [flattenVariables_eq, veccat_of_dense]
    intro m hm
    unfold Variables.valuesOf at hm
    rw [List.mem_filterMap] at hm
    obtain ⟨k, -, hk⟩ := hm
    exact hdense (k, m) (Variables.mem_of_lookup _ _ _ hk)
  · have hl : ∀ k, w.lookup k = v.lookup k :=
      fun k => (at_eq_iff_lookup_eq w v k).1 (Variables.at_eq_of_perm v w hv hw hperm k)
    have hmem : ∀ k, k ∈ w.keys ↔ k ∈ v.keys := by
      intro k
      rw [← Variables.lookup_isSome_iff, ← Variables.lookup_isSome_iff, hl]
    rw [flattenVariables_eq, flattenVariables_eq, sortedKeys_eq_of_mem_iff w v hw hv hmem,
      Variables.valuesOf_congr w v _ hl]

theorem flattenVariables_sorted_concat_witness :
    ∃ ks : List Var, ks.Sorted (· < ·) ∧ (∀ k, k ∈ ks ↔ k ∈ exampleVars.keys) ∧
      flattenVariables exampleVars =
        .ok (Mat.column (((exampleVars.valuesOf ks).map Mat.vec).flatten)) ∧
      flattenVariables exampleVarsReordered = flattenVariables exampleVars :=
  flattenVariables_sorted_concat exampleVars exampleVarsReordered (by decide) (by decide)
    (by decide) (by decide)

theorem flattenVariables_expandVariables_witness :
    (expandVariables exampleLayout (Mat.column [1, 2, 3, 4, 5, 6]) >>= flattenVariables) =
      .ok (Mat.column [1, 2, 3, 4, 5, 6]) :=
  flattenVariables_expandVariables exampleLayout [1, 2, 3, 4, 5, 6] (by decide) (by decide)

section

variable {τ : Type} [LinearOrder τ]

/-- C6: the flat vector of `flattenConstraints` is grouped by mesh point. For the mesh points
in increasing order it holds the kinematic column, the column of each path block in list
order and, unless the mesh point is the last one, a run of consecutive residual columns and
the defect column; at the end it holds the residual column of the last grid point. The runs
start at grid point 0, follow one another and end before the last grid point. A block without
rows is not copied. -/
theorem flattenConstraints_grouped_by_mesh_point [Zero T] (t : Transcription τ)
    (h : Consistent t) (c : Constraints (Mat T)) (hc : DeclaredShapes t c) :
    ∃ pos : Nat → Nat, pos 0 = 0 ∧ pos (t.numMeshPoints - 1) = t.numGridPoints - 1 ∧
      (∀ m, m + 1 < t.numMeshPoints → pos m < pos (m + 1)) ∧
      flattenConstraints t c = .ok (Mat.column
        (((List.range t.numMeshPoints).map (fun m =>
          c.kinematic.colData m ++ (c.path.map (fun p => p.colData m)).flatten ++
            (if m + 1 < t.numMeshPoints then
              ((List.range' (pos m) (pos (m + 1) - pos m)).map c.residuals.colData).flatten ++
                c.defects.colData m
             else []))).flatten ++ c.residuals.colData (t.numGridPoints - 1))) ∧
      ∀ (m : Mat T) (j : Nat) (s : FlattenState T), m.rows = 0 →
        flattenCopyColumn m j s = .ok s := by
  have hs := hc.shapesSig
  refine ⟨meshIndex t, h.grid.meshIndex_zero, ?_, ?_, ?_, ?_⟩
  · rw [h.grid.numMeshPoints_eq, h.grid.numGridPoints_eq]
    exact h.grid.meshIndex_last
  · intro m hm
    exact h.grid.meshIndex_lt_succ m (by rw [← h.grid.numMeshPoints_eq]; exact hm)
  · rw [flattenConstraints_eq t h.grid h.intervals c (hs.columnsOK h.grid h.intervals)
      (by rw [hs.pieces_length h.grid h.intervals, h.total]),
      pieces_emissionOrder t h.intervals c]
  · intro m j s hr
    simp [flattenCopyColumn, hr, pure, Except.pure]

/-- C7, as amended: the residual columns copied for a mesh point `m` that is not the last one
are those of the grid points from mesh point `m` on and before mesh point `m + 1`, and the
defect column of interval `m` follows them. This is the order of the `copyColumn` calls and
the order of the entries of the flat vector. -/
theorem flattenConstraints_residuals_of_interval [Zero T] (t : Transcription τ)
    (h : Consistent t) (c : Constraints (Mat T)) (hc : DeclaredShapes t c) :
    emission t c = .ok (groupedOrder t (gridPointsOfInterval t) c) ∧
      flattenConstraints t c =
        .ok (Mat.column (pieces (groupedOrder t (gridPointsOfInterval t) c))) := by
  have hs := hc.shapesSig
  constructor
  · rw [emission_eq t h.grid h.intervals, emissionOrder_eq_groupedOrder t h.grid h.intervals]
  · rw [flattenConstraints_eq t h.grid h.intervals c (hs.columnsOK h.grid h.intervals)
      (by rw [hs.pieces_length h.grid h.intervals, h.total]),
      emissionOrder_eq_groupedOrder t h.grid h.intervals]

end

theorem exampleTrapezoidal_consistent : Consistent exampleTrapezoidal :=
  ⟨⟨rfl, rfl, by decide, by decide, by decide, rfl, rfl⟩, rfl, rfl, rfl⟩

theorem exampleTrapezoidalConstraints_shapes :
    DeclaredShapes exampleTrapezoidal exampleTrapezoidalConstraints :=
  ⟨by decide, by decide, by decide, .nil⟩

theorem flattenConstraints_expandConstraints_witness :
    Consistent exampleGrid ∧
      (expandConstraints exampleGrid (Mat.column (List.range 18)) >>=
        flattenConstraints exampleGrid) = .ok (Mat.column (List.range 18)) :=
  ⟨exampleGrid_consistent,
    flattenConstraints_expandConstraints exampleGrid exampleGrid_consistent (List.range 18)
      (by decide)⟩

theorem expandConstraints_flattenConstraints_witness :
    Consistent exampleGrid ∧ DeclaredShapes exampleGrid exampleConstraints ∧
      (flattenConstraints exampleGrid exampleConstraints >>= expandConstraints exampleGrid) =
        .ok exampleConstraints :=
  ⟨exampleGrid_consistent, exampleConstraints_shapes,
    expandConstraints_flattenConstraints exampleGrid exampleGrid_consistent exampleConstraints
      exampleConstraints_shapes⟩

theorem flattenConstraints_grouped_by_mesh_point_witness :
    ∃ pos : Nat → Nat, pos 0 = 0 ∧
      pos (exampleGrid.numMeshPoints - 1) = exampleGrid.numGridPoints - 1 ∧
      (∀ m, m + 1 < exampleGrid.numMeshPoints → pos m < pos (m + 1)) ∧
      flattenConstraints exampleGrid exampleConstraints = .ok (Mat.column
        (((List.range exampleGrid.numMeshPoints).map (fun m =>
          exampleConstraints.kinematic.colData m ++
            (exampleConstraints.path.map (fun p => p.colData m)).flatten ++
            (if m + 1 < exampleGrid.numMeshPoints then
              ((List.range' (pos m) (pos (m + 1) - pos m)).map
                exampleConstraints.residuals.colData).flatten ++
                exampleConstraints.defects.colData m
             else []))).flatten ++
          exampleConstraints.residuals.colData (exampleGrid.numGridPoints - 1))) ∧
      ∀ (m : Mat Nat) (j : Nat) (s : FlattenState Nat), m.rows = 0 →
        flattenCopyColumn m j s = .ok s :=
  flattenConstraints_grouped_by_mesh_point exampleGrid exampleGrid_consistent exampleConstraints
    exampleConstraints_shapes

theorem flattenConstraints_residuals_of_interval_witness :
    emission exampleGrid exampleConstraints =
        .ok (groupedOrder exampleGrid (gridPointsOfInterval exampleGrid) exampleConstraints) ∧
      flattenConstraints exampleGrid exampleConstraints =
        .ok (Mat.column (pieces
          (groupedOrder exampleGrid (gridPointsOfInterval exampleGrid) exampleConstraints))) :=
  flattenConstraints_residuals_of_interval exampleGrid exampleGrid_consistent exampleConstraints
    exampleConstraints_shapes

/-- C7, as stated, fails on a trapezoidal grid: no grid point lies strictly between two
consecutive mesh points, and still the residual column of every mesh point but the last is
copied before the defect column of its interval. -/
theorem residuals_strictly_between_counterexample :
    Consistent exampleTrapezoidal ∧
      DeclaredShapes exampleTrapezoidal exampleTrapezoidalConstraints ∧
      emission exampleTrapezoidal exampleTrapezoidalConstraints ≠
        .ok (groupedOrder exampleTrapezoidal (gridPointsStrictlyBetween exampleTrapezoidal)
          exampleTrapezoidalConstraints) ∧
      flattenConstraints exampleTrapezoidal exampleTrapezoidalConstraints =
        .ok (Mat.column [10, 20, 30, 11, 21, 31, 12, 22]) ∧
      pieces (groupedOrder exampleTrapezoidal (gridPointsStrictlyBetween exampleTrapezoidal)
        exampleTrapezoidalConstraints) = [10, 30, 11, 31, 12, 22] :=
  ⟨exampleTrapezoidal_consistent, exampleTrapezoidalConstraints_shapes, by decide, by decide,
    by decide⟩

section

variable {τ : Type} [LT τ] [DecidableRel (fun a b : τ => a < b)]

/-- C9: when the running offset at the end of the traversal differs from `m_numConstraints`,
`flattenConstraints` and `expandConstraints` fail with the internal error; a result that they
return is the one built by a traversal that ended at offset `m_numConstraints`. -/
theorem constraints_offset_checked [Zero T] (t : Transcription τ) (c : Constraints (Mat T))
    (flat : Mat T) :
    (∀ s, flattenConstraintsRun t c = .ok s → s.iflat ≠ t.numConstraints →
      flattenConstraints t c = .error .internalError) ∧
    (∀ s, expandConstraintsRun t flat = .ok s → s.iflat ≠ t.numConstraints →
      expandConstraints t flat = .error .internalError) ∧
    (∀ r, flattenConstraints t c = .ok r →
      ∃ s, flattenConstraintsRun t c = .ok s ∧ s.iflat = t.numConstraints ∧ s.flat = r) ∧
    (∀ out, expandConstraints t flat = .ok out →
      ∃ s, expandConstraintsRun t flat = .ok s ∧ s.iflat = t.numConstraints ∧ s.out = out) := by
  refine ⟨?_, ?_, ?_, ?_⟩
  · intro s hs hne
    unfold flattenConstraints
    rw [hs, ok_bind, if_pos hne]
  · intro s hs hne
    unfold expandConstraints
    rw [hs, ok_bind, if_pos hne]
  · intro r hr
    unfold flattenConstraints at hr
    cases hs : flattenConstraintsRun t c with
    | error e => rw [hs] at hr; cases hr
    | ok s =>
      rw [hs, ok_bind] at hr
      by_cases hne : s.iflat ≠ t.numConstraints
      · rw [if_pos hne] at hr; cases hr
      · rw [if_neg hne] at hr
        exact ⟨s, rfl, not_not.1 hne, by injection hr⟩
  · intro out hr
    unfold expandConstraints at hr
    cases hs : expandConstraintsRun t flat with
    | error e => rw [hs] at hr; cases hr
    | ok s =>
      rw [hs, ok_bind] at hr
      by_cases hne : s.iflat ≠ t.numConstraints
      · rw [if_pos hne] at hr; cases hr
      · rw [if_neg hne] at hr
        exact ⟨s, rfl, not_not.1 hne, by injection hr⟩

end

theorem constraints_offset_checked_witness :
    flattenConstraints exampleOversized exampleConstraints = .error .internalError ∧
      expandConstraints exampleOversized (Mat.column (List.range 20)) = .error .internalError :=
  ⟨(constraints_offset_checked exampleOversized exampleConstraints (Mat.column (List.range 20))).1
      ⟨⟨20, 1, [0, 1, 2, 3, 4, 5, 6, 7, 8, 9, 10, 11, 12, 13, 14, 15, 16, 17, 0, 0]⟩, 18⟩
      (by decide) (by decide),
    (constraints_offset_checked exampleOversized exampleConstraints
      (Mat.column (List.range 20))).2.1 ⟨exampleConstraints, 18⟩ (by decide) (by decide)⟩

/-- C11: when the matrix that `createKinematicConstraintIndicesImpl()` returned does not have
exactly one row and `numGridPoints` columns, `createKinematicConstraintIndices` throws the
exception about the shape; a matrix that it returns is the one that the implementation
returned. -/
theorem createKinematicConstraintIndices_shape {τ : Type} (numEq : ℚ → ℚ → Bool)
    (t : Transcription τ) (m : Mat ℚ) :
    ((m.rows ≠ 1 ∨ m.cols ≠ t.numGridPoints) →
      createKinematicConstraintIndices numEq t m = .error .badShape) ∧
    (∀ out, createKinematicConstraintIndices numEq t m = .ok out →
      out = m ∧ m.rows = 1 ∧ m.cols = t.numGridPoints) := by
  constructor
  · intro h
    unfold createKinematicConstraintIndices
    rw [if_pos h]
  · intro out h
    unfold createKinematicConstraintIndices at h
    by_cases hs : m.rows ≠ 1 ∨ m.cols ≠ t.numGridPoints
    · rw [if_pos hs] at h
      cases h
    · rw [if_neg hs] at h
      have hs' : m.rows = 1 ∧ m.cols = t.numGridPoints := by
        constructor
        · by_contra h1; exact hs (Or.inl h1)
        · by_contra h2; exact hs (Or.inr h2)
      cases hsc : (Mat.sum2 m).scalar with
      | error e => rw [hsc] at h; cases h
      | ok total =>
        rw [hsc] at h
        simp only at h
        by_cases hn : numEq total t.numMeshPoints = true
        · rw [if_pos hn] at h
          injection h with h
          exact ⟨h.symm, hs'⟩
        · rw [if_neg hn] at h
          cases h

theorem createKinematicConstraintIndices_shape_witness :
    createKinematicConstraintIndices (fun a b => decide (a = b)) exampleTrapezoidal
        ⟨2, 3, [1, 0, 1, 0, 1, 0]⟩ = .error .badShape ∧
      createKinematicConstraintIndices (fun a b => decide (a = b)) exampleTrapezoidal
        ⟨1, 2, [1, 1]⟩ = .error .badShape :=
  ⟨(createKinematicConstraintIndices_shape (fun a b => decide (a = b)) exampleTrapezoidal
      ⟨2, 3, [1, 0, 1, 0, 1, 0]⟩).1 (Or.inl (by decide)),
    (createKinematicConstraintIndices_shape (fun a b => decide (a = b)) exampleTrapezoidal
      ⟨1, 2, [1, 1]⟩).1 (Or.inr (by decide))⟩

/-- C12: `createTimes` has one entry per grid point, and the entry of a grid point `g` is
`(finalTime - initialTime) * g + initialTime`; a grid point 0 is mapped to the initial time
and a grid point 1 to the final time. -/
theorem createTimes_affine {τ : Type} [CommRing τ] (t : Transcription τ)
    (initialTime finalTime : τ) :
    (createTimes t initialTime finalTime).length = t.grid.length ∧
    (∀ i : Nat, (createTimes t initialTime finalTime)[i]? =
      (t.grid[i]?).map (fun g => (finalTime - initialTime) * g + initialTime)) ∧
    (∀ i : Nat, t.grid[i]? = some 0 → (createTimes t initialTime finalTime)[i]? = some initialTime) ∧
    (∀ i : Nat, t.grid[i]? = some 1 → (createTimes t initialTime finalTime)[i]? = some finalTime) := by
  have hget : ∀ i : Nat, (createTimes t initialTime finalTime)[i]? =
      (t.grid[i]?).map (fun g => (finalTime - initialTime) * g + initialTime) := by
    intro i
    unfold createTimes
    rw [List.getElem?_map]
  refine ⟨by unfold createTimes; rw [List.length_map], hget, ?_, ?_⟩
  · intro i hi
    rw [hget, hi, Option.map_some']
    congr 1
    ring
  · intro i hi
    rw [hget, hi, Option.map_some']
    congr 1
    ring

theorem createTimes_affine_witness :
    (createTimes exampleTimes 2 5)[0]? = some 2 ∧ (createTimes exampleTimes 2 5)[2]? = some 5 :=
  ⟨(createTimes_affine exampleTimes 2 5).2.2.1 0 rfl,
    (createTimes_affine exampleTimes 2 5).2.2.2 2 rfl⟩

theorem getElem?_foldl_set {T : Type} (v : T) (ps : List Nat) (l : List T) (p : Nat) :
    (ps.foldl (fun data q => data.set q v) l)[p]? =
      if p ∈ ps then (l[p]?).map (fun _ => v) else l[p]? := by
  induction ps generalizing l with
  | nil => simp
  | cons q ps ih =>
    rw [List.foldl_cons, ih, List.getElem?_set]
    by_cases hq : q = p
    · subst hq
      by_cases hl : q < l.length
      · simp [hl, List.getElem?_eq_getElem hl]
      · simp [hl, List.getElem?_eq_none (Nat.le_of_not_lt hl)]
    · have hq' : p ≠ q := fun h => hq h.symm
      simp [hq, hq']

theorem length_foldl_set {T : Type} (v : T) (ps : List Nat) (l : List T) :
    (ps.foldl (fun data q => data.set q v) l).length = l.length := by
  induction ps generalizing l with
  | nil => rfl
  | cons q ps ih => rw [List.foldl_cons, ih, List.length_set]

theorem Index.resolve_lt (n : Nat) (idx : Index) (l : List Nat) (h : idx.resolve n = .ok l) :
    ∀ i ∈ l, i < n := by
  cases idx with
  | int k =>
    simp only [Index.resolve] at h
    by_cases hk : k < n
    · rw [if_pos hk] at h
      injection h with h
      subst h
      intro i hi
      rw [List.mem_singleton] at hi
      omega
    · rw [if_neg hk] at h; cases h
  | slice start stop =>
    simp only [Index.resolve] at h
    by_cases hk : stop ≤ n
    · rw [if_pos hk] at h
      injection h with h
      subst h
      intro i hi
      rw [List.mem_range'_1] at hi
      omega
    · rw [if_neg hk] at h; cases h
  | all =>
    simp only [Index.resolve] at h
    injection h with h
    subst h
    intro i hi
    exact List.mem_range.1 hi

theorem mem_blockPositions (numRows : Nat) (rows cols : List Nat) (i j : Nat)
    (hrows : ∀ k ∈ rows, k < numRows) (hi : i < numRows) :
    j * numRows + i ∈ blockPositions numRows rows cols ↔ i ∈ rows ∧ j ∈ cols := by
  unfold blockPositions
  simp only [List.mem_flatten, List.mem_map]
  constructor
  · rintro ⟨l, ⟨j', hj', rfl⟩, hmem⟩
    rw [List.mem_map] at hmem
    obtain ⟨i', hi', heq⟩ := hmem
    have hi'lt := hrows i' hi'
    have h1 : (j' * numRows + i') % numRows = (j * numRows + i) % numRows := by rw [heq]
    have h2 : (j' * numRows + i') / numRows = (j * numRows + i) / numRows := by rw [heq]
    rw [Nat.mul_add_mod', Nat.mul_add_mod', Nat.mod_eq_of_lt hi'lt, Nat.mod_eq_of_lt hi] at h1
    have hpos : 0 < numRows := by omega
    rw [Nat.add_comm, Nat.add_mul_div_right _ _ hpos, Nat.div_eq_of_lt hi'lt, Nat.add_comm (j * numRows),
      Nat.add_mul_div_right _ _ hpos, Nat.div_eq_of_lt hi] at h2
    simp only [Nat.zero_add] at h2
    subst h1 h2
    exact ⟨hi', hj'⟩
  · rintro ⟨hir, hjc⟩
    exact ⟨_, ⟨j, hjc, rfl⟩, List.mem_map.2 ⟨i, hir, rfl⟩⟩

theorem Mat.setBlock_spec {T : Type} (m m' : Mat T) (rr cc : Index) (v : T) (hd : m.Dense)
    (h : m.setBlock rr cc v = .ok m') :
    ∃ rows cols, rr.resolve m.rows = .ok rows ∧ cc.resolve m.cols = .ok cols ∧
      m'.rows = m.rows ∧ m'.cols = m.cols ∧ m'.Dense ∧
      ∀ i j, m'.entry i j = if i ∈ rows ∧ j ∈ cols then some v else m.entry i j := by
  unfold Mat.setBlock at h
  cases hr : rr.resolve m.rows with
  | error e => rw [hr] at h; cases h
  | ok rows =>
    cases hc : cc.resolve m.cols with
    | error e => rw [hr, hc] at h; cases h
    | ok cols =>
      rw [hr, hc] at h
      simp only [ok_bind, pure, Except.pure] at h
      injection h with h
      subst h
      have hrl := Index.resolve_lt _ _ _ hr
      have hcl := Index.resolve_lt _ _ _ hc
      refine ⟨rows, cols, rfl, rfl, rfl, rfl, ?_, ?_⟩
      · unfold Mat.Dense at hd ⊢
        simp only
        rw [length_foldl_set, hd]
      · intro i j
        unfold Mat.entry
        simp only
        by_cases hij : i < m.rows ∧ j < m.cols
        · rw [if_pos hij, if_pos hij, getElem?_foldl_set]
          have hmem := mem_blockPositions m.rows rows cols i j hrl hij.1
          have hlt : j * m.rows + i < m.data.length := by
            rw [hd]
            calc j * m.rows + i < j * m.rows + m.rows := by omega
              _ = m.rows * (j + 1) := by ring
              _ ≤ m.rows * m.cols := Nat.mul_le_mul_left _ hij.2
          by_cases hsel : i ∈ rows ∧ j ∈ cols
          · rw [if_pos hsel, if_pos (hmem.2 hsel), List.getElem?_eq_getElem hlt]
            rfl
          · rw [if_neg hsel, if_neg (fun hp => hsel (hmem.1 hp))]
        · rw [if_neg hij, if_neg hij]
          have hsel : ¬ (i ∈ rows ∧ j ∈ cols) := fun hs => hij ⟨hrl i hs.1, hcl j hs.2⟩
          rw [if_neg hsel]

theorem Variables.subscript_dense {T : Type} (vars : Variables (Mat T)) (key : Var)
    (h : ∀ kv ∈ vars, kv.2.Dense) : (vars.subscript key).Dense := by
  unfold Variables.subscript
  cases hl : List.lookup key vars with
  | none => rfl
  | some m => exact h (key, m) (Variables.mem_of_lookup vars key m hl)

theorem Variables.at_assign_self {T : Type} (vars : Variables T) (key : Var) (value : T) :
    (vars.assign key value).at key = .ok value := by
  unfold Variables.at
  rw [Variables.lookup_assign, if_pos rfl]

/-- C13: after a `setVariableBounds` that returns, the lower and the upper bound matrix of the
kind hold, in every entry of the selected sub-block, the lower and the upper bound of a set
`Bounds` value, and minus infinity and plus infinity for an unset one. -/
theorem setVariableBounds_block (s s' : BoundsState) (var : Var) (rowIndices columnIndices : Index)
    (bounds : Bounds) (hl : ∀ kv ∈ s.lowerBounds, kv.2.Dense)
    (hu : ∀ kv ∈ s.upperBounds, kv.2.Dense)
    (h : setVariableBounds s var rowIndices columnIndices bounds = .ok s') :
    ∃ lower upper, s'.lowerBounds.at var = .ok lower ∧ s'.upperBounds.at var = .ok upper ∧
      (∃ rows cols, rowIndices.resolve lower.rows = .ok rows ∧
        columnIndices.resolve lower.cols = .ok cols ∧
        ∀ i ∈ rows, ∀ j ∈ cols, lower.entry i j =
          some (if bounds.isSet then bounds.lower else .negInfinity)) ∧
      (∃ rows cols, rowIndices.resolve upper.rows = .ok rows ∧
        columnIndices.resolve upper.cols = .ok cols ∧
        ∀ i ∈ rows, ∀ j ∈ cols, upper.entry i j =
          some (if bounds.isSet then bounds.upper else .infinity)) := by
  have key : ∀ vl vu : Extended,
      (do
        let lower ← (s.lowerBounds.subscript var).setBlock rowIndices columnIndices vl
        let upper ← (s.upperBounds.subscript var).setBlock rowIndices columnIndices vu
        (pure ⟨s.lowerBounds.assign var lower, s.upperBounds.assign var upper⟩ :
          Except Error BoundsState)) = .ok s' →
      ∃ lower upper, s'.lowerBounds.at var = .ok lower ∧ s'.upperBounds.at var = .ok upper ∧
        (∃ rows cols, rowIndices.resolve lower.rows = .ok rows ∧
          columnIndices.resolve lower.cols = .ok cols ∧
          ∀ i ∈ rows, ∀ j ∈ cols, lower.entry i j = some vl) ∧
        (∃ rows cols, rowIndices.resolve upper.rows = .ok rows ∧
          columnIndices.resolve upper.cols = .ok cols ∧
          ∀ i ∈ rows, ∀ j ∈ cols, upper.entry i j = some vu) := by
    intro vl vu hk
    cases hlo : (s.lowerBounds.subscript var).setBlock rowIndices columnIndices vl with
    | error e => rw [hlo] at hk; cases hk
    | ok lower =>
      cases hup : (s.upperBounds.subscript var).setBlock rowIndices columnIndices vu with
      | error e => rw [hlo, hup] at hk; cases hk
      | ok upper =>
        rw [hlo, hup] at hk
        simp only [ok_bind, pure, Except.pure] at hk
        injection hk with hk
        subst hk
        obtain ⟨r1, c1, hr1, hc1, hrows1, hcols1, -, he1⟩ :=
          Mat.setBlock_spec _ _ _ _ _ (Variables.subscript_dense _ var hl) hlo
        obtain ⟨r2, c2, hr2, hc2, hrows2, hcols2, -, he2⟩ :=
          Mat.setBlock_spec _ _ _ _ _ (Variables.subscript_dense _ var hu) hup
        refine ⟨lower, upper, Variables.at_assign_self _ _ _, Variables.at_assign_self _ _ _,
          ⟨r1, c1, by rw [hrows1]; exact hr1, by rw [hcols1]; exact hc1, ?_⟩,
          ⟨r2, c2, by rw [hrows2]; exact hr2, by rw [hcols2]; exact hc2, ?_⟩⟩
        · intro i hi j hj
          rw [he1, if_pos ⟨hi, hj⟩]
        · intro i hi j hj
          rw [he2, if_pos ⟨hi, hj⟩]
  unfold setVariableBounds at h
  cases hset : bounds.isSet with
  | true =>
    rw [hset] at h
    simpa using key bounds.lower bounds.upper h
  | false =>
    rw [hset] at h
    simpa using key (-Extended.infinity) Extended.infinity h

theorem setVariableBounds_block_witness :
    ∃ lower upper,
      (⟨[(2, ⟨2, 3, [.finite 0, .negInfinity, .finite 0, .finite 0, .finite 0, .finite 0]⟩),
          (7, ⟨1, 1, [.finite 1]⟩)],
        [(2, ⟨2, 3, [.finite 9, .infinity, .finite 9, .finite 9, .finite 9, .finite 9]⟩),
          (7, ⟨1, 1, [.finite 1]⟩)]⟩ : BoundsState).lowerBounds.at 2 = .ok lower ∧
      (⟨[(2, ⟨2, 3, [.finite 0, .negInfinity, .finite 0, .finite 0, .finite 0, .finite 0]⟩),
          (7, ⟨1, 1, [.finite 1]⟩)],
        [(2, ⟨2, 3, [.finite 9, .infinity, .finite 9, .finite 9, .finite 9, .finite 9]⟩),
          (7, ⟨1, 1, [.finite 1]⟩)]⟩ : BoundsState).upperBounds.at 2 = .ok upper ∧
      (∃ rows cols, (Index.int 1).resolve lower.rows = .ok rows ∧
        (Index.int 0).resolve lower.cols = .ok cols ∧
        ∀ i ∈ rows, ∀ j ∈ cols, lower.entry i j =
          some (if (⟨.finite 2, .finite 4, false⟩ : Bounds).isSet then .finite 2
            else .negInfinity)) ∧
      (∃ rows cols, (Index.int 1).resolve upper.rows = .ok rows ∧
        (Index.int 0).resolve upper.cols = .ok cols ∧
        ∀ i ∈ rows, ∀ j ∈ cols, upper.entry i j =
          some (if (⟨.finite 2, .finite 4, false⟩ : Bounds).isSet then .finite 4
            else .infinity)) :=
  setVariableBounds_block exampleBounds _ 2 (.int 1) (.int 0) ⟨.finite 2, .finite 4, false⟩
    (by decide) (by decide) rfl

/-- C27: a `setVariableBounds` that returns changes nothing outside its target. Every entry of
the lower and of the upper bound matrix of the kind that is outside the selected rows and
columns is what it was, the two matrices keep their shapes, and the bound matrices of every
other kind are what they were. -/
theorem setVariableBounds_frame (s s' : BoundsState) (var : Var)
    (rowIndices columnIndices : Index) (bounds : Bounds)
    (hl : ∀ kv ∈ s.lowerBounds, kv.2.Dense) (hu : ∀ kv ∈ s.upperBounds, kv.2.Dense)
    (h : setVariableBounds s var rowIndices columnIndices bounds = .ok s') :
    (∃ rows cols, rowIndices.resolve (s.lowerBounds.subscript var).rows = .ok rows ∧
      columnIndices.resolve (s.lowerBounds.subscript var).cols = .ok cols ∧
      (s'.lowerBounds.subscript var).shape = (s.lowerBounds.subscript var).shape ∧
      ∀ i j, ¬ (i ∈ rows ∧ j ∈ cols) →
        (s'.lowerBounds.subscript var).entry i j = (s.lowerBounds.subscript var).entry i j) ∧
    (∃ rows cols, rowIndices.resolve (s.upperBounds.subscript var).rows = .ok rows ∧
      columnIndices.resolve (s.upperBounds.subscript var).cols = .ok cols ∧
      (s'.upperBounds.subscript var).shape = (s.upperBounds.subscript var).shape ∧
      ∀ i j, ¬ (i ∈ rows ∧ j ∈ cols) →
        (s'.upperBounds.subscript var).entry i j = (s.upperBounds.subscript var).entry i j) ∧
    ∀ other, other ≠ var →
      s'.lowerBounds.lookup other = s.lowerBounds.lookup other ∧
      s'.upperBounds.lookup other = s.upperBounds.lookup other := by
  have hsub : ∀ (vars : Variables (Mat Extended)) (m : Mat Extended),
      (vars.assign var m).subscript var = m := by
    intro vars m
    unfold Variables.subscript
    rw [Variables.lookup_assign, if_pos rfl]
  have key : ∀ vl vu : Extended,
      (do
        let lower ← (s.lowerBounds.subscript var).setBlock rowIndices columnIndices vl
        let upper ← (s.upperBounds.subscript var).setBlock rowIndices columnIndices vu
        (pure ⟨s.lowerBounds.assign var lower, s.upperBounds.assign var upper⟩ :
          Except Error BoundsState)) = .ok s' →
      (∃ rows cols, rowIndices.resolve (s.lowerBounds.subscript var).rows = .ok rows ∧
        columnIndices.resolve (s.lowerBounds.subscript var).cols = .ok cols ∧
        (s'.lowerBounds.subscript var).shape = (s.lowerBounds.subscript var).shape ∧
        ∀ i j, ¬ (i ∈ rows ∧ j ∈ cols) →
          (s'.lowerBounds.subscript var).entry i j = (s.lowerBounds.subscript var).entry i j) ∧
      (∃ rows cols, rowIndices.resolve (s.upperBounds.subscript var).rows = .ok rows ∧
        columnIndices.resolve (s.upperBounds.subscript var).cols = .ok cols ∧
        (s'.upperBounds.subscript var).shape = (s.upperBounds.subscript var).shape ∧
        ∀ i j, ¬ (i ∈ rows ∧ j ∈ cols) →
          (s'.upperBounds.subscript var).entry i j = (s.upperBounds.subscript var).entry i j) ∧
      ∀ other, other ≠ var →
        s'.lowerBounds.lookup other = s.lowerBounds.lookup other ∧
        s'.upperBounds.lookup other = s.upperBounds.lookup other := by
    intro vl vu hk
    cases hlo : (s.lowerBounds.subscript var).setBlock rowIndices columnIndices vl with
    | error e => rw [hlo] at hk; cases hk
    | ok lower =>
      cases hup : (s.upperBounds.subscript var).setBlock rowIndices columnIndices vu with
      | error e => rw [hlo, hup] at hk; cases hk
      | ok upper =>
        rw [hlo, hup] at hk
        simp only [ok_bind, pure, Except.pure] at hk
        injection hk with hk
        subst hk
        obtain ⟨r1, c1, hr1, hc1, hrows1, hcols1, -, he1⟩ :=
          Mat.setBlock_spec _ _ _ _ _ (Variables.subscript_dense _ var hl) hlo
        obtain ⟨r2, c2, hr2, hc2, hrows2, hcols2, -, he2⟩ :=
          Mat.setBlock_spec _ _ _ _ _ (Variables.subscript_dense _ var hu) hup
        refine ⟨⟨r1, c1, hr1, hc1, ?_, ?_⟩, ⟨r2, c2, hr2, hc2, ?_, ?_⟩, ?_⟩
        · simp only [hsub, Mat.shape, hrows1, hcols1]
        · intro i j hij
          simp only [hsub]
          rw [he1, if_neg hij]
        · simp only [hsub, Mat.shape, hrows2, hcols2]
        · intro i j hij
          simp only [hsub]
          rw [he2, if_neg hij]
        · intro other hne
          exact ⟨by rw [Variables.lookup_assign, if_neg hne],
            by rw [Variables.lookup_assign, if_neg hne]⟩
  unfold setVariableBounds at h
  cases hset : bounds.isSet with
  | true =>
    rw [hset] at h
    exact key bounds.lower bounds.upper (by simpa using h)
  | false =>
    rw [hset] at h
    exact key (-Extended.infinity) Extended.infinity (by simpa using h)

theorem setVariableBounds_frame_witness :
    setVariableBounds exampleBounds 2 (.int 1) (.slice 0 2) ⟨.finite 2, .finite 4, true⟩ =
        .ok ⟨[(2, ⟨2, 3, [.finite 0, .finite 2, .finite 0, .finite 2, .finite 0, .finite 0]⟩),
            (7, ⟨1, 1, [.finite 1]⟩)],
          [(2, ⟨2, 3, [.finite 9, .finite 4, .finite 9, .finite 4, .finite 9, .finite 9]⟩),
            (7, ⟨1, 1, [.finite 1]⟩)]⟩ ∧
      ∀ other, other ≠ 2 →
        (⟨[(2, ⟨2, 3, [.finite 0, .finite 2, .finite 0, .finite 2, .finite 0, .finite 0]⟩),
            (7, ⟨1, 1, [.finite 1]⟩)],
          [(2, ⟨2, 3, [.finite 9, .finite 4, .finite 9, .finite 4, .finite 9, .finite 9]⟩),
            (7, ⟨1, 1, [.finite 1]⟩)]⟩ : BoundsState).lowerBounds.lookup other =
          exampleBounds.lowerBounds.lookup other ∧
        (⟨[(2, ⟨2, 3, [.finite 0, .finite 2, .finite 0, .finite 2, .finite 0, .finite 0]⟩),
            (7, ⟨1, 1, [.finite 1]⟩)],
          [(2, ⟨2, 3, [.finite 9, .finite 4, .finite 9, .finite 4, .finite 9, .finite 9]⟩),
            (7, ⟨1, 1, [.finite 1]⟩)]⟩ : BoundsState).upperBounds.lookup other =
          exampleBounds.upperBounds.lookup other :=
  ⟨rfl, (setVariableBounds_frame exampleBounds _ 2 (.int 1) (.slice 0 2)
    ⟨.finite 2, .finite 4, true⟩ (by decide) (by decide) rfl).2.2⟩

theorem collectEntries_getElem? {T : Type} (l : List (Option T)) (r : List T)
    (h : collectEntries l = some r) (p : Nat) (hp : p < l.length) :
    ∃ v, l[p]? = some (some v) ∧ r[p]? = some v := by
  induction l generalizing r p with
  | nil => simp at hp
  | cons a l ih =>
    cases a with
    | none => simp [collectEntries] at h
    | some v =>
      simp only [collectEntries] at h
      cases hc : collectEntries l with
      | none => rw [hc] at h; cases h
      | some vs =>
        rw [hc] at h
        simp only [Option.some.injEq] at h
        subst h
        cases p with
        | zero => exact ⟨v, by simp, by simp⟩
        | succ p =>
          obtain ⟨w, h1, h2⟩ := ih vs hc p (by simpa using hp)
          exact ⟨w, by simpa using h1, by simpa using h2⟩

/-- C23: every entry of the matrix of the trapezoidal defects is
`x[k+1] - x[k] - 0.5*h*(xdot[k] + xdot[k+1])` for its state row and its mesh interval of width
`h`. With one state, one interval of width `h` and the constant derivative `c` the defect is
`x1 - x0 - h*c`, which is zero exactly when `x1 = x0 + h*c`. -/
theorem trapezoidal_defect {τ : Type} [Field τ] [CharZero τ] :
    (∀ (n : Nat) (times : List τ) (x xdot defects : Mat τ),
      Trapezoidal.calcDefectsImpl n times x xdot = some defects →
      ∀ i k, i < x.rows → k < n →
        ∃ t0 t1 x0 x1 xdot0 xdot1, times[k]? = some t0 ∧ times[k + 1]? = some t1 ∧
          x.entry i k = some x0 ∧ x.entry i (k + 1) = some x1 ∧
          xdot.entry i k = some xdot0 ∧ xdot.entry i (k + 1) = some xdot1 ∧
          defects.entry i k = some (x1 - x0 - 1 / 2 * (t1 - t0) * (xdot0 + xdot1))) ∧
    (∀ t0 h x0 x1 c : τ,
      Trapezoidal.calcDefectsImpl 1 [t0, t0 + h] ⟨1, 2, [x0, x1]⟩ ⟨1, 2, [c, c]⟩ =
          some ⟨1, 1, [x1 - x0 - h * c]⟩ ∧
        (x1 - x0 - h * c = 0 ↔ x1 = x0 + h * c)) := by
  constructor
  · intro n times x xdot defects hd i k hi hk
    unfold Trapezoidal.calcDefectsImpl at hd
    cases hc : collectEntries ((List.range (x.rows * n)).map
        (fun p => Trapezoidal.defect times x xdot (p % x.rows) (p / x.rows))) with
    | none => rw [hc] at hd; cases hd
    | some data =>
      rw [hc] at hd
      simp only [Option.some.injEq] at hd
      subst hd
      have hp : k * x.rows + i < x.rows * n := by
        calc k * x.rows + i < k * x.rows + x.rows := by omega
          _ = x.rows * (k + 1) := by ring
          _ ≤ x.rows * n := Nat.mul_le_mul_left _ hk
      obtain ⟨v, h1, h2⟩ := collectEntries_getElem? _ data hc (k * x.rows + i)
        (by simpa using hp)
      rw [List.getElem?_map, List.getElem?_range hp] at h1
      simp only [Option.map_some'] at h1
      have hmod : (k * x.rows + i) % x.rows = i := by
        rw [Nat.mul_add_mod', Nat.mod_eq_of_lt hi]
      have hdiv : (k * x.rows + i) / x.rows = k := by
        rw [Nat.add_comm, Nat.add_mul_div_right _ _ (by omega : 0 < x.rows),
          Nat.div_eq_of_lt hi, Nat.zero_add]
      rw [hmod, hdiv] at h1
      have hentry : (⟨x.rows, n, data⟩ : Mat τ).entry i k = some v := by
        unfold Mat.entry
        simp only
        rw [if_pos ⟨hi, hk⟩, h2]
      rw [hentry]
      simp only [Option.some.injEq] at h1
      unfold Trapezoidal.defect at h1
      cases ht0 : times[k]? with
      | none => simp [ht0] at h1
      | some t0 =>
        cases ht1 : times[k + 1]? with
        | none => simp [ht0, ht1] at h1
        | some t1 =>
          cases hx0 : x.entry i k with
          | none => simp [ht0, ht1, hx0] at h1
          | some x0 =>
            cases hx1 : x.entry i (k + 1) with
            | none => simp [ht0, ht1, hx0, hx1] at h1
            | some x1 =>
              cases hd0 : xdot.entry i k with
              | none => simp [ht0, ht1, hx0, hx1, hd0] at h1
              | some xdot0 =>
                cases hd1 : xdot.entry i (k + 1) with
                | none => simp [ht0, ht1, hx0, hx1, hd0, hd1] at h1
                | some xdot1 =>
                  simp only [ht0, ht1, hx0, hx1, hd0, hd1, Option.bind_eq_bind,
                    Option.some_bind, pure, Option.some.injEq] at h1
                  exact ⟨t0, t1, x0, x1, xdot0, xdot1, rfl, rfl, rfl, rfl, rfl, rfl, by rw [h1]⟩
  · intro t0 h x0 x1 c
    constructor
    · have hval : x1 - x0 - 1 / 2 * (t0 + h - t0) * (c + c) = x1 - x0 - h * c := by
        ring
      simp [Trapezoidal.calcDefectsImpl, Trapezoidal.defect, Mat.entry, collectEntries,
        List.range_succ]
      linear_combination hval
    · constructor
      · intro hz
        linear_combination hz
      · intro hz
        rw [hz]
        ring

theorem trapezoidal_defect_witness :
    Trapezoidal.calcDefectsImpl 1 [(0 : ℚ), 0 + 1 / 2] ⟨1, 2, [3, 4]⟩ ⟨1, 2, [2, 2]⟩ =
        some ⟨1, 1, [4 - 3 - 1 / 2 * 2]⟩ ∧
      ((4 : ℚ) - 3 - 1 / 2 * 2 = 0 ↔ (4 : ℚ) = 3 + 1 / 2 * 2) :=
  (@trapezoidal_defect ℚ _ _).2 0 (1 / 2) 3 4 2

section

variable {τ : Type} [LinearOrder τ]

theorem meshIndex_of_grid_eq_mesh (t : Transcription τ) (h : GridInvariant t)
    (htrap : t.grid = t.mesh) (m : Nat) (hm : m < t.mesh.length) : meshIndex t m = m := by
  obtain ⟨b, hb⟩ : ∃ b, t.mesh[m]? = some b := ⟨_, List.getElem?_eq_getElem hm⟩
  simp only [meshIndex, hb]
  exact gridRank_eq_of_getElem t.grid h.sorted b m (by rw [htrap]; exact hb)

end

/-- C24, as stated, fails: on a trapezoidal grid with four mesh points and non-empty kinematic,
path, residual and defect blocks the traversal does not copy the blocks in the order of the
diagram. It copies kinematic_0 before path_0 and it copies defect_2, which the diagram leaves
out, after residual_2. -/
theorem diagram_order_counterexample :
    Consistent exampleTrapezoidalFour ∧
      DeclaredShapes exampleTrapezoidalFour exampleTrapezoidalFourConstraints ∧
      emission exampleTrapezoidalFour exampleTrapezoidalFourConstraints ≠
        .ok (trapezoidalDiagramOrder exampleTrapezoidalFourConstraints) ∧
      flattenConstraints exampleTrapezoidalFour exampleTrapezoidalFourConstraints =
        .ok (Mat.column [10, 20, 30, 40, 11, 21, 31, 41, 12, 22, 32, 42, 13, 23, 33]) ∧
      pieces (trapezoidalDiagramOrder exampleTrapezoidalFourConstraints) =
        [20, 10, 30, 40, 11, 21, 31, 41, 12, 22, 32, 13, 23, 33] :=
  ⟨⟨⟨rfl, rfl, by decide, by decide, by decide, rfl, rfl⟩, rfl, rfl, rfl⟩,
    ⟨by decide, by decide, by decide, by decide⟩, by decide, by decide, by decide⟩

section

variable {τ : Type} [LinearOrder τ]

/-- C24, as amended: for a trapezoidal transcription (the grid points are the mesh points) with
four mesh points, the traversal of `flattenConstraints` copies kinematic_0, path_0, residual_0,
defect_0, kinematic_1, path_1, residual_1, defect_1, kinematic_2, path_2, residual_2, defect_2,
kinematic_3, path_3, residual_3, and the flat vector holds these columns in this order. -/
theorem flattenConstraints_trapezoidal_order [Zero T] (t : Transcription τ) (h : Consistent t)
    (htrap : t.grid = t.mesh) (hfour : t.numMeshPoints = 4) (c : Constraints (Mat T))
    (hc : DeclaredShapes t c) :
    emission t c = .ok (trapezoidalOrder c) ∧
      flattenConstraints t c = .ok (Mat.column (pieces (trapezoidalOrder c))) ∧
      pieces (trapezoidalOrder c) =
        c.kinematic.colData 0 ++ (c.path.map (fun p => p.colData 0)).flatten ++
          c.residuals.colData 0 ++ c.defects.colData 0 ++
        (c.kinematic.colData 1 ++ (c.path.map (fun p => p.colData 1)).flatten ++
          c.residuals.colData 1 ++ c.defects.colData 1) ++
        (c.kinematic.colData 2 ++ (c.path.map (fun p => p.colData 2)).flatten ++
          c.residuals.colData 2 ++ c.defects.colData 2) ++
        (c.kinematic.colData 3 ++ (c.path.map (fun p => p.colData 3)).flatten ++
          c.residuals.colData 3) := by
  have hs := hc.shapesSig
  have horder : emissionOrder t c = trapezoidalOrder c := by
    have hlen : t.mesh.length = 4 := by rw [← h.grid.numMeshPoints_eq, hfour]
    have hG : t.numGridPoints = 4 := by rw [h.grid.numGridPoints_eq, htrap, hlen]
    have hI : t.numMeshIntervals = 3 := by rw [h.intervals, hfour]
    have hrun : ∀ m, m < 3 → residualRun t m = [m] := by
      intro m hm
      unfold residualRun
      rw [meshIndex_of_grid_eq_mesh t h.grid htrap m (by omega),
        meshIndex_of_grid_eq_mesh t h.grid htrap (m + 1) (by omega)]
      simp
    unfold emissionOrder trapezoidalOrder
    rw [hfour, hG]
    simp [List.range_succ, meshBlock, hI, hrun]
  refine ⟨?_, ?_, ?_⟩
  · rw [emission_eq t h.grid h.intervals, horder]
  · rw [flattenConstraints_eq t h.grid h.intervals c (hs.columnsOK h.grid h.intervals)
      (by rw [hs.pieces_length h.grid h.intervals, h.total]), horder]
  · simp [pieces, trapezoidalOrder, List.map_map, Function.comp_def]

end

theorem flattenConstraints_trapezoidal_order_witness :
    emission exampleTrapezoidalFour exampleTrapezoidalFourConstraints =
        .ok (trapezoidalOrder exampleTrapezoidalFourConstraints) ∧
      flattenConstraints exampleTrapezoidalFour exampleTrapezoidalFourConstraints =
        .ok (Mat.column (pieces (trapezoidalOrder exampleTrapezoidalFourConstraints))) :=
  have h := flattenConstraints_trapezoidal_order exampleTrapezoidalFour
    ⟨⟨rfl, rfl, by decide, by decide, by decide, rfl, rfl⟩, rfl, rfl, rfl⟩ rfl rfl
    exampleTrapezoidalFourConstraints ⟨by decide, by decide, by decide, by decide⟩
  ⟨h.1, h.2.1⟩

section

variable {τ : Type} [LinearOrder τ]

/-- C25: under the grid invariant and with one mesh interval less than mesh points, the loop
over the mesh points ends without reading the grid or the mesh out of range: with any
`copyColumn` its result is that of the `copyColumn` calls, and the `igrid` that it leaves is
`numGridPoints - 1`. The residual column of every grid point is copied exactly once, the one
of the last grid point by the statement after the loop and not by the loop. -/
theorem residual_loop_safe (t : Transcription τ) (h : GridInvariant t)
    (hint : t.numMeshIntervals = t.numMeshPoints - 1) (P : Nat) :
    (∀ (α σ : Type) (copyColumn : α → Nat → σ → Except Error σ) (c : Constraints α) (s : σ),
      meshLoop t copyColumn c t.numMeshPoints 0 0 s =
        (((List.range t.numMeshPoints).map (meshBlock t c)).flatten.foldlM
            (fun s p => copyColumn p.1 p.2 s) s >>=
          fun s' => .ok (t.numGridPoints - 1, s'))) ∧
    ∃ log, meshLoop t logColumn (Constraints.handles P) t.numMeshPoints 0 0 [] =
          .ok (t.numGridPoints - 1, log) ∧
      emission t (Constraints.handles P) = .ok (log ++ [(.residuals, t.numGridPoints - 1)]) ∧
      (Block.residuals, t.numGridPoints - 1) ∉ log ∧
      (∀ g, (Block.residuals, g) ∈ log → g < t.numGridPoints - 1) ∧
      ∀ g, g < t.numGridPoints →
        (log ++ [(Block.residuals, t.numGridPoints - 1)]).countP
          (fun p => decide (p = (Block.residuals, g))) = 1 := by
  have hloop : ∀ (α σ : Type) (copyColumn : α → Nat → σ → Except Error σ) (c : Constraints α)
      (s : σ), meshLoop t copyColumn c t.numMeshPoints 0 0 s =
        (((List.range t.numMeshPoints).map (meshBlock t c)).flatten.foldlM
            (fun s p => copyColumn p.1 p.2 s) s >>=
          fun s' => .ok (t.numGridPoints - 1, s')) := by
    intro α σ copyColumn c s
    have hml := meshLoop_eq t (h.gridFacts hint) copyColumn c t.mesh.length 0 s (by omega)
    rw [show min 0 (t.mesh.length - 1) = 0 by omega, h.meshIndex_zero, h.meshIndex_last] at hml
    rw [h.numMeshPoints_eq, h.numGridPoints_eq, hml, List.range_eq_range']
  have hnd := nodup_emissionOrder_handles t h hint P
  have horder : emissionOrder t (Constraints.handles P) =
      ((List.range t.numMeshPoints).map (meshBlock t (Constraints.handles P))).flatten ++
        [(Block.residuals, t.numGridPoints - 1)] := rfl
  rw [horder] at hnd
  have hnotin : (Block.residuals, t.numGridPoints - 1) ∉
      ((List.range t.numMeshPoints).map (meshBlock t (Constraints.handles P))).flatten := by
    intro hin
    exact (List.nodup_append.1 hnd).2.2 hin (List.mem_singleton_self _)
  refine ⟨hloop, _, ?_, ?_, hnotin, ?_, ?_⟩
  · rw [hloop, foldlM_logColumn]
    rfl
  · rw [emission_eq t h hint, horder]
  · intro g hg
    have hmem : (Block.residuals, g) ∈ emissionOrder t (Constraints.handles P) := by
      rw [horder]
      exact List.mem_append_left _ hg
    have hb := mem_emissionOrder_bound t h hint (Constraints.handles P) _ hmem
    have hlt : g < t.numGridPoints := by
      rcases hb with ⟨h1, -⟩ | ⟨h1, -⟩ | ⟨-, h2⟩ | ⟨h1, -⟩
      · cases h1
      · simp [Constraints.handles] at h1
      · exact h2
      · cases h1
    have hne : g ≠ t.numGridPoints - 1 := by
      intro he
      rw [he] at hg
      exact hnotin hg
    omega
  · intro g hg
    have hmem : (Block.residuals, g) ∈ emissionOrder t (Constraints.handles P) :=
      mem_emissionOrder_handles t h hint P .residuals g (Or.inr (Or.inr (Or.inl ⟨rfl, hg⟩)))
    rw [horder] at hmem
    exact List.count_eq_one_of_mem hnd hmem

end

theorem residual_loop_safe_witness :
    ∃ log, meshLoop exampleGrid logColumn (Constraints.handles 1) exampleGrid.numMeshPoints
          0 0 [] = .ok (exampleGrid.numGridPoints - 1, log) ∧
      emission exampleGrid (Constraints.handles 1) =
        .ok (log ++ [(.residuals, exampleGrid.numGridPoints - 1)]) ∧
      (Block.residuals, exampleGrid.numGridPoints - 1) ∉ log ∧
      (∀ g, (Block.residuals, g) ∈ log → g < exampleGrid.numGridPoints - 1) ∧
      ∀ g, g < exampleGrid.numGridPoints →
        (log ++ [(Block.residuals, exampleGrid.numGridPoints - 1)]).countP
          (fun p => decide (p = (Block.residuals, g))) = 1 :=
  (residual_loop_safe exampleGrid exampleGrid_consistent.grid exampleGrid_consistent.intervals
    1).2

theorem foldlM_flattenCopyColumn_iflat {T : Type} (tr : List (Mat T × Nat))
    (s s' : FlattenState T)
    (h : tr.foldlM (fun s p => flattenCopyColumn p.1 p.2 s) s = .ok s') :
    s'.iflat = s.iflat + (tr.map (fun p => p.1.rows)).sum := by
  induction tr generalizing s with
  | nil =>
    simp only [List.foldlM_nil, pure, Except.pure, Except.ok.injEq] at h
    rw [← h]
    simp
  | cons p tr ih =>
    rw [List.foldlM_cons] at h
    cases hc : flattenCopyColumn p.1 p.2 s with
    | error e => rw [hc] at h; cases h
    | ok s1 =>
      rw [hc, ok_bind] at h
      have h1 : s1.iflat = s.iflat + p.1.rows := by
        unfold flattenCopyColumn at hc
        by_cases hr : p.1.rows ≠ 0
        · rw [if_pos hr] at hc
          cases hcol : p.1.getColumn p.2 with
          | error e => rw [hcol] at hc; cases hc
          | ok col =>
            rw [hcol, ok_bind] at hc
            cases hset : s.flat.setSlice s.iflat (s.iflat + p.1.rows) col with
            | error e => rw [hset] at hc; cases hc
            | ok flat =>
              rw [hset, ok_bind] at hc
              simp only [pure, Except.pure, Except.ok.injEq] at hc
              rw [← hc]
        · rw [if_neg hr] at hc
          simp only [pure, Except.pure, Except.ok.injEq] at hc
          rw [← hc]
          have : p.1.rows = 0 := not_not.1 hr
          omega
      rw [ih s1 h, h1, List.map_cons, List.sum_cons]
      omega

theorem foldlM_writtenPositions {T : Type} (tr : List (Mat T × Nat)) (log : List Nat) (i : Nat) :
    tr.foldlM (fun s p => writtenPositions p.1 p.2 s) (log, i) =
      .ok (log ++ List.range' i (tr.map (fun p => p.1.rows)).sum,
        i + (tr.map (fun p => p.1.rows)).sum) := by
  induction tr generalizing log i with
  | nil => simp [pure, Except.pure]
  | cons p tr ih =>
    rw [List.foldlM_cons]
    by_cases hr : p.1.rows ≠ 0
    · have hw : writtenPositions p.1 p.2 (log, i) =
          .ok (log ++ List.range' i p.1.rows, i + p.1.rows) := by
        unfold writtenPositions
        rw [if_pos hr]
      rw [hw, ok_bind, ih, List.map_cons, List.sum_cons, List.append_assoc,
        List.range'_append_1, Nat.add_assoc, Nat.add_comm (tr.map (fun p => p.1.rows)).sum]
    · have hw : writtenPositions p.1 p.2 (log, i) = .ok (log, i) := by
        unfold writtenPositions
        rw [if_neg hr]
      have h0 : p.1.rows = 0 := not_not.1 hr
      rw [hw, ok_bind, ih, List.map_cons, List.sum_cons, h0, Nat.zero_add]

theorem foldlM_expandCopyColumn_iflat {T : Type} (flat : Mat T)
    (hflat : flat.data.length = flat.numel) (tr : List (Block × Nat))
    (out : Constraints (Mat T)) (i : Nat) (hok : ExpandOK out tr) (s' : ExpandState T)
    (h : tr.foldlM (fun s p => expandCopyColumn flat p.1 p.2 s) (⟨out, i⟩ : ExpandState T) =
      .ok s') :
    s'.iflat = i + (tr.map (fun p => out.rowsOf p.1)).sum := by
  induction tr generalizing out i with
  | nil =>
    simp only [List.foldlM_nil, pure, Except.pure, Except.ok.injEq] at h
    rw [← h]
    simp
  | cons p tr ih =>
    obtain ⟨b, j⟩ := p
    obtain ⟨m, hm, hd, hc⟩ := hok (b, j) (List.mem_cons_self _ _)
    simp only at hm hc
    have hok' : ExpandOK out tr := fun q hq => hok q (List.mem_cons_of_mem _ hq)
    have hrows : out.rowsOf b = m.rows := by simp [Constraints.rowsOf, hm]
    simp only [List.map_cons, List.sum_cons, hrows]
    rw [List.foldlM_cons] at h
    by_cases hr : m.rows = 0
    · have hcc : expandCopyColumn flat b j (⟨out, i⟩ : ExpandState T) = .ok ⟨out, i⟩ := by
        simp [expandCopyColumn, hm, hr, pure, Except.pure]
      rw [hcc, ok_bind] at h
      rw [ih out i hok' h, hr, Nat.zero_add]
    · have hj := hc hr
      by_cases hfit : i + m.rows ≤ flat.numel
      · set v := (flat.data.drop i).take m.rows with hv
        have hvl : v.length = m.rows := by
          rw [hv, List.length_take, List.length_drop, hflat]
          omega
        set m1 : Mat T := ⟨m.rows, m.cols, m.data.take (j * m.rows) ++ v ++
          m.data.drop (j * m.rows + m.rows)⟩ with hm1
        have hle : j * m.rows + m.rows ≤ m.data.length := by
          rw [hd]
          calc j * m.rows + m.rows = m.rows * (j + 1) := by ring
            _ ≤ m.rows * m.cols := Nat.mul_le_mul_left _ hj
        have hsig : m1.sig = m.sig := by
          simp only [Mat.sig, hm1, List.length_append, List.length_take, List.length_drop, hvl,
            Prod.mk.injEq, true_and]
          omega
        have hcc : expandCopyColumn flat b j (⟨out, i⟩ : ExpandState T) =
            .ok ⟨out.set b m1, i + m.rows⟩ := by
          have hsl : flat.slice i (i + m.rows) = .ok ⟨m.rows, 1, v⟩ := by
            unfold Mat.slice
            rw [if_pos (by omega)]
            simp [hv]
          have hsc : m.setColumn j v = .ok m1 := by
            unfold Mat.setColumn
            rw [if_pos hj]
          simp only [expandCopyColumn, hm, hr, ne_eq, not_false_eq_true, if_true, hsl, ok_bind,
            hsc]
          rfl
        have hse : out.ShapeEq (out.set b m1) := Constraints.shapeEq_set out b m m1 hm hsig
        have hsum : (tr.map (fun p => (out.set b m1).rowsOf p.1)).sum =
            (tr.map (fun p => out.rowsOf p.1)).sum := by
          congr 1
          apply List.map_congr_left
          intro q _
          exact hse.rowsOf q.1
        rw [hcc, ok_bind] at h
        rw [ih (out.set b m1) (i + m.rows) (ExpandOK.of_shapeEq hse hok') h, hsum]
        omega
      · have hcc : expandCopyColumn flat b j (⟨out, i⟩ : ExpandState T) =
            .error .outOfRange := by
          have hsl : flat.slice i (i + m.rows) = .error .outOfRange := by
            unfold Mat.slice
            rw [if_neg hfit]
          simp only [expandCopyColumn, hm, hr, ne_eq, not_false_eq_true, if_true, hsl]
          rfl
        rw [hcc] at h
        cases h

theorem expandInit_shapes {τ : Type} [LT τ] {T : Type} [Zero T] (t : Transcription τ)
    (hg : GridInvariant t) (hpaths : t.numPathConstraints = t.pathConstraintInfos.length) :
    ∃ out : Constraints (Mat T), expandInit t = .ok out ∧ ShapesSig t out := by
  have hM : t.numMeshPoints ≠ 0 := by
    rw [hg.numMeshPoints_eq]
    intro h0
    have hm : t.mesh = [] := List.length_eq_zero.1 h0
    have hf := hg.first
    rw [hm] at hf
    cases hgr : t.grid with
    | nil => exact hg.nonempty hgr
    | cons a l => simp [hgr] at hf
  unfold expandInit
  rw [if_neg (by rw [hpaths]; omega)]
  refine ⟨_, rfl, ?_⟩
  refine ⟨by simp [Mat.sig, Mat.dense], by simp [Mat.sig, Mat.dense], by simp [Mat.sig, Mat.dense],
    ?_⟩
  simp only
  rw [initPath_eq t 0 _ (by rw [hpaths]; omega), List.map_map]
  apply List.map_congr_left
  intro size _
  simp [Mat.sig, Mat.dense]

section

variable {τ : Type} [LinearOrder τ]

/-- C26: under the grid invariant, with one mesh interval less than mesh points and blocks of
the declared shapes, the offset `iflat` that the traversal of `flattenConstraints` and of
`expandConstraints` reaches is `numMeshPoints*(K + sum of the path rows) + numGridPoints*R +
(numMeshPoints-1)*D`; the traversals complete when `m_numConstraints` is not less than this
number, and the functions succeed exactly when `m_numConstraints` equals it. Then the writes of
`flattenConstraints` go to the positions `0`, `1`, ... of `flat`, each position once: after
any number of the `copyColumn` calls, `flat` holds the copied columns, one after the other, up
to the offset `iflat` and its initial zeros from there on, so every call writes the positions
from its offset on and leaves the positions before it as they were; at the end `flat` is the
concatenation of the copied columns. `expandConstraints` reads the positions in the same
order into the columns of `out`. -/
theorem constraints_offset_total {T : Type} [Zero T] (t : Transcription τ) (hg : GridInvariant t)
    (hint : t.numMeshIntervals = t.numMeshPoints - 1)
    (hpaths : t.numPathConstraints = t.pathConstraintInfos.length)
    (c : Constraints (Mat T)) (hc : DeclaredShapes t c) (l : List T)
    (hl : l.length = t.numConstraints) :
    declaredTotal t = t.numMeshPoints * (c.kinematic.rows + (c.path.map Mat.rows).sum) +
      t.numGridPoints * c.residuals.rows + (t.numMeshPoints - 1) * c.defects.rows ∧
    (∀ s, flattenConstraintsRun t c = .ok s → s.iflat = declaredTotal t) ∧
    (∀ s, expandConstraintsRun t (Mat.column l) = .ok s → s.iflat = declaredTotal t) ∧
    (declaredTotal t ≤ t.numConstraints →
      (∃ s, flattenConstraintsRun t c = .ok s) ∧
      ∃ s, expandConstraintsRun t (Mat.column l) = .ok s) ∧
    ((∃ r, flattenConstraints t c = .ok r) ↔ t.numConstraints = declaredTotal t) ∧
    ((∃ out, expandConstraints t (Mat.column l) = .ok out) ↔
      t.numConstraints = declaredTotal t) ∧
    traverse t writtenPositions c ([], 0) =
      .ok (List.range (declaredTotal t), declaredTotal t) ∧
    (declaredTotal t ≤ t.numConstraints → ∀ k,
      ((emissionOrder t c).take k).foldlM (fun s p => flattenCopyColumn p.1 p.2 s)
          (⟨Mat.dense t.numConstraints 1, 0⟩ : FlattenState T) =
        .ok ⟨⟨t.numConstraints, 1, pieces ((emissionOrder t c).take k) ++
            List.replicate (t.numConstraints - (pieces ((emissionOrder t c).take k)).length) 0⟩,
          (pieces ((emissionOrder t c).take k)).length⟩ ∧
      ((emissionOrder t c).take k).foldlM (fun s p => writtenPositions p.1 p.2 s) ([], 0) =
        .ok (List.range (pieces ((emissionOrder t c).take k)).length,
          (pieces ((emissionOrder t c).take k)).length)) ∧
    (declaredTotal t ≤ t.numConstraints →
      flattenConstraintsRun t c = .ok ⟨⟨t.numConstraints, 1, pieces (emissionOrder t c) ++
        List.replicate (t.numConstraints - declaredTotal t) 0⟩, declaredTotal t⟩) ∧
    (t.numConstraints = declaredTotal t →
      flattenConstraints t c = .ok (Mat.column (pieces (emissionOrder t c))) ∧
      (pieces (emissionOrder t c)).length = t.numConstraints ∧
      ∃ out, expandConstraints t (Mat.column l) = .ok out ∧
        ((emissionOrder t (Constraints.handles out.path.length)).map out.col).flatten = l) := by
  have hs := hc.shapesSig
  have hcols := hs.columnsOK hg hint
  have hsum : ((emissionOrder t c).map (fun p => p.1.rows)).sum = declaredTotal t := by
    rw [← CasOC.length_pieces _ hcols, hs.pieces_length hg hint]
  have hformula := sum_emissionOrder t hg hint c Mat.rows
  rw [hsum] at hformula
  have hflat : (Mat.column l).data.length = (Mat.column l).numel := by
    simp [Mat.column, Mat.numel]
  have hnumel : (Mat.column l).numel = t.numConstraints := by
    simp [Mat.column, Mat.numel, hl]
  obtain ⟨out0, h0, hs0⟩ := expandInit_shapes (T := T) t hg hpaths
  have hfl : ∀ s, flattenConstraintsRun t c = .ok s → s.iflat = declaredTotal t := by
    intro s hrun
    unfold flattenConstraintsRun at hrun
    rw [traverse_eq t hg hint] at hrun
    rw [foldlM_flattenCopyColumn_iflat _ _ s hrun, hsum]
    simp
  have hex : ∀ s, expandConstraintsRun t (Mat.column l) = .ok s → s.iflat = declaredTotal t := by
    intro s hrun
    unfold expandConstraintsRun at hrun
    rw [h0, ok_bind, traverse_eq t hg hint] at hrun
    rw [foldlM_expandCopyColumn_iflat (Mat.column l) hflat _ out0 0 (hs0.expandOK hg hint) s hrun,
      hs0.sum_rowsOf hg hint]
    simp
  have hprefix : declaredTotal t ≤ t.numConstraints → ∀ tr : List (Mat T × Nat),
      (∀ p ∈ tr, p ∈ emissionOrder t c) →
      (pieces tr).length ≤ declaredTotal t →
      tr.foldlM (fun s p => flattenCopyColumn p.1 p.2 s)
          (⟨Mat.dense t.numConstraints 1, 0⟩ : FlattenState T) =
        .ok ⟨⟨t.numConstraints, 1, pieces tr ++
            List.replicate (t.numConstraints - (pieces tr).length) 0⟩, (pieces tr).length⟩ := by
    intro hle tr hsub hlen
    unfold Mat.dense
    rw [foldlM_flattenCopyColumn t.numConstraints tr (fun p hp => hcols p (hsub p hp)) _ 0
      (by simp) (by omega)]
    simp
  have htake : ∀ k, (pieces ((emissionOrder t c).take k)).length ≤ declaredTotal t := by
    intro k
    rw [← hs.pieces_length hg hint]
    conv_rhs => rw [← List.take_append_drop k (emissionOrder t c)]
    simp only [pieces, List.map_append, List.flatten_append, List.length_append]
    omega
  refine ⟨hformula, hfl, hex, ?_, ?_, ?_, ?_, ?_, ?_, ?_⟩
  · intro hle
    constructor
    · unfold flattenConstraintsRun Mat.dense
      rw [traverse_eq t hg hint,
        foldlM_flattenCopyColumn t.numConstraints _ hcols _ 0 (by simp)
          (by rw [hs.pieces_length hg hint]; omega)]
      exact ⟨_, rfl⟩
    · obtain ⟨out, h1, -⟩ := foldlM_expandCopyColumn (Mat.column l) hflat
        (emissionOrder t (Constraints.handles out0.path.length))
        (nodup_emissionOrder_handles t hg hint _) out0 0 (hs0.expandOK hg hint)
        (by rw [hs0.sum_rowsOf hg hint, hnumel]; omega)
      unfold expandConstraintsRun
      rw [h0, ok_bind, traverse_eq t hg hint, h1]
      exact ⟨_, rfl⟩
  · constructor
    · rintro ⟨r, hr⟩
      unfold flattenConstraints at hr
      cases hrun : flattenConstraintsRun t c with
      | error e => rw [hrun] at hr; cases hr
      | ok s =>
        rw [hrun, ok_bind] at hr
        by_cases hne : s.iflat ≠ t.numConstraints
        · rw [if_pos hne] at hr; cases hr
        · rw [← hfl s hrun]
          exact (not_not.1 hne).symm
    · intro heq
      exact ⟨_, flattenConstraints_eq t hg hint c hcols
        (by rw [hs.pieces_length hg hint, heq])⟩
  · constructor
    · rintro ⟨r, hr⟩
      unfold expandConstraints at hr
      cases hrun : expandConstraintsRun t (Mat.column l) with
      | error e => rw [hrun] at hr; cases hr
      | ok s =>
        rw [hrun, ok_bind] at hr
        by_cases hne : s.iflat ≠ t.numConstraints
        · rw [if_pos hne] at hr; cases hr
        · rw [← hex s hrun]
          exact (not_not.1 hne).symm
    · intro heq
      obtain ⟨out, h1, -⟩ := expandConstraints_eq t ⟨hg, hint, hpaths, heq⟩ l hl
      exact ⟨out, h1⟩
  · rw [traverse_eq t hg hint, foldlM_writtenPositions, hsum, List.range_eq_range']
    simp
  · intro hle k
    constructor
    · exact hprefix hle _ (fun p hp => List.mem_of_mem_take hp) (htake k)
    · rw [foldlM_writtenPositions,
        ← CasOC.length_pieces _ (fun p hp => hcols p (List.mem_of_mem_take hp)),
        List.range_eq_range']
      simp
  · intro hle
    unfold flattenConstraintsRun
    rw [traverse_eq t hg hint, hprefix hle _ (fun p hp => hp)
      (by rw [hs.pieces_length hg hint]), hs.pieces_length hg hint]
  · intro heq
    refine ⟨flattenConstraints_eq t hg hint c hcols (by rw [hs.pieces_length hg hint, heq]),
      by rw [hs.pieces_length hg hint, heq], ?_⟩
    obtain ⟨out, h1, -, h3⟩ := expandConstraints_eq t ⟨hg, hint, hpaths, heq⟩ l hl
    exact ⟨out, h1, h3⟩

end

theorem constraints_offset_total_witness :
    (∀ s, flattenConstraintsRun exampleGrid exampleConstraints = .ok s →
        s.iflat = declaredTotal exampleGrid) ∧
      ((∃ r, flattenConstraints exampleGrid exampleConstraints = .ok r) ↔
        exampleGrid.numConstraints = declaredTotal exampleGrid) ∧
      traverse exampleGrid writtenPositions exampleConstraints ([], 0) =
        .ok (List.range (declaredTotal exampleGrid), declaredTotal exampleGrid) ∧
      flattenConstraints exampleGrid exampleConstraints =
        .ok (Mat.column (pieces (emissionOrder exampleGrid exampleConstraints))) ∧
      (pieces (emissionOrder exampleGrid exampleConstraints)).length =
        exampleGrid.numConstraints :=
  have h := constraints_offset_total exampleGrid exampleGrid_consistent.grid
    exampleGrid_consistent.intervals exampleGrid_consistent.paths exampleConstraints
    exampleConstraints_shapes (List.range 18) (by decide)
  ⟨h.2.1, h.2.2.2.2.1, h.2.2.2.2.2.2.1, (h.2.2.2.2.2.2.2.2.2 (by decide)).1,
    (h.2.2.2.2.2.2.2.2.2 (by decide)).2.1⟩

end Lemmas

end CasOC

namespace OpenSim

section Lemmas

theorem compareChars_eq_zero (a b : List Char) : compareChars a b = 0 ↔ a = b := by
  induction a generalizing b with
  | nil => cases b <;> simp [compareChars]
  | cons x xs ih =>
    cases b with
    | nil => simp [compareChars]
    | cons y ys =>
      simp only [compareChars, List.cons.injEq]
      by_cases h1 : x < y
      · simp [h1, ne_of_lt h1]
      · by_cases h2 : y < x
        · simp [h1, h2, ne_of_gt h2]
        · have hxy : x = y := le_antisymm (not_lt.1 h2) (not_lt.1 h1)
          simp [h1, h2, hxy, ih]

/-- C18: `startsWith` returns, and it returns true exactly when the string is the start
followed by some string; so it is true for the empty start and false for a start that is
longer than the string. -/
theorem startsWith_iff (s p : CppString) :
    ∃ b, startsWith s p = .ok b ∧ (b = true ↔ ∃ t, s = p ++ t) ∧
      (p = [] → b = true) ∧ (s.length < p.length → b = false) := by
  have hiff : ∀ b, startsWith s p = .ok b → (b = true ↔ ∃ t, s = p ++ t) := by
    intro b hb
    unfold startsWith at hb
    by_cases hlen : s.length ≥ p.length
    · rw [if_pos hlen] at hb
      unfold CppString.compare at hb
      rw [if_neg (by omega)] at hb
      simp only [CasOC.ok_bind, pure, Except.pure, List.drop_zero] at hb
      injection hb with hb
      rw [← hb, beq_iff_eq, compareChars_eq_zero]
      constructor
      · intro h
        have hsplit := List.take_append_drop p.length s
        rw [h] at hsplit
        exact ⟨s.drop p.length, hsplit.symm⟩
      · rintro ⟨t, rfl⟩
        simp
    · rw [if_neg hlen] at hb
      simp only [pure, Except.pure] at hb
      injection hb with hb
      rw [← hb]
      constructor
      · intro h; cases h
      · rintro ⟨t, rfl⟩
        simp at hlen
  have hret : ∃ b, startsWith s p = .ok b := by
    unfold startsWith
    by_cases hlen : s.length ≥ p.length
    · rw [if_pos hlen]
      unfold CppString.compare
      rw [if_neg (by omega)]
      exact ⟨_, rfl⟩
    · rw [if_neg hlen]
      exact ⟨_, rfl⟩
  obtain ⟨b, hb⟩ := hret
  refine ⟨b, hb, hiff b hb, ?_, ?_⟩
  · intro hp
    exact (hiff b hb).2 ⟨s, by rw [hp]; rfl⟩
  · intro hlt
    cases hbv : b with
    | false => rfl
    | true =>
      obtain ⟨t, ht⟩ := (hiff b hb).1 hbv
      rw [ht, List.length_append] at hlt
      omega

/-- C19: `endsWith` returns, and it returns true exactly when the string is some string
followed by the ending; so it is true for the empty ending and false for an ending that is
longer than the string. -/
theorem endsWith_iff (s e : CppString) :
    ∃ b, endsWith s e = .ok b ∧ (b = true ↔ ∃ t, s = t ++ e) ∧
      (e = [] → b = true) ∧ (s.length < e.length → b = false) := by
  have hiff : ∀ b, endsWith s e = .ok b → (b = true ↔ ∃ t, s = t ++ e) := by
    intro b hb
    unfold endsWith at hb
    by_cases hlen : s.length ≥ e.length
    · rw [if_pos hlen] at hb
      unfold CppString.compare at hb
      rw [if_neg (by omega)] at hb
      simp only [CasOC.ok_bind, pure, Except.pure] at hb
      injection hb with hb
      rw [← hb, beq_iff_eq, compareChars_eq_zero]
      have htake : (s.drop (s.length - e.length)).take e.length = s.drop (s.length - e.length) := by
        apply List.take_of_length_le
        rw [List.length_drop]
        omega
      rw [htake]
      constructor
      · intro h
        have hsplit := List.take_append_drop (s.length - e.length) s
        rw [h] at hsplit
        exact ⟨s.take (s.length - e.length), hsplit.symm⟩
      · rintro ⟨t, rfl⟩
        simp
    · rw [if_neg hlen] at hb
      simp only [pure, Except.pure] at hb
      injection hb with hb
      rw [← hb]
      constructor
      · intro h; cases h
      · rintro ⟨t, rfl⟩
        simp at hlen
  have hret : ∃ b, endsWith s e = .ok b := by
    unfold endsWith
    by_cases hlen : s.length ≥ e.length
    · rw [if_pos hlen]
      unfold CppString.compare
      rw [if_neg (by omega)]
      exact ⟨_, rfl⟩
    · rw [if_neg hlen]
      exact ⟨_, rfl⟩
  obtain ⟨b, hb⟩ := hret
  refine ⟨b, hb, hiff b hb, ?_, ?_⟩
  · intro he
    exact (hiff b hb).2 ⟨s, by rw [he, List.append_nil]⟩
  · intro hlt
    cases hbv : b with
    | false => rfl
    | true =>
      obtain ⟨t, ht⟩ := (hiff b hb).1 hbv
      rw [ht, List.length_append] at hlt
      omega

section

variable {τ : Type} [LinearOrder τ]

theorem checkNonDecreasing_cases (l : List τ) :
    (checkNonDecreasing l = .ok () ∧ l.Sorted (· ≤ ·)) ∨
    (checkNonDecreasing l = .error .exception ∧
      ∃ (i : Nat) (x y : τ), l[i]? = some x ∧ l[i + 1]? = some y ∧ y < x) := by
  induction l with
  | nil => exact Or.inl ⟨rfl, List.sorted_nil⟩
  | cons a l ih =>
    cases l with
    | nil => exact Or.inl ⟨rfl, List.sorted_singleton a⟩
    | cons b rest =>
      by_cases hba : b < a
      · refine Or.inr ⟨by simp [checkNonDecreasing, hba], 0, a, b, rfl, by simp, hba⟩
      · have hstep : checkNonDecreasing (a :: b :: rest) = checkNonDecreasing (b :: rest) := by
          simp [checkNonDecreasing, hba]
        rcases ih with ⟨h1, h2⟩ | ⟨h1, i, x, y, hx, hy, hlt⟩
        · refine Or.inl ⟨hstep.trans h1, ?_⟩
          rw [List.sorted_cons]
          refine ⟨?_, h2⟩
          intro c hc
          have hab : a ≤ b := not_lt.1 hba
          rcases List.mem_cons.1 hc with rfl | hc'
          · exact hab
          · exact le_trans hab ((List.sorted_cons.1 h2).1 c hc')
        · exact Or.inr ⟨hstep.trans h1, i + 1, x, y, by simpa using hx, by simpa using hy, hlt⟩

theorem not_sorted_of_descent (l : List τ) (i : Nat) (x y : τ) (hx : l[i]? = some x)
    (hy : l[i + 1]? = some y) (hlt : y < x) : ¬ l.Sorted (· ≤ ·) := by
  intro hs
  obtain ⟨h1, rfl⟩ := List.getElem?_eq_some_iff.1 hx
  obtain ⟨h2, rfl⟩ := List.getElem?_eq_some_iff.1 hy
  have := (List.pairwise_iff_getElem.1 hs) i (i + 1) h1 h2 (by omega)
  exact absurd hlt (not_lt.2 this)

theorem sorted_bounds (l : List τ) (hs : l.Sorted (· ≤ ·)) (first last x : τ)
    (hf : l[0]? = some first) (hl : l[l.length - 1]? = some last) (hx : x ∈ l) :
    first ≤ x ∧ x ≤ last := by
  obtain ⟨i, hi, rfl⟩ := List.getElem_of_mem hx
  obtain ⟨h0, rfl⟩ := List.getElem?_eq_some_iff.1 hf
  obtain ⟨hN, rfl⟩ := List.getElem?_eq_some_iff.1 hl
  constructor
  · by_cases hi0 : i = 0
    · subst hi0; exact le_refl _
    · exact (List.pairwise_iff_getElem.1 hs) 0 i h0 hi (by omega)
  · by_cases hiN : i = l.length - 1
    · subst hiN; exact le_refl _
    · exact (List.pairwise_iff_getElem.1 hs) i (l.length - 1) hi hN (by omega)

end

/-- The checks of `resample` for times in a linear order, which has no NaN. For a table with a
non-empty time column, `resample` throws an exception when the new times are fewer than two,
or some new time is before the first or after the last time of the table, or some new time is
less than the one before it; otherwise (equal consecutive new times and new times equal to the
first or last time included) it passes its checks and its result is that of the interpolation
that follows them. -/
theorem resample_throws_iff {τ ρ : Type} [LinearOrder τ]
    (interpolate : TimeSeriesTable τ ρ → List τ → Except Failure (TimeSeriesTable τ ρ))
    (table : TimeSeriesTable τ ρ) (newTime : List τ) (timeFirst timeLast : τ)
    (hfirst : table.independentColumn[0]? = some timeFirst)
    (hlast : table.independentColumn[table.independentColumn.length - 1]? = some timeLast) :
    ((newTime.length < 2 ∨ (∃ x ∈ newTime, x < timeFirst ∨ timeLast < x) ∨
        ∃ (i : Nat) (x y : τ), newTime[i]? = some x ∧ newTime[i + 1]? = some y ∧ y < x) →
      resample interpolate table newTime = .error .exception) ∧
    (¬ (newTime.length < 2 ∨ (∃ x ∈ newTime, x < timeFirst ∨ timeLast < x) ∨
        ∃ (i : Nat) (x y : τ), newTime[i]? = some x ∧ newTime[i + 1]? = some y ∧ y < x) →
      resample interpolate table newTime = interpolate table newTime) := by
  have hmain :
      ((newTime.length < 2 ∨ (∃ x ∈ newTime, x < timeFirst ∨ timeLast < x) ∨
          ∃ (i : Nat) (x y : τ), newTime[i]? = some x ∧ newTime[i + 1]? = some y ∧ y < x) ∧
        resample interpolate table newTime = .error .exception) ∨
      (¬ (newTime.length < 2 ∨ (∃ x ∈ newTime, x < timeFirst ∨ timeLast < x) ∨
          ∃ (i : Nat) (x y : τ), newTime[i]? = some x ∧ newTime[i + 1]? = some y ∧ y < x) ∧
        resample interpolate table newTime = interpolate table newTime) := by
    by_cases hlen : newTime.length < 2
    · refine Or.inl ⟨Or.inl hlen, ?_⟩
      unfold resample
      simp only [hlen, if_true]
    · obtain ⟨new0, hnew0⟩ : ∃ a, newTime[0]? = some a :=
        ⟨_, List.getElem?_eq_getElem (by omega)⟩
      obtain ⟨newLast, hnewLast⟩ : ∃ a, newTime[newTime.length - 1]? = some a :=
        ⟨_, List.getElem?_eq_getElem (by omega)⟩
      have hmem0 : new0 ∈ newTime := by
        obtain ⟨h, rfl⟩ := List.getElem?_eq_some_iff.1 hnew0
        exact List.getElem_mem h
      have hmemL : newLast ∈ newTime := by
        obtain ⟨h, rfl⟩ := List.getElem?_eq_some_iff.1 hnewLast
        exact List.getElem_mem h
      have hunf : resample interpolate table newTime =
          if new0 < timeFirst then .error .exception
          else if timeLast < newLast then .error .exception
          else
            match checkNonDecreasing newTime with
            | .error e => .error e
            | .ok _ => interpolate table newTime := by
        unfold resample
        simp only [hlen, if_false, hnew0, hfirst, hnewLast, hlast]
      by_cases h1 : new0 < timeFirst
      · exact Or.inl ⟨Or.inr (Or.inl ⟨new0, hmem0, Or.inl h1⟩), by rw [hunf, if_pos h1]⟩
      · by_cases h2 : timeLast < newLast
        · exact Or.inl ⟨Or.inr (Or.inl ⟨newLast, hmemL, Or.inr h2⟩),
            by rw [hunf, if_neg h1, if_pos h2]⟩
        · rcases checkNonDecreasing_cases newTime with ⟨hc, hs⟩ | ⟨hc, i, x, y, hx, hy, hlt⟩
          · refine Or.inr ⟨?_, by rw [hunf, if_neg h1, if_neg h2, hc]⟩
            rintro (h | ⟨x, hx, hout1 | hout2⟩ | ⟨i, x, y, hx, hy, hlt⟩)
            · exact absurd h hlen
            · have := (sorted_bounds newTime hs new0 newLast x hnew0 hnewLast hx).1
              exact absurd (lt_of_le_of_lt this hout1) h1
            · have := (sorted_bounds newTime hs new0 newLast x hnew0 hnewLast hx).2
              exact absurd (lt_of_lt_of_le hout2 this) h2
            · exact absurd hs (not_sorted_of_descent newTime i x y hx hy hlt)
          · exact Or.inl ⟨Or.inr (Or.inr ⟨i, x, y, hx, hy, hlt⟩),
              by rw [hunf, if_neg h1, if_neg h2, hc]⟩
  rcases hmain with ⟨hc, hres⟩ | ⟨hc, hres⟩
  · exact ⟨fun _ => hres, fun hn => absurd hc hn⟩
  · exact ⟨fun h => absurd h hc, fun _ => hres⟩

theorem resample_throws_iff_witness :
    resample exampleInterpolate exampleTable [0, 2, 2, 4] =
        exampleInterpolate exampleTable [0, 2, 2, 4] ∧
      resample exampleInterpolate exampleTable [0, 5] = .error .exception :=
  ⟨(resample_throws_iff exampleInterpolate exampleTable [0, 2, 2, 4] 0 4 rfl rfl).2
      (by
        rintro (h | h | ⟨i, x, y, hx, hy, hlt⟩)
        · exact absurd h (by decide)
        · exact absurd h (by decide)
        · exact not_sorted_of_descent [0, 2, 2, 4] i x y hx hy hlt (by decide)),
    (resample_throws_iff exampleInterpolate exampleTable [0, 5] 0 4 rfl rfl).1
      (Or.inr (Or.inl ⟨5, by decide, Or.inr (by decide)⟩))⟩

theorem castInt_of_lt (n : Nat) (h : n < 2 ^ 31) : castInt n = n := by
  unfold castInt
  omega

theorem runJar_cons_some {T : Type} (jar : ThreadsafeJar T) (op : JarOp T) (ops : List (JarOp T))
    (final : ThreadsafeJar T) (events : List (JarEvent T))
    (h : runJar jar (op :: ops) = some (final, events)) :
    ∃ jar' event rest, op.apply jar = some (jar', event) ∧
      runJar jar' ops = some (final, rest) ∧ events = event :: rest := by
  simp only [runJar] at h
  cases hop : op.apply jar with
  | none => rw [hop] at h; cases h
  | some p =>
    obtain ⟨jar', event⟩ := p
    rw [hop] at h
    dsimp only at h
    cases hr : runJar jar' ops with
    | none => rw [hr] at h; cases h
    | some q =>
      obtain ⟨final', rest⟩ := q
      rw [hr] at h
      simp only [Option.some.injEq, Prod.mk.injEq] at h
      exact ⟨jar', event, rest, rfl, by rw [hr, ← h.1], h.2.symm⟩

theorem apply_take_some {T : Type} (jar jar' : ThreadsafeJar T) (event : JarEvent T)
    (h : JarOp.take.apply jar = some (jar', event)) :
    ∃ top, jar.entries = top :: jar'.entries ∧ event = .took top ∧
      jar.take = some (top, jar') := by
  simp only [JarOp.apply, ThreadsafeJar.take] at h ⊢
  cases he : jar.entries with
  | nil => rw [he] at h; cases h
  | cons top rest =>
    rw [he] at h
    simp only [Option.some.injEq, Prod.mk.injEq] at h
    refine ⟨top, ?_, h.2.symm, ?_⟩
    · rw [← h.1]
    · rw [← h.1]

theorem apply_leave_some {T : Type} (jar jar' : ThreadsafeJar T) (entry : T)
    (event : JarEvent T) (h : (JarOp.leave entry).apply jar = some (jar', event)) :
    jar' = jar.leave entry ∧ event = .left entry := by
  simp only [JarOp.apply, Option.some.injEq, Prod.mk.injEq] at h
  exact ⟨h.1.symm, h.2.symm⟩

/-- C15: after any completed sequence of calls on a jar that starts empty, the entries of the
jar together with the objects returned by `take` are, as a multiset, exactly the objects passed
to `leave`; `size` is the number of entries, `leave` raises it by one, a completed `take`
lowers it by one, and `take` completes exactly when `size` is positive. The number of entries
is taken to fit the type `int`. -/
theorem pool_invariant {T : Type} (ops : List (JarOp T)) (jar : ThreadsafeJar T)
    (events : List (JarEvent T))
    (hrun : runJar { entries := [] } ops = some (jar, events))
    (hfit : jar.entries.length + 1 < 2 ^ 31) :
    (jar.entries ++ tooks events).Perm (lefts events) ∧
    jar.size = jar.entries.length ∧
    (∀ entry, (jar.leave entry).size = jar.size + 1) ∧
    (∀ top jar', jar.take = some (top, jar') → jar'.size = jar.size - 1) ∧
    ((∃ r, jar.take = some r) ↔ 0 < jar.size) := by
  have hinv : ∀ (ops : List (JarOp T)) (start final : ThreadsafeJar T)
      (events : List (JarEvent T)), runJar start ops = some (final, events) →
      (final.entries ++ tooks events).Perm (lefts events ++ start.entries) := by
    intro ops
    induction ops with
    | nil =>
      intro start final events h
      simp only [runJar, Option.some.injEq, Prod.mk.injEq] at h
      rw [← h.1, ← h.2]
      simp [tooks, lefts]
    | cons op ops ih =>
      intro start final events h
      obtain ⟨jar', event, rest, hop, hrest, rfl⟩ := runJar_cons_some start op ops final events h
      have hperm := ih jar' final rest hrest
      cases op with
      | take =>
        obtain ⟨top, hentries, rfl, -⟩ := apply_take_some start jar' event hop
        rw [hentries]
        simp only [tooks, lefts]
        refine List.Perm.trans List.perm_middle ?_
        refine List.Perm.trans (List.Perm.cons top hperm) ?_
        exact List.perm_middle.symm
      | leave entry =>
        obtain ⟨rfl, rfl⟩ := apply_leave_some start jar' entry event hop
        simp only [tooks, lefts, ThreadsafeJar.leave] at hperm ⊢
        refine List.Perm.trans hperm ?_
        exact List.perm_middle
  have hsize : jar.size = jar.entries.length :=
    castInt_of_lt _ (by omega)
  refine ⟨?_, hsize, ?_, ?_, ?_⟩
  · simpa using hinv ops { entries := [] } jar events hrun
  · intro entry
    rw [hsize]
    simp only [ThreadsafeJar.size, ThreadsafeJar.leave, List.length_cons]
    rw [castInt_of_lt _ (by omega)]
    push_cast
    rfl
  · intro top jar' htake
    rw [hsize]
    simp only [ThreadsafeJar.take] at htake
    cases he : jar.entries with
    | nil => rw [he] at htake; cases htake
    | cons a rest =>
      rw [he] at htake
      simp only [Option.some.injEq, Prod.mk.injEq] at htake
      rw [← htake.2]
      simp only [ThreadsafeJar.size]
      rw [he] at hfit
      simp only [List.length_cons] at hfit ⊢
      rw [castInt_of_lt _ (by omega)]
      push_cast
      omega
  · rw [hsize]
    simp only [ThreadsafeJar.take]
    cases he : jar.entries with
    | nil => simp
    | cons a rest => simp

theorem pool_invariant_witness :
    ([2, 1] ++ tooks ([.left 1, .left 2, .took 2, .left 2] : List (JarEvent Nat))).Perm
        (lefts ([.left 1, .left 2, .took 2, .left 2] : List (JarEvent Nat))) ∧
      (ThreadsafeJar.mk [2, 1]).size = 2 ∧
      ((∃ r, (ThreadsafeJar.mk [2, 1]).take = some r) ↔ 0 < (ThreadsafeJar.mk [2, 1]).size) :=
  have h := pool_invariant [.leave 1, .leave 2, .take, .leave 2] (ThreadsafeJar.mk [2, 1])
    [.left 1, .left 2, .took 2, .left 2] (by decide) (by decide)
  ⟨h.1, h.2.1, h.2.2.2.2⟩

/-- C16: in a completed sequence of calls on a jar that starts empty, in which every entry
passed to `leave` is owned by the caller (the jar does not hold it), each object returned by a
`take` was passed to `leave` before, and between two calls of `take` that return the same
object there is a `leave` of that object. -/
theorem take_after_leave {T : Type} [DecidableEq T] (ops : List (JarOp T))
    (jar : ThreadsafeJar T) (events : List (JarEvent T))
    (hrun : runJar { entries := [] } ops = some (jar, events))
    (howned : ownedLeaves { entries := [] } ops = true) :
    (∀ (j : Nat) (x : T), events[j]? = some (.took x) →
      ∃ k, k < j ∧ events[k]? = some (.left x)) ∧
    (∀ (i j : Nat) (x : T), i < j → events[i]? = some (.took x) →
      events[j]? = some (.took x) → ∃ k, i < k ∧ k < j ∧ events[k]? = some (.left x)) := by
  have hfirst : ∀ (ops : List (JarOp T)) (start final : ThreadsafeJar T)
      (events : List (JarEvent T)) (j : Nat) (x : T),
      runJar start ops = some (final, events) → x ∉ start.entries →
      events[j]? = some (.took x) → ∃ k, k < j ∧ events[k]? = some (.left x) := by
    intro ops
    induction ops with
    | nil =>
      intro start final events j x h _ hj
      simp only [runJar, Option.some.injEq, Prod.mk.injEq] at h
      rw [← h.2] at hj
      simp at hj
    | cons op ops ih =>
      intro start final events j x h hx hj
      obtain ⟨jar', event, rest, hop, hrest, rfl⟩ := runJar_cons_some start op ops final events h
      cases op with
      | take =>
        obtain ⟨top, hentries, rfl, -⟩ := apply_take_some start jar' event hop
        rw [hentries] at hx
        cases j with
        | zero =>
          simp only [List.getElem?_cons_zero, Option.some.injEq, JarEvent.took.injEq] at hj
          exact absurd (by rw [hj]; exact List.mem_cons_self _ _) hx
        | succ j =>
          simp only [List.getElem?_cons_succ] at hj
          obtain ⟨k, hk, hek⟩ := ih jar' final rest j x hrest
            (fun hmem => hx (List.mem_cons_of_mem _ hmem)) hj
          exact ⟨k + 1, by omega, by simpa using hek⟩
      | leave entry =>
        obtain ⟨rfl, rfl⟩ := apply_leave_some start jar' entry event hop
        cases j with
        | zero => simp at hj
        | succ j =>
          simp only [List.getElem?_cons_succ] at hj
          by_cases hxe : x = entry
          · exact ⟨0, by omega, by simp [hxe]⟩
          · obtain ⟨k, hk, hek⟩ := ih (start.leave entry) final rest j x hrest
              (by
                simp only [ThreadsafeJar.leave, List.mem_cons, not_or]
                exact ⟨hxe, hx⟩) hj
            exact ⟨k + 1, by omega, by simpa using hek⟩
  have hbetween : ∀ (ops : List (JarOp T)) (start final : ThreadsafeJar T)
      (events : List (JarEvent T)) (i j : Nat) (x : T),
      runJar start ops = some (final, events) → ownedLeaves start ops = true →
      start.entries.Nodup → i < j → events[i]? = some (.took x) →
      events[j]? = some (.took x) → ∃ k, i < k ∧ k < j ∧ events[k]? = some (.left x) := by
    intro ops
    induction ops with
    | nil =>
      intro start final events i j x h _ _ _ hi _
      simp only [runJar, Option.some.injEq, Prod.mk.injEq] at h
      rw [← h.2] at hi
      simp at hi
    | cons op ops ih =>
      intro start final events i j x h ho hnd hij hi hj
      obtain ⟨jar', event, rest, hop, hrest, rfl⟩ := runJar_cons_some start op ops final events h
      obtain ⟨j, rfl⟩ : ∃ j', j = j' + 1 := ⟨j - 1, by omega⟩
      simp only [List.getElem?_cons_succ] at hj
      cases op with
      | take =>
        obtain ⟨top, hentries, rfl, htake⟩ := apply_take_some start jar' event hop
        rw [hentries] at hnd
        have ho' : ownedLeaves jar' ops = true := by
          simp only [ownedLeaves, htake] at ho
          exact ho
        cases i with
        | zero =>
          simp only [List.getElem?_cons_zero, Option.some.injEq, JarEvent.took.injEq] at hi
          subst hi
          obtain ⟨k, hk, hek⟩ := hfirst ops jar' final rest j top hrest
            (List.nodup_cons.1 hnd).1 hj
          exact ⟨k + 1, by omega, by omega, by simpa using hek⟩
        | succ i =>
          simp only [List.getElem?_cons_succ] at hi
          obtain ⟨k, hk1, hk2, hek⟩ := ih jar' final rest i j x hrest ho'
            (List.nodup_cons.1 hnd).2 (by omega) hi hj
          exact ⟨k + 1, by omega, by omega, by simpa using hek⟩
      | leave entry =>
        obtain ⟨rfl, rfl⟩ := apply_leave_some start jar' entry event hop
        simp [ownedLeaves] at ho
        cases i with
        | zero => simp at hi
        | succ i =>
          simp only [List.getElem?_cons_succ] at hi
          obtain ⟨k, hk1, hk2, hek⟩ := ih (start.leave entry) final rest i j x hrest ho.2
            (List.nodup_cons.2 ⟨ho.1, hnd⟩) (by omega) hi hj
          exact ⟨k + 1, by omega, by omega, by simpa using hek⟩
  exact ⟨fun j x hj => hfirst ops { entries := [] } jar events j x hrun (by simp) hj,
    fun i j x hij hi hj =>
      hbetween ops { entries := [] } jar events i j x hrun howned List.nodup_nil hij hi hj⟩

theorem take_after_leave_witness :
    runJar { entries := [] } exampleJarOps =
        some ({ entries := [] },
          [.left 1, .left 2, .took 2, .took 1, .left 2, .took 2]) ∧
      (∃ k, 2 < k ∧ k < 5 ∧
        ([.left 1, .left 2, .took 2, .took 1, .left 2, .took 2] : List (JarEvent Nat))[k]? =
          some (.left 2)) :=
  ⟨by decide,
    (take_after_leave exampleJarOps { entries := [] }
      [.left 1, .left 2, .took 2, .took 1, .left 2, .took 2] (by decide) (by decide)).2
      2 5 2 (by decide) (by decide) (by decide)⟩

theorem cppRound_nsToSec (ns : Int) (h : 0 ≤ ns) :
    cppRound (nsToSec ns) = (ns + 500000000) / 1000000000 := by
  have hnn : (0 : ℚ) ≤ nsToSec ns := by
    unfold nsToSec
    exact div_nonneg (by exact_mod_cast h) (by norm_num)
  have hx : nsToSec ns + 1 / 2 = ((ns + 500000000 : ℤ) : ℚ) / ((1000000000 : ℕ) : ℚ) := by
    unfold nsToSec
    push_cast
    ring
  unfold cppRound
  rw [if_pos hnn, hx, Rat.floor_intCast_div_natCast]
  rfl

/-- With the exact quotient for the seconds, the conversion to `int` is undefined from
`2^31 - 1/2` seconds on. -/
theorem formatNs_undefined_of_large (ns : Int) (h : 2147483647500000000 ≤ ns) :
    Stopwatch.formatNs ns = none := by
  have hcast : castDoubleToInt (cppRound (nsToSec ns)) = none := by
    rw [cppRound_nsToSec _ (by omega)]
    unfold castDoubleToInt
    rw [if_neg]
    intro hc
    have := hc.2
    omega
  simp only [Stopwatch.formatNs, hcast]
  rfl

/-- C20: for a time of `2^32` seconds, a value of the type `long long`, the conversion of the
rounded seconds to `int` is undefined, so `formatNs` has no defined result, and no string with
the time in hours and minutes. -/
theorem formatNs_large_undefined : Stopwatch.formatNs 4294967296000000000 = none := by
  have hround : cppRound (nsToSec 4294967296000000000) = 4294967296 := by
    rw [cppRound_nsToSec _ (by decide)]
    decide
  simp only [Stopwatch.formatNs, hround]
  rfl

/-- Over a linearly ordered type of values, which has no NaN, `checkPropertyInRangeOrSet` throws
exactly when the value is neither in the range from `lower` to `upper` nor a member of the set,
and it returns when the value is in the range or in the set. -/
theorem checkPropertyInRangeOrSet_iff {T : Type} [LinearOrder T] (p : Property T)
    (lower upper : T) (set : List T) :
    ((∃ e, checkPropertyInRangeOrSet p lower upper set = .error e) ↔
      ¬ (lower ≤ p.value ∧ p.value ≤ upper) ∧ p.value ∉ set) ∧
    (¬ (lower ≤ p.value ∧ p.value ≤ upper) ∧ p.value ∉ set →
      checkPropertyInRangeOrSet p lower upper set = .error .exception) ∧
    ((lower ≤ p.value ∧ p.value ≤ upper) ∨ p.value ∈ set →
      checkPropertyInRangeOrSet p lower upper set = .ok ()) := by
  have hfind : (set.find? (fun s => decide (¬ s < p.value ∧ ¬ p.value < s))).isNone = true ↔
      p.value ∉ set := by
    rw [Option.isNone_iff_eq_none, List.find?_eq_none]
    constructor
    · intro h hmem
      have := h p.value hmem
      simp at this
    · intro h s hs
      simp only [decide_eq_true_eq, not_and, not_not]
      intro h1
      by_contra h2
      have : s = p.value := le_antisymm (not_lt.1 h2) (not_lt.1 h1)
      exact h (this ▸ hs)
  have hrange : (p.value < lower ∨ p.value > upper) ↔ ¬ (lower ≤ p.value ∧ p.value ≤ upper) := by
    rw [not_and_or, not_le, not_le]
  by_cases hc : ¬ (lower ≤ p.value ∧ p.value ≤ upper) ∧ p.value ∉ set
  · have hres : checkPropertyInRangeOrSet p lower upper set = .error .exception := by
      unfold checkPropertyInRangeOrSet
      simp only
      rw [if_pos ⟨hrange.2 hc.1, hfind.2 hc.2⟩]
    refine ⟨⟨fun _ => hc, fun _ => ⟨_, hres⟩⟩, fun _ => hres, ?_⟩
    rintro (h | h)
    · exact absurd h hc.1
    · exact absurd h hc.2
  · have hres : checkPropertyInRangeOrSet p lower upper set = .ok () := by
      unfold checkPropertyInRangeOrSet
      simp only
      rw [if_neg]
      rintro ⟨h1, h2⟩
      exact hc ⟨hrange.1 h1, hfind.1 h2⟩
    refine ⟨⟨?_, fun h => absurd h hc⟩, fun h => absurd h hc, fun _ => hres⟩
    rintro ⟨e, he⟩
    rw [hres] at he
    cases he

theorem runCalls_append {Model Table : Type} (fin : Model → Model × Option Failure)
    (pre post : List (SolverCall Model Table)) :
    runCalls fin (pre ++ post) = post.foldl (SolverCall.apply fin) (runCalls fin pre) := by
  unfold runCalls
  rw [List.foldl_append]

theorem foldl_apply_model {Model Table : Type} (fin : Model → Model × Option Failure)
    (calls : List (SolverCall Model Table)) (solver : InverseMuscleSolver Model Table) :
    (calls.foldl (SolverCall.apply fin) solver)._model = none ↔
      solver._model = none ∧ ∀ m, SolverCall.setModel m ∉ calls := by
  induction calls generalizing solver with
  | nil => simp
  | cons call calls ih =>
    rw [List.foldl_cons, ih]
    cases call with
    | setModel model =>
      constructor
      · rintro ⟨h, -⟩
        cases h
      · rintro ⟨-, h⟩
        exact absurd (List.mem_cons_self _ _) (h model)
    | _ =>
      simp [SolverCall.apply, InverseMuscleSolver.setKinematicsData,
        InverseMuscleSolver.setNetGeneralizedForcesData]

theorem foldl_apply_kinematics {Model Table : Type} (fin : Model → Model × Option Failure)
    (calls : List (SolverCall Model Table)) (solver : InverseMuscleSolver Model Table)
    (h : ∀ t, SolverCall.setKinematicsData t ∉ calls) :
    (calls.foldl (SolverCall.apply fin) solver)._kinematics = solver._kinematics := by
  induction calls generalizing solver with
  | nil => rfl
  | cons call calls ih =>
    rw [List.foldl_cons, ih _ (fun t ht => h t (List.mem_cons_of_mem _ ht))]
    cases call with
    | setKinematicsData t => exact absurd (List.mem_cons_self _ _) (h t)
    | _ => rfl

/-- C21: after any sequence of calls on a new solver, `getModel` throws exactly when `setModel`
is not among the calls and `getKinematicsData` throws exactly when `setKinematicsData` is not
among them; after a `setKinematicsData` of a table, with no later `setKinematicsData`,
`getKinematicsData` returns that table. -/
theorem getters_throw_iff_unset {Model Table : Type} (fin : Model → Model × Option Failure)
    (calls : List (SolverCall Model Table)) :
    (((runCalls fin calls).getModel = .error .exception) ↔
      ∀ m, SolverCall.setModel m ∉ calls) ∧
    ((∃ m, (runCalls fin calls).getModel = .ok m) ↔ ∃ m, SolverCall.setModel m ∈ calls) ∧
    (((runCalls fin calls).getKinematicsData = .error .exception) ↔
      ∀ t, SolverCall.setKinematicsData t ∉ calls) ∧
    ((∃ t, (runCalls fin calls).getKinematicsData = .ok t) ↔
      ∃ t, SolverCall.setKinematicsData t ∈ calls) ∧
    (∀ pre t post, calls = pre ++ SolverCall.setKinematicsData t :: post →
      (∀ t', SolverCall.setKinematicsData t' ∉ post) →
      (runCalls fin calls).getKinematicsData = .ok t) := by
  have hlast : ∀ pre t post, calls = pre ++ SolverCall.setKinematicsData t :: post →
      (∀ t', SolverCall.setKinematicsData t' ∉ post) →
      (runCalls fin calls)._kinematics = some t := by
    intro pre t post hcalls hpost
    rw [hcalls, runCalls_append, List.foldl_cons, foldl_apply_kinematics fin post _ hpost]
    rfl
  have hnone : (runCalls fin calls)._kinematics = none ↔
      ∀ t, SolverCall.setKinematicsData t ∉ calls := by
    constructor
    · intro hk t ht
      have hex : ∃ pre t' post, calls = pre ++ SolverCall.setKinematicsData t' :: post ∧
          ∀ t'', SolverCall.setKinematicsData t'' ∉ post := by
        clear hk hlast
        induction calls generalizing t with
        | nil => cases ht
        | cons call calls ih =>
          by_cases hin : ∃ t1, SolverCall.setKinematicsData t1 ∈ calls
          · obtain ⟨t1, ht1⟩ := hin
            obtain ⟨pre, t', post, hc, hp⟩ := ih t1 ht1
            exact ⟨call :: pre, t', post, by rw [hc]; rfl, hp⟩
          · rcases List.mem_cons.1 ht with hhead | htail
            · exact ⟨[], t, calls, by rw [hhead]; rfl, fun t'' h'' => hin ⟨t'', h''⟩⟩
            · exact absurd ⟨t, htail⟩ hin
      obtain ⟨pre, t', post, hc, hp⟩ := hex
      rw [hlast pre t' post hc hp] at hk
      cases hk
    · intro h
      unfold runCalls
      rw [foldl_apply_kinematics fin calls _ h]
      rfl
  have hmodel : (runCalls fin calls)._model = none ↔ ∀ m, SolverCall.setModel m ∉ calls := by
    unfold runCalls
    rw [foldl_apply_model]
    simp [InverseMuscleSolver.construct]
  refine ⟨?_, ?_, ?_, ?_, ?_⟩
  · rw [← hmodel]
    unfold InverseMuscleSolver.getModel
    cases (runCalls fin calls)._model <;> simp
  · have : (∃ m, SolverCall.setModel m ∈ calls) ↔ ¬ ∀ m, SolverCall.setModel m ∉ calls := by
      simp
    rw [this, ← hmodel]
    unfold InverseMuscleSolver.getModel
    cases (runCalls fin calls)._model <;> simp
  · rw [← hnone]
    unfold InverseMuscleSolver.getKinematicsData
    cases (runCalls fin calls)._kinematics <;> simp
  · have : (∃ t, SolverCall.setKinematicsData t ∈ calls) ↔
        ¬ ∀ t, SolverCall.setKinematicsData t ∉ calls := by
      simp
    rw [this, ← hnone]
    unfold InverseMuscleSolver.getKinematicsData
    cases (runCalls fin calls)._kinematics <;> simp
  · intro pre t post hcalls hpost
    unfold InverseMuscleSolver.getKinematicsData
    rw [hlast pre t post hcalls hpost]

/-- C14: with `double` times, `resample` does not reject the new times 0, 7, NaN, 1, 4 for a
table with the times 0 to 4, although 7 is after the last time of the table: every comparison
of its checks is false, whatever the interpolation that follows them, and with the
interpolation of the spec it returns a table on these times. -/
theorem resample_accepts_nan :
    (∀ interpolate : TimeSeriesTable Double Unit → List Double →
        Except Failure (TimeSeriesTable Double Unit),
      resample interpolate exampleDoubleTable exampleNaNTimes =
        interpolate exampleDoubleTable exampleNaNTimes) ∧
    resample (interpolateRows (fun _ _ => ())) exampleDoubleTable exampleNaNTimes =
      .ok ⟨exampleNaNTimes, [(), (), (), (), ()]⟩ ∧
    exampleDoubleTable.independentColumn[0]? = some (.number 0) ∧
    exampleDoubleTable.independentColumn[exampleDoubleTable.independentColumn.length - 1]? =
      some (.number 4) ∧
    Double.number 7 ∈ exampleNaNTimes ∧ Double.number 4 < Double.number 7 ∧
    ¬ (Double.number 0 ≤ Double.number 7 ∧ Double.number 7 ≤ Double.number 4) :=
  ⟨fun _ => rfl, by decide, rfl, rfl, by decide, by decide, by decide⟩

/-- C22: with a `double` value, `checkPropertyInRangeOrSet` returns for the value NaN, the range
from 0 to 1 and the set that holds -1, although NaN is neither in the range nor in the set:
both comparisons of the guard are false. -/
theorem checkPropertyInRangeOrSet_accepts_nan :
    checkPropertyInRangeOrSet (⟨"p", Double.nan⟩ : Property Double) (.number 0) (.number 1)
        [.number (-1)] = .ok () ∧
      ¬ (Double.number 0 ≤ Double.nan ∧ Double.nan ≤ Double.number 1) ∧
      Double.nan ∉ [Double.number (-1)] :=
  ⟨by decide, by decide, by decide⟩

end Lemmas

end OpenSim
